import Mathlib

/-!
Shallow embedding of the pmbd block driver (drivers/block/pmbd.c) and of the
parts of include/linux/pmbd.h it uses.  The storage state is modelled
byte-for-byte: the PM window and each buffer's slot ring are flat byte maps,
block/sector arithmetic follows the macros SECTOR_TO_PBN, BYTE_TO_PBN,
PBN_TO_SECTOR, SECTOR_TO_BYTE and friends with the fixed geometry
sector_size = 512 and pb_size = PAGE_SIZE = 4096.  The embedding gives the
driver's sequential (single-threaded) semantics: every spinlock critical
section of the C code is one atomic step here.  Configuration toggles that do
not change the bytes moved (clflush, non-temporal copies, sub-page diffing,
write verification, checksumming, time statistics) are modelled as their
identity data effect.  Kernel panic branches are modelled as Option.none.
-/

namespace Pmbd

/-- PMBD_SECTOR_SIZE (512 bytes). -/
def SECTOR_SIZE : Nat := 512

/-- pmbd->pb_size = PAGE_SIZE (4096 bytes). -/
def PB_SIZE : Nat := 4096

abbrev Byte := Nat

/-- SECTOR_TO_BYTE(N) = N << SECTOR_SHIFT. -/
def sectorToByte (n : Nat) : Nat := n * SECTOR_SIZE

/-- BYTE_TO_SECTOR(N) = N >> SECTOR_SHIFT. -/
def byteToSector (n : Nat) : Nat := n / SECTOR_SIZE

/-- BYTE_TO_PBN(PMBD, BYTES) = BYTES / pb_size. -/
def byteToPbn (n : Nat) : Nat := n / PB_SIZE

/-- PBN_TO_BYTE(PMBD, PBN) = PBN * pb_size. -/
def pbnToByte (n : Nat) : Nat := n * PB_SIZE

/-- SECTOR_TO_PBN(PMBD, SECT) = BYTE_TO_PBN(SECTOR_TO_BYTE(SECT)). -/
def sectorToPbn (n : Nat) : Nat := byteToPbn (sectorToByte n)

/-- PBN_TO_SECTOR(PMBD, PBN) = BYTE_TO_SECTOR(PBN_TO_BYTE(PBN)). -/
def pbnToSector (n : Nat) : Nat := byteToSector (pbnToByte n)

/-- The data effect of memcpy(dst + dstOff, src + srcOff, len) on flat byte
maps: bytes of the destination window are replaced by the source bytes,
everything else is untouched. -/
def memcpy (dst : Nat → Byte) (dstOff : Nat) (src : Nat → Byte) (srcOff len : Nat) :
    Nat → Byte :=
  fun a => if dstOff ≤ a ∧ a < dstOff + len then src (srcOff + (a - dstOff)) else dst a

/-- PMBD_BUFFER_T: one DRAM staging buffer.  bbi_space is split into its two
fields (pbn, dirty); buffer_space is the slot ring as a flat byte map, slot
BBN occupying bytes [PB_SIZE*BBN, PB_SIZE*(BBN+1)). -/
@[ext] structure Buffer where
  numBlocks : Nat
  batchSize : Nat
  bufferSpace : Nat → Byte
  bbiPbn : Nat → Nat
  bbiDirty : Nat → Bool
  posDirty : Nat
  posClean : Nat
  numDirty : Nat

/-- PMBD_DEVICE_T restricted to the fields the buffered write path uses.
pbi_space keeps only the bbn field (its spinlock is the atomicity of the
embedding's steps); mem_space is the PM window as a flat byte map. -/
@[ext] structure Device where
  totalPB : Nat
  memSpace : Nat → Byte
  pbiBbn : Nat → Nat
  numBuffers : Nat
  bufferStride : Nat
  buffers : Nat → Buffer
  bufmode : Bool
  wpmodePte : Bool

/-- PBN_TO_PMBD_BUFFER_ID(PMBD, PBN) = (PBN / buffer_stride) % num_buffers. -/
def bufIdOf (dev : Device) (pbn : Nat) : Nat :=
  (pbn / dev.bufferStride) % dev.numBuffers

/-- Replace buffer b of the device. -/
def setBuffer (dev : Device) (b : Nat) (buf : Buffer) : Device :=
  { dev with buffers := fun i => if i = b then buf else dev.buffers i }

/-- PMBD_BUFFER_NEXT_POS. -/
def nextPos (buf : Buffer) (pos : Nat) : Nat :=
  if pos = buf.numBlocks - 1 then 0 else pos + 1

/-- PMBD_BUFFER_PRIO_POS. -/
def prioPos (buf : Buffer) (pos : Nat) : Nat :=
  if pos = 0 then buf.numBlocks - 1 else pos - 1

/-- PMBD_BUFFER_NEXT_N_POS. -/
def nextNPos (buf : Buffer) (pos n : Nat) : Nat :=
  (pos + n) % buf.numBlocks

/-- _pmbd_buffer_lookup: under the caller-held PBI lock, return the BBN held
in pbi->bbn when PMBD_BLOCK_IS_BUFFERED (pbi->bbn < buffer->num_blocks),
else none. -/
def _pmbd_buffer_lookup (dev : Device) (b : Nat) (pbn : Nat) : Option Nat :=
  if dev.pbiBbn pbn < (dev.buffers b).numBlocks then some (dev.pbiBbn pbn) else none

/-- The byte a read of address addr would observe: the staging slot when the
covering physical block is buffered, the PM window otherwise.  This mirrors
the per-block choice made by copy_from_pmbd_buffered. -/
def logicalByte (dev : Device) (addr : Nat) : Byte :=
  let pbn := addr / PB_SIZE
  let b := bufIdOf dev pbn
  if dev.pbiBbn pbn < (dev.buffers b).numBlocks then
    (dev.buffers b).bufferSpace (PB_SIZE * dev.pbiBbn pbn + addr % PB_SIZE)
  else dev.memSpace addr

/-! ### Flush engine (_pmbd_buffer_flush_range, pmbd_buffer_flush) -/

/-- First loop of _pmbd_buffer_flush_range: for count physical blocks starting
at pbn, check PMBD_BLOCK_IS_BUFFERED (panic otherwise: none), and when the
slot is dirty, memcpy the slot into the PM window and mark the slot clean. -/
def flushPass1 (b : Nat) : Nat → Device → Nat → Option Device
  | 0, dev, _ => some dev
  | count + 1, dev, pbn =>
    let buf := dev.buffers b
    if dev.pbiBbn pbn < buf.numBlocks then
      let bbn := dev.pbiBbn pbn
      let dev1 :=
        if buf.bbiDirty bbn then
          let pm1 := memcpy dev.memSpace (PB_SIZE * pbn) buf.bufferSpace (PB_SIZE * bbn) PB_SIZE
          let buf1 := { buf with bbiDirty := fun i => if i = bbn then false else buf.bbiDirty i }
          { setBuffer dev b buf1 with memSpace := pm1 }
        else dev
      flushPass1 b count dev1 (pbn + 1)
    else none

/-- Second loop of _pmbd_buffer_flush_range: clear the BBI and PBI link info
(PMBD_BUFFER_SET_BBI_UNBUFFERED writes totalPB + 2 into bbi->pbn,
PMBD_SET_BLOCK_UNBUFFERED writes totalPB + 3 into pbi->bbn) and count the
cleaned blocks. -/
def flushPass2 (b : Nat) : Nat → Device → Nat → Nat → Nat × Device
  | 0, dev, _, acc => (acc, dev)
  | count + 1, dev, pbn, acc =>
    let buf := dev.buffers b
    let bbn := dev.pbiBbn pbn
    let buf1 := { buf with bbiPbn := fun i => if i = bbn then dev.totalPB + 2 else buf.bbiPbn i }
    let dev1 := { setBuffer dev b buf1 with
                  pbiBbn := fun p => if p = pbn then dev.totalPB + 3 else dev.pbiBbn p }
    flushPass2 b count dev1 (pbn + 1) (acc + 1)

/-- _pmbd_buffer_flush_range(buffer, pbn_s, pbn_e): flush the contiguous run
of physical blocks [pbn_s, pbn_e] from buffer b to PM and unlink them.  The
page-permission flips, write verification and checksum generation of the C
code do not move bytes and are omitted. -/
def _pmbd_buffer_flush_range (dev : Device) (b : Nat) (pbnS pbnE : Nat) :
    Option (Nat × Device) :=
  match flushPass1 b (pbnE + 1 - pbnS) dev pbnS with
  | none => none
  | some dev1 => some (flushPass2 b (pbnE + 1 - pbnS) dev1 pbnS 0)

/-- The scan loop of pmbd_buffer_flush: walk the dirty window from position i
(stop is PMBD_BUFFER_NEXT_POS of the last dirty position), collecting
(bbi->pbn, bbn) pairs into the sort buffer; a clean slot inside the range is
the panic branch (none); collection stops after `remaining` entries
(num_scanned >= num_to_clean) or when the guard i = stop fires with
num_scanned > 0. -/
def scanDirty (buf : Buffer) : Nat → Nat → Nat → Bool → Option (List (Nat × Nat))
  | 0, _, _, _ => some []
  | remaining + 1, i, stop, isFirst =>
    if i = stop ∧ isFirst = false then some []
    else if buf.bbiDirty i = false then none
    else (scanDirty buf remaining (nextPos buf i) stop false).map
           (fun l => (buf.bbiPbn i, i) :: l)

/-- The run-forming loop of pmbd_buffer_flush: walk the (sorted) scan entries,
extend the pending run [first, last] while bbi->pbn is contiguous, otherwise
flush the pending run and start a new one; the final run is flushed at the
end. -/
def flushRuns (b : Nat) : List (Nat × Nat) → Device → Nat → Nat → Nat → Option (Nat × Device)
  | [], dev, first, last, acc =>
    match _pmbd_buffer_flush_range dev b first last with
    | none => none
    | some (n, dev1) => some (acc + n, dev1)
  | e :: rest, dev, first, last, acc =>
    let p := (dev.buffers b).bbiPbn e.2
    if p = last + 1 then flushRuns b rest dev first p acc
    else
      match _pmbd_buffer_flush_range dev b first last with
      | none => none
      | some (n, dev1) => flushRuns b rest dev1 p p (acc + n)

/-- pmbd_buffer_flush(buffer, num_to_clean): clamp the budget to num_dirty,
return 0 on an empty buffer or zero budget, scan the dirty window into the
sort buffer, sort it by PBN when the device uses PTE-based write protection,
flush the contiguous runs, and finally advance pos_dirty by the cleaned count
modulo N and decrement num_dirty. -/
def pmbd_buffer_flush (dev : Device) (b : Nat) (numToClean0 : Nat) : Option (Nat × Device) :=
  let buf := dev.buffers b
  let numToClean := if numToClean0 > buf.numDirty then buf.numDirty else numToClean0
  if buf.numDirty = 0 ∨ numToClean = 0 then some (0, dev)
  else
    let bbnS := buf.posDirty
    let bbnE := prioPos buf buf.posClean
    match scanDirty buf numToClean bbnS (nextPos buf bbnE) true with
    | none => none
    | some entries =>
      if entries.length = 0 then some (0, dev)
      else
        let sorted := if dev.wpmodePte then
            List.insertionSort (fun a b : Nat × Nat => a.1 ≤ b.1) entries
          else entries
        match sorted with
        | [] => some (0, dev)
        | e :: rest =>
          let p := (dev.buffers b).bbiPbn e.2
          match flushRuns b rest dev p p 0 with
          | none => none
          | some (numCleaned, dev1) =>
            let buf1 := dev1.buffers b
            let buf2 := { buf1 with
                          posDirty := nextNPos buf1 bbnS numCleaned,
                          numDirty := buf1.numDirty - numCleaned }
            some (numCleaned, setBuffer dev1 b buf2)

/-- The three callers of pmbd_buffer_check_and_flush. -/
inductive Caller where
  | destroyer
  | syncer
  | allocator
deriving DecidableEq

/-- pmbd_buffer_check_and_flush: the destroyer always flushes; the syncer
skips an empty buffer; the allocator skips a buffer that is no longer full. -/
def pmbd_buffer_check_and_flush (dev : Device) (b : Nat) (numToClean : Nat)
    (caller : Caller) : Option (Nat × Device) :=
  match caller with
  | .destroyer => pmbd_buffer_flush dev b numToClean
  | .syncer =>
    if (dev.buffers b).numDirty = 0 then some (0, dev)
    else pmbd_buffer_flush dev b numToClean
  | .allocator =>
    if ¬ (dev.buffers b).numBlocks ≤ (dev.buffers b).numDirty then some (0, dev)
    else pmbd_buffer_flush dev b numToClean

/-- The reservation step of pmbd_buffer_alloc_block, done under buffer_lock:
take pos_clean, advance it, bump num_dirty, mark the slot dirty before any
data lands in it, then bind bbi->pbn and pbi->bbn. -/
def allocSlot (dev : Device) (b : Nat) (pbn : Nat) : Nat × Device :=
  let buf := dev.buffers b
  let pos := buf.posClean
  let buf1 := { buf with
                posClean := nextPos buf buf.posClean,
                numDirty := buf.numDirty + 1,
                bbiDirty := fun i => if i = pos then true else buf.bbiDirty i,
                bbiPbn := fun i => if i = pos then pbn else buf.bbiPbn i }
  (pos, { setBuffer dev b buf1 with
          pbiBbn := fun p => if p = pbn then pos else dev.pbiBbn p })

/-- pmbd_buffer_alloc_block: when the buffer is full (PMBD_BUFFER_IS_FULL),
drop buffer_lock and flush a batch with CALLER_ALLOCATOR, then re-check.  In
the sequential embedding one bounded flush of a full buffer always frees
slots, so the C code's check_again loop runs at most once; the second-full
branch is its (unreachable) continuation. -/
def pmbd_buffer_alloc_block (dev : Device) (b : Nat) (pbn : Nat) : Option (Nat × Device) :=
  if (dev.buffers b).numBlocks ≤ (dev.buffers b).numDirty then
    match pmbd_buffer_check_and_flush dev b (dev.buffers b).batchSize .allocator with
    | none => none
    | some (_, dev1) =>
      if (dev1.buffers b).numBlocks ≤ (dev1.buffers b).numDirty then none
      else some (allocSlot dev1 b pbn)
  else some (allocSlot dev b pbn)

/-! ### Buffered read/write (copy_to_pmbd_buffered, copy_from_pmbd_buffered) -/

/-- pmbd_buffer_aligned_request_start: in-block sector offset of the first
sector of the request. -/
def pmbd_buffer_aligned_request_start (sector _bytes : Nat) : Nat :=
  let pbnS := sectorToPbn sector
  let blockS := pbnToSector pbnS
  if sector ≥ blockS then sector - blockS else 0

/-- pmbd_buffer_aligned_request_end: in-block sector offset of the last sector
of the request. -/
def pmbd_buffer_aligned_request_end (sector bytes : Nat) : Nat :=
  let sectorE := sector + byteToSector bytes - 1
  let pbnE := sectorToPbn sectorE
  let blockE := pbnToSector pbnE
  if sectorE ≥ blockE then sectorE - blockE else pbnToSector 1 - 1

/-- One iteration of the copy_to_pmbd_buffered loop for physical block pbn
covering in-block sectors [sectS, sectE]: look the block up under its PBI
lock; write into the existing slot, or allocate a slot, hydrate it with the
whole PM block when the request does not cover the full block, then write;
finally mark the slot dirty. -/
def writeBlock (dev : Device) (src : Nat → Byte) (srcOff pbn sectS sectE : Nat) :
    Option Device :=
  let size := sectorToByte (sectE - sectS + 1)
  let b := bufIdOf dev pbn
  match _pmbd_buffer_lookup dev b pbn with
  | some bbn =>
    let buf := dev.buffers b
    let data1 := memcpy buf.bufferSpace (PB_SIZE * bbn + sectorToByte sectS) src srcOff size
    let buf1 := { buf with
                  bufferSpace := data1,
                  bbiDirty := fun i => if i = bbn then true else buf.bbiDirty i }
    some (setBuffer dev b buf1)
  | none =>
    match pmbd_buffer_alloc_block dev b pbn with
    | none => none
    | some (bbn, dev1) =>
      let buf := dev1.buffers b
      let hydrated :=
        if size < PB_SIZE then
          memcpy buf.bufferSpace (PB_SIZE * bbn) dev1.memSpace (PB_SIZE * pbn) PB_SIZE
        else buf.bufferSpace
      let data1 := memcpy hydrated (PB_SIZE * bbn + sectorToByte sectS) src srcOff size
      let buf1 := { buf with
                    bufferSpace := data1,
                    bbiDirty := fun i => if i = bbn then true else buf.bbiDirty i }
      some (setBuffer dev1 b buf1)

/-- The per-block loop of copy_to_pmbd_buffered: count blocks starting at pbn,
with the source pointer advancing by the per-block size. -/
def writeLoop (src : Nat → Byte) (pbnS pbnE offS offE : Nat) :
    Nat → Device → Nat → Nat → Option Device
  | 0, dev, _, _ => some dev
  | count + 1, dev, pbn, srcOff =>
    let sectS := if pbn = pbnS then offS else 0
    let sectE := if pbn = pbnE then offE else pbnToSector 1 - 1
    let size := sectorToByte (sectE - sectS + 1)
    match writeBlock dev src srcOff pbn sectS sectE with
    | none => none
    | some dev1 => writeLoop src pbnS pbnE offS offE count dev1 (pbn + 1) (srcOff + size)

/-- copy_to_pmbd_buffered(pmbd, src, sector, bytes). -/
def copy_to_pmbd_buffered (dev : Device) (src : Nat → Byte) (sector bytes : Nat) :
    Option Device :=
  let pbnS := sectorToPbn sector
  let pbnE := byteToPbn (sectorToByte sector + bytes - 1)
  let offS := pmbd_buffer_aligned_request_start sector bytes
  let offE := pmbd_buffer_aligned_request_end sector bytes
  writeLoop src pbnS pbnE offS offE (pbnE + 1 - pbnS) dev pbnS 0

/-- One iteration of the copy_from_pmbd_buffered loop: read the covered part
of block pbn from the staging slot when buffered, from PM otherwise. -/
def readBlock (dev : Device) (out : Nat → Byte) (dstOff pbn sectS sectE : Nat) :
    Nat → Byte :=
  let size := sectorToByte (sectE - sectS + 1)
  let b := bufIdOf dev pbn
  match _pmbd_buffer_lookup dev b pbn with
  | some bbn =>
    memcpy out dstOff (dev.buffers b).bufferSpace (PB_SIZE * bbn + sectorToByte sectS) size
  | none =>
    memcpy out dstOff dev.memSpace (PB_SIZE * pbn + sectorToByte sectS) size

/-- The per-block loop of copy_from_pmbd_buffered. -/
def readLoop (dev : Device) (pbnS pbnE offS offE : Nat) :
    Nat → (Nat → Byte) → Nat → Nat → (Nat → Byte)
  | 0, out, _, _ => out
  | count + 1, out, pbn, dstOff =>
    let sectS := if pbn = pbnS then offS else 0
    let sectE := if pbn = pbnE then offE else pbnToSector 1 - 1
    let size := sectorToByte (sectE - sectS + 1)
    readLoop dev pbnS pbnE offS offE count (readBlock dev out dstOff pbn sectS sectE)
      (pbn + 1) (dstOff + size)

/-- copy_from_pmbd_buffered(pmbd, dst, sector, bytes). -/
def copy_from_pmbd_buffered (dev : Device) (dst : Nat → Byte) (sector bytes : Nat) :
    Nat → Byte :=
  let pbnS := sectorToPbn sector
  let pbnE := byteToPbn (sectorToByte sector + bytes - 1)
  let offS := pmbd_buffer_aligned_request_start sector bytes
  let offE := pmbd_buffer_aligned_request_end sector bytes
  readLoop dev pbnS pbnE offS offE (pbnE + 1 - pbnS) dst pbnS 0

/-! ### Unbuffered read/write and the top-level copy functions -/

/-- copy_to_pmbd_unbuffered: memcpy_to_pmbd into mem_space + sector *
sector_size (the permission flips, verification and checksums move no
bytes). -/
def copy_to_pmbd_unbuffered (dev : Device) (src : Nat → Byte) (sector bytes : Nat) :
    Device :=
  { dev with memSpace := memcpy dev.memSpace (sector * SECTOR_SIZE) src 0 bytes }

/-- copy_from_pmbd_unbuffered: memcpy_from_pmbd out of mem_space + sector *
sector_size. -/
def copy_from_pmbd_unbuffered (dev : Device) (dst : Nat → Byte) (sector bytes : Nat) :
    Nat → Byte :=
  memcpy dst 0 dev.memSpace (sector * SECTOR_SIZE) bytes

/-- copy_to_pmbd: with the buffer enabled write into the buffer, and for FUA
additionally write straight to PM; otherwise write unbuffered. -/
def copy_to_pmbd (dev : Device) (src : Nat → Byte) (sector bytes : Nat) (doFua : Bool) :
    Option Device :=
  if dev.bufmode then
    match copy_to_pmbd_buffered dev src sector bytes with
    | none => none
    | some dev1 =>
      if doFua then some (copy_to_pmbd_unbuffered dev1 src sector bytes) else some dev1
  else some (copy_to_pmbd_unbuffered dev src sector bytes)

/-- copy_from_pmbd. -/
def copy_from_pmbd (dev : Device) (dst : Nat → Byte) (sector bytes : Nat) : Nat → Byte :=
  if dev.bufmode then copy_from_pmbd_buffered dev dst sector bytes
  else copy_from_pmbd_unbuffered dev dst sector bytes

/-- pmbd_write_barrier: after quiescing the in-flight writes, drain every
buffer of the device with CALLER_DESTROYER and budget num_blocks (the
cache-attribute fence at the end moves no bytes). -/
def pmbd_write_barrier (dev : Device) : Option Device :=
  (List.range dev.numBuffers).foldlM
    (fun d b =>
      match pmbd_buffer_check_and_flush d b ((d.buffers b).numBlocks) .destroyer with
      | none => none
      | some (_, d1) => some d1)
    dev

/-! ### Emulation engine (cal_trans_time, pmbd_emul_transfer_time,
pmbd_emul_access_time, emul_end) -/

/-- Read or write direction of a request. -/
inductive Rw where
  | read
  | write
deriving DecidableEq

/-- The emulation parameters of PMBD_DEVICE_T. -/
structure EmulConfig where
  rdlat : Nat
  wrlat : Nat
  rdbw : Nat
  wrbw : Nat
  simmode : Nat
deriving DecidableEq

/-- One direction's batch window state (batch_sectors[rw],
batch_start_cycle[rw], batch_end_cycle[rw]). -/
structure BatchState where
  batchSectors : Nat
  batchStart : Nat
  batchEnd : Nat
deriving DecidableEq

/-- PMBD_BATCH_MAX_SECTORS. -/
def PMBD_BATCH_MAX_SECTORS : Nat := 4096

/-- PMBD_BATCH_MIN_SECTORS. -/
def PMBD_BATCH_MIN_SECTORS : Nat := 256

/-- PMBD_BATCH_MAX_INTERVAL (ns). -/
def PMBD_BATCH_MAX_INTERVAL : Nat := 1000000

/-- PMBD_BATCH_MAX_DURATION (ns). -/
def PMBD_BATCH_MAX_DURATION : Nat := 10000000

/-- MAX_SYNC_SLOWDOWN (ns): above this, async_slowdown is used unless a lock
is held. -/
def MAX_SYNC_SLOWDOWN : Nat := 10000000

/-- _cycle_to_ns(cycle, khz) = cycle * 1000000 / khz. -/
def cycle_to_ns (cycle khz : Nat) : Nat := cycle * 1000000 / khz

/-- DIV64_ROUND with the C code's uint32_t intermediate truncations. -/
def DIV64_ROUND (dividend divisor : Nat) : Nat :=
  if 0 < divisor then
    let quot1 := dividend / divisor % 2 ^ 32
    let md := dividend % divisor % 2 ^ 32
    let mult := md * 2 % 2 ^ 32
    let quot2 := mult / divisor % 2 ^ 32
    quot1 + quot2
  else 0

/-- cal_trans_time(num_sectors, rw, pmbd): target transfer time in ns for the
configured bandwidth (MiB/s) of the direction; 0 when that bandwidth is 0. -/
def cal_trans_time (numSectors : Nat) (rw : Rw) (cfg : EmulConfig) : Nat :=
  let bw := match rw with | .read => cfg.rdbw | .write => cfg.wrbw
  if bw ≠ 0 then DIV64_ROUND (numSectors * SECTOR_SIZE * (1000000000 >>> 20)) bw else 0

/-- cal_access_time(num_sectors, rw, pmbd): the configured latency of the
direction. -/
def cal_access_time (_numSectors : Nat) (rw : Rw) (cfg : EmulConfig) : Nat :=
  match rw with | .read => cfg.rdlat | .write => cfg.wrlat

/-- Which delay mechanism pmbd_slowdown(ns, in_lock) selects. -/
inductive SlowMech where
  | async
  | sync
  | skip
deriving DecidableEq

/-- pmbd_slowdown: sleep-based delay for more than MAX_SYNC_SLOWDOWN when no
lock is held, busy-wait otherwise, nothing for ns = 0. -/
def pmbd_slowdown (ns : Nat) (inLock : Bool) : SlowMech :=
  if MAX_SYNC_SLOWDOWN < ns ∧ inLock = false then .async
  else if 0 < ns then .sync
  else .skip

/-- A pmbd_slowdown invocation: the padding in ns and whether batch_lock is
held across it. -/
structure SlowdownCall where
  ns : Nat
  inLock : Bool
deriving DecidableEq

/-- pmbd_emul_transfer_time under batch_lock, with the TSC read modelled as
the input nowCycle.  Returns the direction's new batch state and the slowdown
issued while still holding the lock; none is the timestamp-in-the-past
panic. -/
def pmbd_emul_transfer_time (numSectors : Nat) (rw : Rw) (cfg : EmulConfig)
    (bs : BatchState) (nowCycle khz : Nat) : Option (BatchState × SlowdownCall) :=
  if bs.batchStart = 0 then
    some ({ bs with batchStart := nowCycle, batchEnd := nowCycle }, ⟨0, true⟩)
  else if nowCycle < bs.batchEnd then none
  else
    let intervalNs := cycle_to_ns (nowCycle - bs.batchEnd) khz
    let newBatch := PMBD_BATCH_MAX_INTERVAL ≤ intervalNs
    let bs1 := if newBatch then bs
      else { bs with batchSectors := bs.batchSectors + numSectors, batchEnd := nowCycle }
    let durationNs := cycle_to_ns (bs1.batchEnd - bs1.batchStart) khz
    let endBatch := newBatch ∨ PMBD_BATCH_MAX_DURATION ≤ durationNs ∨
      PMBD_BATCH_MAX_SECTORS ≤ bs1.batchSectors
    let call : SlowdownCall :=
      if endBatch ∧ PMBD_BATCH_MIN_SECTORS < bs1.batchSectors then
        let realNs := cycle_to_ns (bs1.batchEnd - bs1.batchStart) khz
        let emulNs := cal_trans_time bs1.batchSectors rw cfg
        if realNs < emulNs then ⟨emulNs - realNs, true⟩ else ⟨0, true⟩
      else ⟨0, true⟩
    let bs2 := if endBatch then
        ({ batchSectors := 0, batchStart := nowCycle, batchEnd := nowCycle } : BatchState)
      else bs1
    let bs3 := if newBatch then
        ({ batchSectors := numSectors, batchStart := nowCycle, batchEnd := nowCycle } : BatchState)
      else bs2
    some (bs3, call)

/-- pmbd_emul_access_time: the per-request latency padding, applied with no
lock held; returns the ns of delay issued. -/
def pmbd_emul_access_time (startCycle endCycle numSectors : Nat) (rw : Rw)
    (cfg : EmulConfig) (khz : Nat) : Nat :=
  let realNs := cycle_to_ns (endCycle - startCycle) khz
  let emulNs := cal_access_time numSectors rw cfg
  if realNs < emulNs then emulNs - realNs else 0

/-- PMBD_DEV_USE_EMULATION. -/
def PMBD_DEV_USE_EMULATION (cfg : EmulConfig) : Prop :=
  cfg.rdlat ≠ 0 ∨ cfg.wrlat ≠ 0 ∨ cfg.rdbw ≠ 0 ∨ cfg.wrbw ≠ 0

instance (cfg : EmulConfig) : Decidable (PMBD_DEV_USE_EMULATION cfg) := by
  unfold PMBD_DEV_USE_EMULATION; infer_instance

/-- The result of emul_end: the direction's new batch state, the transfer-time
slowdown issued under batch_lock, and the access-time padding in ns. -/
structure EmulEndResult where
  batch : BatchState
  transferCall : SlowdownCall
  accessDelayNs : Nat
deriving DecidableEq

/-- emul_end(pmbd, num_sectors, rw, start): bandwidth first — but only when
BOTH rdbw and wrbw are positive — then latency when either rdlat or wrlat is
positive.  The two TSC reads are the inputs trNowCycle (inside the transfer
path) and endCycle (before the access-time path). -/
def emul_end (cfg : EmulConfig) (numSectors : Nat) (rw : Rw) (startCycle : Nat)
    (bs : BatchState) (trNowCycle khz endCycle : Nat) : Option EmulEndResult :=
  if PMBD_DEV_USE_EMULATION cfg ∧ 0 < numSectors then
    if 0 < cfg.rdbw ∧ 0 < cfg.wrbw then
      match pmbd_emul_transfer_time numSectors rw cfg bs trNowCycle khz with
      | none => none
      | some (bs1, call) =>
        if 0 < cfg.rdlat ∨ 0 < cfg.wrlat then
          some ⟨bs1, call, pmbd_emul_access_time startCycle endCycle numSectors rw cfg khz⟩
        else some ⟨bs1, call, 0⟩
    else
      if 0 < cfg.rdlat ∨ 0 < cfg.wrlat then
        some ⟨bs, ⟨0, true⟩, pmbd_emul_access_time startCycle endCycle numSectors rw cfg khz⟩
      else some ⟨bs, ⟨0, true⟩, 0⟩
  else some ⟨bs, ⟨0, true⟩, 0⟩

/-! ### Dispatcher (pmbd_make_request) as an ordered event trace, and the
in-flight counter protocol -/

/-- The externally visible actions of pmbd_make_request, in program order. -/
inductive DispatchEvent where
  | writeBarrier
  | barrierLockSync
  | incFlying
  | emulStartEv
  | capacityError
  | emptyBio
  | doBvecs
  | endio
  | emulEndEv
  | decFlying
  | statsUpdate
deriving DecidableEq

/-- The straight-line action order of pmbd_make_request: barrier handling,
the barrier_lock touch for writes, atomic_inc(num_flying_wr), emul_start,
the capacity / empty-bio checks, the segment loop, then — after out: —
bio_endio, emul_end, atomic_dec(num_flying_wr), statistics. -/
def pmbd_make_request (rw : Rw) (isBarrier useWb : Bool) (simDev : Bool)
    (overCapacity : Bool) (numSectors : Nat) : List DispatchEvent :=
  (if isBarrier ∧ useWb then [.writeBarrier] else []) ++
  (if rw = .write then [.barrierLockSync] else []) ++
  [.incFlying] ++
  (if simDev then [.emulStartEv] else []) ++
  (if overCapacity then [.capacityError]
   else if numSectors = 0 then [.emptyBio]
   else [.doBvecs]) ++
  [.endio] ++
  (if simDev then [.emulEndEv] else []) ++
  [.decFlying, .statsUpdate]

/-- num_flying_wr together with ghost per-direction in-flight request counts:
flyingRd and flyingWr count the requests currently between the dispatcher's
atomic_inc and atomic_dec for each direction. -/
structure FlyState where
  numFlyingWr : Nat
  flyingRd : Nat
  flyingWr : Nat
deriving DecidableEq

/-- Steps of the in-flight counter protocol: a request of either direction
increments num_flying_wr on entry and decrements it on exit. -/
inductive FlyStep : FlyState → FlyState → Prop
  | enter (rw : Rw) (s : FlyState) :
      FlyStep s ⟨s.numFlyingWr + 1,
                 s.flyingRd + (if rw = .read then 1 else 0),
                 s.flyingWr + (if rw = .write then 1 else 0)⟩
  | exitRead (s : FlyState) : 0 < s.flyingRd →
      FlyStep s ⟨s.numFlyingWr - 1, s.flyingRd - 1, s.flyingWr⟩
  | exitWrite (s : FlyState) : 0 < s.flyingWr →
      FlyStep s ⟨s.numFlyingWr - 1, s.flyingRd, s.flyingWr - 1⟩

/-- States of the counter protocol reachable from the freshly initialized
device (atomic_set(&pmbd->num_flying_wr, 0) with nothing in flight). -/
inductive FlyReach : FlyState → Prop
  | init : FlyReach ⟨0, 0, 0⟩
  | step {s t : FlyState} : FlyReach s → FlyStep s t → FlyReach t

/-! ### Buffer well-formedness, the device invariant, and reachability -/

/-- Slot i lies in the dirty window [pos_dirty, pos_clean) of the ring. -/
def window (buf : Buffer) (i : Nat) : Prop :=
  ∃ k < buf.numDirty, i = (buf.posDirty + k) % buf.numBlocks

/-- Well-formedness of buffer b of the device: geometry constraints, ring
control consistency, and — for every slot of the dirty window — the dirty
mark and a valid PBI link pointing back at the slot. -/
structure WfBuffer (dev : Device) (b : Nat) : Prop where
  hN : 0 < (dev.buffers b).numBlocks
  hbatch : 0 < (dev.buffers b).batchSize
  hsent : (dev.buffers b).numBlocks ≤ dev.totalPB + 3
  hnd : (dev.buffers b).numDirty ≤ (dev.buffers b).numBlocks
  hpd : (dev.buffers b).posDirty < (dev.buffers b).numBlocks
  hpc : (dev.buffers b).posClean =
    ((dev.buffers b).posDirty + (dev.buffers b).numDirty) % (dev.buffers b).numBlocks
  hwdirty : ∀ k < (dev.buffers b).numDirty,
    (dev.buffers b).bbiDirty
      (((dev.buffers b).posDirty + k) % (dev.buffers b).numBlocks) = true
  hwpbn : ∀ k < (dev.buffers b).numDirty,
    (dev.buffers b).bbiPbn
      (((dev.buffers b).posDirty + k) % (dev.buffers b).numBlocks) < dev.totalPB
  hwbuf : ∀ k < (dev.buffers b).numDirty,
    bufIdOf dev ((dev.buffers b).bbiPbn
      (((dev.buffers b).posDirty + k) % (dev.buffers b).numBlocks)) = b
  hwback : ∀ k < (dev.buffers b).numDirty,
    dev.pbiBbn ((dev.buffers b).bbiPbn
      (((dev.buffers b).posDirty + k) % (dev.buffers b).numBlocks)) =
      ((dev.buffers b).posDirty + k) % (dev.buffers b).numBlocks
  hout : ∀ i, (dev.buffers b).numBlocks ≤ i →
    (dev.buffers b).bbiPbn i = dev.totalPB + 2

/-- The device invariant: every buffer is well-formed, and every physical
block whose PBI names a valid slot of its owning buffer is linked to a slot
of that buffer's dirty window that points back at it. -/
structure Inv (dev : Device) : Prop where
  hnb : 0 < dev.numBuffers
  hstride : 0 < dev.bufferStride
  hwf : ∀ b < dev.numBuffers, WfBuffer dev b
  hdev : ∀ p < dev.totalPB,
    dev.pbiBbn p < (dev.buffers (bufIdOf dev p)).numBlocks →
    (∃ k < (dev.buffers (bufIdOf dev p)).numDirty,
      dev.pbiBbn p = ((dev.buffers (bufIdOf dev p)).posDirty + k) %
        (dev.buffers (bufIdOf dev p)).numBlocks) ∧
    (dev.buffers (bufIdOf dev p)).bbiPbn (dev.pbiBbn p) = p
  hhi : ∀ p, dev.totalPB ≤ p → dev.pbiBbn p = dev.totalPB + 3
  hbufoff : dev.bufmode = false → ∀ b < dev.numBuffers, (dev.buffers b).numDirty = 0

/-- The state of a freshly created device: pmbd_pbi_space_alloc marks every
block unbuffered (pbi->bbn = totalPB + 3) and pmbd_buffer_create clears every
slot (clean, bbi->pbn = totalPB + 2) and zeroes the ring control fields.  The
geometry constraints (positive batch, buffer no larger than the sentinel
bound) hold for every configuration the module accepts. -/
structure InitDevice (dev : Device) : Prop where
  hnb : 0 < dev.numBuffers
  hstride : 0 < dev.bufferStride
  hpbi : ∀ p, dev.pbiBbn p = dev.totalPB + 3
  hbufN : ∀ b < dev.numBuffers, 0 < (dev.buffers b).numBlocks
  hbufBatch : ∀ b < dev.numBuffers, 0 < (dev.buffers b).batchSize
  hbufSent : ∀ b < dev.numBuffers, (dev.buffers b).numBlocks ≤ dev.totalPB + 3
  hbufNd : ∀ b < dev.numBuffers, (dev.buffers b).numDirty = 0
  hbufPd : ∀ b < dev.numBuffers, (dev.buffers b).posDirty = 0
  hbufPc : ∀ b < dev.numBuffers, (dev.buffers b).posClean = 0
  hbufDirty : ∀ b < dev.numBuffers, ∀ i, (dev.buffers b).bbiDirty i = false
  hbufPbn : ∀ b < dev.numBuffers, ∀ i, (dev.buffers b).bbiPbn i = dev.totalPB + 2

/-- Device states reachable from a fresh device by the driver's state-changing
operations: writes within capacity (copy_to_pmbd, with or without FUA),
buffer flushes (from the syncer, the allocator or the destroyer) and write
barriers.  Reads do not change the state. -/
inductive Reachable : Device → Prop
  | init {dev : Device} : InitDevice dev → Reachable dev
  | write {dev dev1 : Device} (src : Nat → Byte) (s len : Nat) (fua : Bool) :
      Reachable dev → 0 < len → s + len ≤ pbnToSector dev.totalPB →
      copy_to_pmbd dev src s (sectorToByte len) fua = some dev1 → Reachable dev1
  | flush {dev dev1 : Device} (b budget n : Nat) :
      Reachable dev → b < dev.numBuffers →
      pmbd_buffer_flush dev b budget = some (n, dev1) → Reachable dev1
  | barrier {dev dev1 : Device} :
      Reachable dev → pmbd_write_barrier dev = some dev1 → Reachable dev1

/-! ### Specification-side descriptions used by the flush proofs -/

/-- A scan entry (pbn, bbn) is coherent in buffer b: the PBN is a real block
owned by b, the PBI and BBI links point at each other, and the slot is
dirty. -/
def EntryOk (dev : Device) (b : Nat) (pbn bbn : Nat) : Prop :=
  pbn < dev.totalPB ∧ bufIdOf dev pbn = b ∧ dev.pbiBbn pbn = bbn ∧
  bbn < (dev.buffers b).numBlocks ∧ (dev.buffers b).bbiPbn bbn = pbn ∧
  (dev.buffers b).bbiDirty bbn = true

/-- The first k entries of the dirty window in ring order, as the scan loop
collects them. -/
def windowEnts (buf : Buffer) (k : Nat) : List (Nat × Nat) :=
  (List.range k).map (fun j =>
    (buf.bbiPbn ((buf.posDirty + j) % buf.numBlocks),
     (buf.posDirty + j) % buf.numBlocks))

/-- dev1 is dev0 after the flush engine pushed exactly the blocks of S from
buffer b to PM and unlinked them: PM holds the slot bytes for S-blocks, both
link directions are cleared to their sentinels, the flushed slots are clean,
and nothing else — including the ring control fields, which
pmbd_buffer_flush updates only afterwards — changed. -/
structure FlushedOutcome (dev0 : Device) (b : Nat) (S : Finset Nat) (dev1 : Device) : Prop where
  htotal : dev1.totalPB = dev0.totalPB
  hnbuf : dev1.numBuffers = dev0.numBuffers
  hstride : dev1.bufferStride = dev0.bufferStride
  hbufmode : dev1.bufmode = dev0.bufmode
  hpte : dev1.wpmodePte = dev0.wpmodePte
  hother : ∀ c, c ≠ b → dev1.buffers c = dev0.buffers c
  hN : (dev1.buffers b).numBlocks = (dev0.buffers b).numBlocks
  hbatch : (dev1.buffers b).batchSize = (dev0.buffers b).batchSize
  hspace : (dev1.buffers b).bufferSpace = (dev0.buffers b).bufferSpace
  hpd : (dev1.buffers b).posDirty = (dev0.buffers b).posDirty
  hpcl : (dev1.buffers b).posClean = (dev0.buffers b).posClean
  hnd : (dev1.buffers b).numDirty = (dev0.buffers b).numDirty
  hpbi : ∀ p, dev1.pbiBbn p = if p ∈ S then dev0.totalPB + 3 else dev0.pbiBbn p
  hbbiP : ∀ i, (dev1.buffers b).bbiPbn i =
    if ∃ p ∈ S, dev0.pbiBbn p = i then dev0.totalPB + 2 else (dev0.buffers b).bbiPbn i
  hbbiD : ∀ i, (dev1.buffers b).bbiDirty i =
    if ∃ p ∈ S, dev0.pbiBbn p = i then false else (dev0.buffers b).bbiDirty i
  hmem : ∀ a, dev1.memSpace a =
    if a / PB_SIZE ∈ S then
      (dev0.buffers b).bufferSpace (PB_SIZE * dev0.pbiBbn (a / PB_SIZE) + a % PB_SIZE)
    else dev0.memSpace a

/-! ### A concrete device configuration for instantiating the theorems -/

/-- A 2-slot staging buffer as pmbd_buffer_create leaves it: clean slots with
sentinel links (totalPB + 2 = 6), zeroed ring control. -/
def witBuffer : Buffer :=
  { numBlocks := 2, batchSize := 1, bufferSpace := fun _ => 0,
    bbiPbn := fun _ => 6, bbiDirty := fun _ => false,
    posDirty := 0, posClean := 0, numDirty := 0 }

/-- A freshly created 4-block buffered device with a single buffer: every
PBI entry holds the unbuffered sentinel totalPB + 3 = 7. -/
def witDevice : Device :=
  { totalPB := 4, memSpace := fun _ => 0, pbiBbn := fun _ => 7,
    numBuffers := 1, bufferStride := 1, buffers := fun _ => witBuffer,
    bufmode := true, wpmodePte := false }

/-- A sample source byte pattern. -/
def witSrc : Nat → Byte := fun a => a % 251

/-! ### Theorems about the emulation engine and the dispatcher -/

/-- C4 counterexample: a device configured with wrbw = 100 MiB/s but rdbw = 0
does NOT feed an 8-sector write into the batch window — emul_end returns the
batch state unchanged with no throttling — because the code guards the
transfer-time path with rdbw > 0 AND wrbw > 0.  Had the request been fed,
pmbd_emul_transfer_time would have accumulated the batch to 24 sectors. -/
theorem emul_end_skips_batch_without_rdbw :
    0 < (⟨0, 0, 0, 100, 0⟩ : EmulConfig).wrbw ∧
    emul_end ⟨0, 0, 0, 100, 0⟩ 8 .write 100 ⟨16, 100, 100⟩ 101 1000000 102 =
      some ⟨⟨16, 100, 100⟩, ⟨0, true⟩, 0⟩ ∧
    pmbd_emul_transfer_time 8 .write ⟨0, 0, 0, 100, 0⟩ ⟨16, 100, 100⟩ 101 1000000 =
      some (⟨24, 100, 101⟩, ⟨0, true⟩) ∧
    (⟨16, 100, 100⟩ : BatchState) ≠ ⟨24, 100, 101⟩ := by
  refine ⟨by decide, ?_, ?_, by decide⟩ <;> decide

/-- C4 (amended): the emulation end hook feeds a request into the batch window
and throttles it only when BOTH rdbw and wrbw are positive; when either
direction's bandwidth is 0 the batch state is left untouched and no transfer
delay is issued, even for writes with wrbw > 0. -/
theorem emul_end_transfer_requires_both_bandwidths :
    ∀ (cfg : EmulConfig) (numSectors : Nat) (rw : Rw) (startCycle : Nat)
      (bs : BatchState) (trNow khz endCycle : Nat),
    0 < numSectors →
    ((cfg.rdbw = 0 ∨ cfg.wrbw = 0) →
      emul_end cfg numSectors rw startCycle bs trNow khz endCycle =
        some ⟨bs, ⟨0, true⟩,
          if 0 < cfg.rdlat ∨ 0 < cfg.wrlat then
            pmbd_emul_access_time startCycle endCycle numSectors rw cfg khz
          else 0⟩) ∧
    (0 < cfg.rdbw → 0 < cfg.wrbw →
      emul_end cfg numSectors rw startCycle bs trNow khz endCycle =
        (pmbd_emul_transfer_time numSectors rw cfg bs trNow khz).map
          (fun r => ⟨r.1, r.2,
            if 0 < cfg.rdlat ∨ 0 < cfg.wrlat then
              pmbd_emul_access_time startCycle endCycle numSectors rw cfg khz
            else 0⟩)) := by
  intro cfg numSectors rw startCycle bs trNow khz endCycle hns
  constructor
  · intro hz
    have hbw : ¬ (0 < cfg.rdbw ∧ 0 < cfg.wrbw) := by omega
    by_cases hemu : PMBD_DEV_USE_EMULATION cfg
    · by_cases hlat : 0 < cfg.rdlat ∨ 0 < cfg.wrlat <;>
        simp [emul_end, hemu, hns, hbw, hlat]
    · have h0 : cfg.rdlat = 0 ∧ cfg.wrlat = 0 := by
        unfold PMBD_DEV_USE_EMULATION at hemu; omega
      simp [emul_end, hemu, h0.1, h0.2]
  · intro hrd hwr
    have hemu : PMBD_DEV_USE_EMULATION cfg := by
      unfold PMBD_DEV_USE_EMULATION; omega
    by_cases hlat : 0 < cfg.rdlat ∨ 0 < cfg.wrlat <;>
      rcases h : pmbd_emul_transfer_time numSectors rw cfg bs trNow khz with _ | ⟨bs1, call⟩ <;>
      simp [emul_end, hemu, hns, hrd, hwr, hlat, h]

/-- C4 witness: with rdbw = wrbw = 1 the hook does run the transfer-time
path on a 8-sector write. -/
theorem emul_end_transfer_requires_both_bandwidths_witness :
    (0 : Nat) < 8 ∧
    emul_end ⟨0, 0, 1, 1, 0⟩ 8 .write 0 ⟨0, 0, 0⟩ 5 1000 7 =
      (pmbd_emul_transfer_time 8 .write ⟨0, 0, 1, 1, 0⟩ ⟨0, 0, 0⟩ 5 1000).map
        (fun r => ⟨r.1, r.2,
          if 0 < (⟨0, 0, 1, 1, 0⟩ : EmulConfig).rdlat ∨
             0 < (⟨0, 0, 1, 1, 0⟩ : EmulConfig).wrlat then
            pmbd_emul_access_time 0 7 8 .write ⟨0, 0, 1, 1, 0⟩ 1000
          else 0⟩) :=
  ⟨by decide,
   (emul_end_transfer_requires_both_bandwidths ⟨0, 0, 1, 1, 0⟩ 8 .write 0 ⟨0, 0, 0⟩ 5 1000 7
      (by decide)).2 (by decide) (by decide)⟩

/-- C5 counterexample: in the dispatcher's action order for a read on a
whole-device-emulated configuration, bio_endio (completion signaling) comes
strictly BEFORE the emulation-window end and before the in-flight decrement,
refuting the claimed end-emulation/decrement-before-completion order. -/
theorem endio_precedes_emul_end_and_dec :
    (pmbd_make_request .read false false true false 8).indexOf .endio <
      (pmbd_make_request .read false false true false 8).indexOf .emulEndEv ∧
    (pmbd_make_request .read false false true false 8).indexOf .endio <
      (pmbd_make_request .read false false true false 8).indexOf .decFlying := by
  decide

/-- C5 (amended): for every request on a device configured for whole-device
emulation, the dispatcher signals completion (bio_endio) first, then ends the
emulation window, then decrements the in-flight counter; the access-time
padding therefore bounds the dispatcher's occupancy, not the
dispatch-to-completion interval: the real elapsed ns plus the padding issued
by pmbd_emul_access_time is at least the configured rdlat for a read. -/
theorem completion_order_and_latency_floor :
    (∀ (rw : Rw) (isBarrier useWb overCapacity : Bool) (numSectors : Nat),
      (pmbd_make_request rw isBarrier useWb true overCapacity numSectors).indexOf .endio <
        (pmbd_make_request rw isBarrier useWb true overCapacity numSectors).indexOf .emulEndEv ∧
      (pmbd_make_request rw isBarrier useWb true overCapacity numSectors).indexOf .emulEndEv <
        (pmbd_make_request rw isBarrier useWb true overCapacity numSectors).indexOf .decFlying) ∧
    (∀ (startCycle endCycle numSectors khz : Nat) (cfg : EmulConfig),
      cfg.rdlat ≤ cycle_to_ns (endCycle - startCycle) khz +
        pmbd_emul_access_time startCycle endCycle numSectors .read cfg khz) := by
  constructor
  · intro rw isBarrier useWb overCapacity numSectors
    by_cases hns : numSectors = 0 <;>
      cases rw <;> cases isBarrier <;> cases useWb <;> cases overCapacity <;>
      simp [pmbd_make_request, hns]
  · intro startCycle endCycle numSectors khz cfg
    unfold pmbd_emul_access_time cal_access_time
    dsimp only
    split <;> omega

/-- C9 counterexample: a batch that closes (duration ≥ MAX_DURATION) with
accumulated sectors exactly 256 = MIN_SECTORS issues NO slowdown even though
the target transfer time far exceeds the real elapsed time, because the code
requires batch_sectors strictly greater than PMBD_BATCH_MIN_SECTORS. -/
theorem batch_close_at_exactly_min_sectors_skips_throttle :
    pmbd_emul_transfer_time 8 .write ⟨0, 0, 1, 1, 0⟩ ⟨248, 100, 10000100⟩ 10000200 1000000 =
      some (⟨0, 10000200, 10000200⟩, ⟨0, true⟩) ∧
    248 + 8 = PMBD_BATCH_MIN_SECTORS ∧
    cycle_to_ns (10000200 - 100) 1000000 <
      cal_trans_time (248 + 8) .write ⟨0, 0, 1, 1, 0⟩ := by
  exact ⟨by decide, by decide, by decide⟩

/-- C9 (amended): whenever the batch window closes (duration or size limit)
with accumulated sectors STRICTLY greater than MIN_SECTORS (256) and the real
elapsed time is below the bandwidth target, the engine busy-waits for the
difference while still holding batch_lock (sync slowdown, in_lock = true); a
batch closing with exactly 256 accumulated sectors is skipped. -/
theorem batch_close_above_min_sectors_throttles :
    ∀ (cfg : EmulConfig) (rw : Rw) (bs : BatchState) (numSectors nowCycle khz : Nat),
    bs.batchStart ≠ 0 →
    bs.batchEnd ≤ nowCycle →
    cycle_to_ns (nowCycle - bs.batchEnd) khz < PMBD_BATCH_MAX_INTERVAL →
    (PMBD_BATCH_MAX_DURATION ≤ cycle_to_ns (nowCycle - bs.batchStart) khz ∨
      PMBD_BATCH_MAX_SECTORS ≤ bs.batchSectors + numSectors) →
    PMBD_BATCH_MIN_SECTORS < bs.batchSectors + numSectors →
    cycle_to_ns (nowCycle - bs.batchStart) khz <
      cal_trans_time (bs.batchSectors + numSectors) rw cfg →
    pmbd_emul_transfer_time numSectors rw cfg bs nowCycle khz =
      some (⟨0, nowCycle, nowCycle⟩,
        ⟨cal_trans_time (bs.batchSectors + numSectors) rw cfg -
          cycle_to_ns (nowCycle - bs.batchStart) khz, true⟩) ∧
    pmbd_slowdown (cal_trans_time (bs.batchSectors + numSectors) rw cfg -
      cycle_to_ns (nowCycle - bs.batchStart) khz) true = .sync := by
  intro cfg rw bs numSectors nowCycle khz hstart hle hint hclose hmin hreal
  have hnotlt : ¬ nowCycle < bs.batchEnd := Nat.not_lt.mpr hle
  have hnb : ¬ PMBD_BATCH_MAX_INTERVAL ≤ cycle_to_ns (nowCycle - bs.batchEnd) khz :=
    Nat.not_le.mpr hint
  have hdisj : PMBD_BATCH_MAX_INTERVAL ≤ cycle_to_ns (nowCycle - bs.batchEnd) khz ∨
      PMBD_BATCH_MAX_DURATION ≤ cycle_to_ns (nowCycle - bs.batchStart) khz ∨
      PMBD_BATCH_MAX_SECTORS ≤ bs.batchSectors + numSectors := Or.inr hclose
  have hpos : 0 < cal_trans_time (bs.batchSectors + numSectors) rw cfg -
      cycle_to_ns (nowCycle - bs.batchStart) khz := by omega
  constructor
  · simp [pmbd_emul_transfer_time, hstart, hnotlt, hnb, hdisj, hmin, hreal]
    exact ⟨fun h1 h2 => ((by omega : False)).elim, fun h1 h2 => ((by omega : False)).elim⟩
  · have hnotasync : ¬ (MAX_SYNC_SLOWDOWN < cal_trans_time (bs.batchSectors + numSectors) rw cfg -
        cycle_to_ns (nowCycle - bs.batchStart) khz ∧ (true : Bool) = false) := by simp
    simp [pmbd_slowdown, hpos, hnotasync]

/-- C9 witness: a concrete batch closing with 257 accumulated sectors is
throttled by the difference to the bandwidth target, under the lock. -/
theorem batch_close_above_min_sectors_throttles_witness :
    pmbd_emul_transfer_time 8 .write ⟨0, 0, 1, 1, 0⟩ ⟨249, 100, 10000100⟩ 10000200 1000000 =
      some (⟨0, 10000200, 10000200⟩,
        ⟨cal_trans_time (249 + 8) .write ⟨0, 0, 1, 1, 0⟩ -
          cycle_to_ns (10000200 - 100) 1000000, true⟩) ∧
    pmbd_slowdown (cal_trans_time (249 + 8) .write ⟨0, 0, 1, 1, 0⟩ -
      cycle_to_ns (10000200 - 100) 1000000) true = .sync :=
  batch_close_above_min_sectors_throttles ⟨0, 0, 1, 1, 0⟩ .write ⟨249, 100, 10000100⟩
    8 10000200 1000000 (by decide) (by decide) (by decide) (Or.inl (by decide))
    (by decide) (by decide)

/-- One step of the in-flight counter protocol preserves the counter
balance. -/
theorem flyStep_preserves_balance {a b : FlyState} (h : FlyStep a b)
    (ih : a.numFlyingWr = a.flyingRd + a.flyingWr) :
    b.numFlyingWr = b.flyingRd + b.flyingWr := by
  cases h with
  | enter rw s => cases rw <;> simp <;> omega
  | exitRead s h1 => simp; omega
  | exitWrite s h1 => simp; omega

/-- C10: the dispatcher increments num_flying_wr for every request — reads as
well as writes — before servicing and decrements it after completion
(incFlying and decFlying appear in every trace), so in every reachable state
of the counter protocol num_flying_wr equals the number of in-flight requests
of both directions; in particular when the barrier's quiesce loop observes
num_flying_wr = 0, no reads are in flight either. -/
theorem num_flying_wr_counts_all_directions :
    (∀ (rw : Rw) (isBarrier useWb simDev overCapacity : Bool) (numSectors : Nat),
      DispatchEvent.incFlying ∈ pmbd_make_request rw isBarrier useWb simDev overCapacity numSectors ∧
      DispatchEvent.decFlying ∈ pmbd_make_request rw isBarrier useWb simDev overCapacity numSectors) ∧
    (∀ s : FlyState, FlyReach s →
      s.numFlyingWr = s.flyingRd + s.flyingWr ∧
      (s.numFlyingWr = 0 → s.flyingRd = 0 ∧ s.flyingWr = 0)) := by
  constructor
  · intro rw isBarrier useWb simDev overCapacity numSectors
    constructor <;> simp [pmbd_make_request]
  · intro s hs
    have key : s.numFlyingWr = s.flyingRd + s.flyingWr := by
      induction hs with
      | init => rfl
      | step _ hstep ih => exact flyStep_preserves_balance hstep ih
    exact ⟨key, fun h0 => by omega⟩

/-- C10 witness: the state after a read enters and then a write enters is
reachable and its counter 2 equals 1 in-flight read plus 1 in-flight write. -/
theorem num_flying_wr_counts_all_directions_witness :
    FlyReach ⟨2, 1, 1⟩ ∧
    (⟨2, 1, 1⟩ : FlyState).numFlyingWr =
      (⟨2, 1, 1⟩ : FlyState).flyingRd + (⟨2, 1, 1⟩ : FlyState).flyingWr :=
  have h1 : FlyReach ⟨1, 1, 0⟩ := by
    have := FlyStep.enter .read ⟨0, 0, 0⟩
    simp at this
    exact FlyReach.step FlyReach.init this
  have h2 : FlyReach ⟨2, 1, 1⟩ := by
    have := FlyStep.enter .write ⟨1, 1, 0⟩
    simp at this
    exact FlyReach.step h1 this
  ⟨h2, ((num_flying_wr_counts_all_directions).2 ⟨2, 1, 1⟩ h2).1⟩

/-! ### Ring-arithmetic helpers -/

/-- Positions (pos + j) % N are injective in j below N. -/
theorem ring_inj {N pos j j' : Nat} (hj : j < N) (hj' : j' < N)
    (h : (pos + j) % N = (pos + j') % N) : j = j' := by
  have h2 : j ≡ j' [MOD N] := (Nat.ModEq.refl pos).add_left_cancel h
  unfold Nat.ModEq at h2
  rwa [Nat.mod_eq_of_lt hj, Nat.mod_eq_of_lt hj'] at h2

/-- PMBD_BUFFER_NEXT_POS is addition by one modulo N on valid positions. -/
theorem nextPos_eq (buf : Buffer) {pos : Nat} (h : pos < buf.numBlocks) :
    nextPos buf pos = (pos + 1) % buf.numBlocks := by
  unfold nextPos
  split
  · rename_i he
    rw [he]
    have h1 : buf.numBlocks - 1 + 1 = buf.numBlocks := by omega
    rw [h1, Nat.mod_self]
  · rename_i he
    rw [Nat.mod_eq_of_lt (by omega)]

/-- NEXT_POS of PRIO_POS is the identity on valid positions. -/
theorem nextPos_prioPos (buf : Buffer) {pos : Nat} (hN : 0 < buf.numBlocks)
    (h : pos < buf.numBlocks) : nextPos buf (prioPos buf pos) = pos := by
  unfold nextPos prioPos
  by_cases h0 : pos = 0
  · rw [if_pos h0, if_pos rfl, h0]
  · rw [if_neg h0, if_neg (by omega)]
    omega

/-- Adding one below the modulus commutes with taking the modulus. -/
theorem succ_mod_mod (a N : Nat) : (a % N + 1) % N = (a + 1) % N := by
  conv_lhs => rw [Nat.add_mod]
  conv_rhs => rw [Nat.add_mod]
  rw [Nat.mod_mod_of_dvd a (dvd_refl N)]

/-- The scan loop of pmbd_buffer_flush collects exactly the next r window
entries in ring order, starting j0 deep into the dirty window. -/
theorem scanDirty_eval (buf : Buffer) (hN : 0 < buf.numBlocks)
    (hnd : buf.numDirty ≤ buf.numBlocks) (hpd : buf.posDirty < buf.numBlocks)
    (hpc : buf.posClean = (buf.posDirty + buf.numDirty) % buf.numBlocks)
    (hwdirty : ∀ k < buf.numDirty, buf.bbiDirty ((buf.posDirty + k) % buf.numBlocks) = true) :
    ∀ (r j0 : Nat) (flag : Bool), j0 + r ≤ buf.numDirty → (flag = false → 0 < j0) →
    scanDirty buf r ((buf.posDirty + j0) % buf.numBlocks)
      (nextPos buf (prioPos buf buf.posClean)) flag =
    some ((List.range r).map (fun t =>
      (buf.bbiPbn ((buf.posDirty + (j0 + t)) % buf.numBlocks),
       (buf.posDirty + (j0 + t)) % buf.numBlocks))) := by
  have hpcN : buf.posClean < buf.numBlocks := by
    rw [hpc]; exact Nat.mod_lt _ hN
  have hstop : nextPos buf (prioPos buf buf.posClean) = buf.posClean :=
    nextPos_prioPos buf hN hpcN
  intro r
  induction r with
  | zero => intro j0 flag _ _; simp [scanDirty]
  | succ r ih =>
    intro j0 flag hle hflag
    have hj0 : j0 < buf.numDirty := by omega
    have hguard : ¬ ((buf.posDirty + j0) % buf.numBlocks =
        nextPos buf (prioPos buf buf.posClean) ∧ flag = false) := by
      rintro ⟨hi, hf⟩
      rw [hstop, hpc] at hi
      have h2 : j0 ≡ buf.numDirty [MOD buf.numBlocks] :=
        (Nat.ModEq.refl buf.posDirty).add_left_cancel hi
      unfold Nat.ModEq at h2
      rw [Nat.mod_eq_of_lt (by omega)] at h2
      have hj0pos : 0 < j0 := hflag hf
      rcases Nat.lt_or_ge buf.numDirty buf.numBlocks with hlt | hge
      · rw [Nat.mod_eq_of_lt hlt] at h2; omega
      · have hEq : buf.numDirty = buf.numBlocks := by omega
        rw [hEq, Nat.mod_self] at h2; omega
    have hdirty : ¬ buf.bbiDirty ((buf.posDirty + j0) % buf.numBlocks) = false := by
      rw [hwdirty j0 hj0]; simp
    have hnext : nextPos buf ((buf.posDirty + j0) % buf.numBlocks) =
        (buf.posDirty + (j0 + 1)) % buf.numBlocks := by
      rw [nextPos_eq buf (Nat.mod_lt _ hN), succ_mod_mod, Nat.add_assoc]
    unfold scanDirty
    rw [if_neg hguard, if_neg hdirty, hnext,
      ih (j0 + 1) false (by omega) (fun _ => by omega)]
    simp only [Option.map_some']
    congr 1
    rw [List.range_succ_eq_map, List.map_cons, List.map_map]
    congr 1
    apply List.map_congr_left
    intro a _
    simp only [Function.comp_apply]
    rw [(by omega : j0 + 1 + a = j0 + (a + 1))]

/-- The unbind pass of _pmbd_buffer_flush_range clears pbi->bbn for the range
and bbi->pbn for the slots those blocks pointed at, counts one per block, and
changes nothing else. -/
theorem flushPass2_spec (b : Nat) :
    ∀ (count : Nat) (dev : Device) (pbn acc : Nat),
    (flushPass2 b count dev pbn acc).1 = acc + count ∧
    ((flushPass2 b count dev pbn acc).2.totalPB = dev.totalPB ∧
     (flushPass2 b count dev pbn acc).2.numBuffers = dev.numBuffers ∧
     (flushPass2 b count dev pbn acc).2.bufferStride = dev.bufferStride ∧
     (flushPass2 b count dev pbn acc).2.bufmode = dev.bufmode ∧
     (flushPass2 b count dev pbn acc).2.wpmodePte = dev.wpmodePte ∧
     (flushPass2 b count dev pbn acc).2.memSpace = dev.memSpace) ∧
    (∀ c, c ≠ b → (flushPass2 b count dev pbn acc).2.buffers c = dev.buffers c) ∧
    (((flushPass2 b count dev pbn acc).2.buffers b).numBlocks = (dev.buffers b).numBlocks ∧
     ((flushPass2 b count dev pbn acc).2.buffers b).batchSize = (dev.buffers b).batchSize ∧
     ((flushPass2 b count dev pbn acc).2.buffers b).bufferSpace = (dev.buffers b).bufferSpace ∧
     ((flushPass2 b count dev pbn acc).2.buffers b).posDirty = (dev.buffers b).posDirty ∧
     ((flushPass2 b count dev pbn acc).2.buffers b).posClean = (dev.buffers b).posClean ∧
     ((flushPass2 b count dev pbn acc).2.buffers b).numDirty = (dev.buffers b).numDirty ∧
     ((flushPass2 b count dev pbn acc).2.buffers b).bbiDirty = (dev.buffers b).bbiDirty) ∧
    (∀ p, (flushPass2 b count dev pbn acc).2.pbiBbn p =
      if p ∈ Finset.Ico pbn (pbn + count) then dev.totalPB + 3 else dev.pbiBbn p) ∧
    (∀ i, ((flushPass2 b count dev pbn acc).2.buffers b).bbiPbn i =
      if ∃ p ∈ Finset.Ico pbn (pbn + count), dev.pbiBbn p = i then dev.totalPB + 2
      else (dev.buffers b).bbiPbn i) := by
  intro count
  induction count with
  | zero =>
    intro dev pbn acc
    refine ⟨rfl, ⟨rfl, rfl, rfl, rfl, rfl, rfl⟩, fun c _ => rfl,
      ⟨rfl, rfl, rfl, rfl, rfl, rfl, rfl⟩, fun p => ?_, fun i => ?_⟩
    · rw [if_neg (by simp)]
      rfl
    · rw [if_neg (by simp)]
      rfl
  | succ count ih =>
    intro dev pbn acc
    set bbn := dev.pbiBbn pbn with hbbn
    set buf1 : Buffer := { dev.buffers b with
      bbiPbn := fun i => if i = bbn then dev.totalPB + 2 else (dev.buffers b).bbiPbn i }
      with hbuf1
    set devStep : Device := { setBuffer dev b buf1 with
      pbiBbn := fun p => if p = pbn then dev.totalPB + 3 else dev.pbiBbn p } with hdevStep
    have hrun : flushPass2 b (count + 1) dev pbn acc =
        flushPass2 b count devStep (pbn + 1) (acc + 1) := rfl
    obtain ⟨ihc, ⟨iht, ihnb, ihst, ihbm, ihpte, ihmem⟩, ihoth,
      ⟨ihN, ihbs, ihspace, ihpdirs, ihpcl, ihnd, ihdirty⟩, ihpbi, ihbbi⟩ :=
      ih devStep (pbn + 1) (acc + 1)
    have hstepBufB : devStep.buffers b = buf1 := by
      simp [hdevStep, setBuffer]
    have hstepBufC : ∀ c, c ≠ b → devStep.buffers c = dev.buffers c := by
      intro c hc
      simp [hdevStep, setBuffer, hc]
    have hstepT : devStep.totalPB = dev.totalPB := rfl
    have hsteppbi : ∀ q, devStep.pbiBbn q =
        if q = pbn then dev.totalPB + 3 else dev.pbiBbn q := fun q => rfl
    have hbuf1pbn : ∀ j, buf1.bbiPbn j =
        if j = bbn then dev.totalPB + 2 else (dev.buffers b).bbiPbn j := fun j => rfl
    rw [hrun]
    refine ⟨by rw [ihc]; omega, ⟨by rw [iht]; rfl, by rw [ihnb]; rfl, by rw [ihst]; rfl,
      by rw [ihbm]; rfl, by rw [ihpte]; rfl, by rw [ihmem]; rfl⟩, ?_, ?_, ?_, ?_⟩
    · intro c hc
      rw [ihoth c hc, hstepBufC c hc]
    · rw [hstepBufB] at ihN ihbs ihspace ihpdirs ihpcl ihnd ihdirty
      exact ⟨ihN, ihbs, ihspace, ihpdirs, ihpcl, ihnd, ihdirty⟩
    · intro p
      rw [ihpbi p, hstepT, hsteppbi p]
      simp only [Finset.mem_Ico]
      by_cases h1 : pbn + 1 ≤ p ∧ p < pbn + 1 + count
      · rw [if_pos h1, if_pos (by omega)]
      · rw [if_neg h1]
        by_cases h2 : p = pbn
        · rw [if_pos h2, if_pos (by omega)]
        · rw [if_neg h2, if_neg (by omega)]
    · intro i
      rw [ihbbi i, hstepBufB, hstepT]
      by_cases h1 : ∃ p ∈ Finset.Ico (pbn + 1) (pbn + 1 + count), devStep.pbiBbn p = i
      · rw [if_pos h1]
        obtain ⟨p, hpmem, hp3⟩ := h1
        rw [Finset.mem_Ico] at hpmem
        rw [hsteppbi p, if_neg (by omega)] at hp3
        rw [if_pos ⟨p, Finset.mem_Ico.mpr ⟨by omega, by omega⟩, hp3⟩]
      · rw [if_neg h1, hbuf1pbn i]
        by_cases h2 : i = bbn
        · rw [if_pos h2, if_pos ⟨pbn, Finset.mem_Ico.mpr ⟨by omega, by omega⟩, by rw [h2]⟩]
        · rw [if_neg h2]
          rw [if_neg ?_]
          rintro ⟨p, hpmem, hp3⟩
          rw [Finset.mem_Ico] at hpmem
          by_cases h3 : p = pbn
          · exact h2 (by rw [← hp3, h3])
          · refine h1 ⟨p, Finset.mem_Ico.mpr ⟨by omega, by omega⟩, ?_⟩
            rw [hsteppbi p, if_neg h3]
            exact hp3

/-- The copy pass of _pmbd_buffer_flush_range succeeds when every block of
the range is buffered; it copies each (dirty) slot into the PM window, marks
the slots clean, and changes nothing else. -/
theorem flushPass1_spec (b : Nat) :
    ∀ (count : Nat) (dev : Device) (pbn : Nat),
    (∀ p ∈ Finset.Ico pbn (pbn + count), EntryOk dev b p (dev.pbiBbn p)) →
    ∃ dev1, flushPass1 b count dev pbn = some dev1 ∧
    (dev1.totalPB = dev.totalPB ∧ dev1.numBuffers = dev.numBuffers ∧
     dev1.bufferStride = dev.bufferStride ∧ dev1.bufmode = dev.bufmode ∧
     dev1.wpmodePte = dev.wpmodePte ∧ dev1.pbiBbn = dev.pbiBbn) ∧
    (∀ c, c ≠ b → dev1.buffers c = dev.buffers c) ∧
    ((dev1.buffers b).numBlocks = (dev.buffers b).numBlocks ∧
     (dev1.buffers b).batchSize = (dev.buffers b).batchSize ∧
     (dev1.buffers b).bufferSpace = (dev.buffers b).bufferSpace ∧
     (dev1.buffers b).posDirty = (dev.buffers b).posDirty ∧
     (dev1.buffers b).posClean = (dev.buffers b).posClean ∧
     (dev1.buffers b).numDirty = (dev.buffers b).numDirty ∧
     (dev1.buffers b).bbiPbn = (dev.buffers b).bbiPbn) ∧
    (∀ i, (dev1.buffers b).bbiDirty i =
      if ∃ p ∈ Finset.Ico pbn (pbn + count), dev.pbiBbn p = i then false
      else (dev.buffers b).bbiDirty i) ∧
    (∀ a, dev1.memSpace a =
      if a / PB_SIZE ∈ Finset.Ico pbn (pbn + count) then
        (dev.buffers b).bufferSpace (PB_SIZE * dev.pbiBbn (a / PB_SIZE) + a % PB_SIZE)
      else dev.memSpace a) := by
  intro count
  induction count with
  | zero =>
    intro dev pbn _
    refine ⟨dev, rfl, ⟨rfl, rfl, rfl, rfl, rfl, rfl⟩, fun c _ => rfl,
      ⟨rfl, rfl, rfl, rfl, rfl, rfl, rfl⟩, fun i => ?_, fun a => ?_⟩
    · rw [if_neg (by simp)]
    · rw [if_neg (by simp)]
  | succ count ih =>
    intro dev pbn hpre
    obtain ⟨hp1, hp2, hp3, hp4, hp5, hp6⟩ :=
      hpre pbn (Finset.mem_Ico.mpr ⟨le_refl _, by omega⟩)
    set bbn := dev.pbiBbn pbn with hbbn
    set pm1 := memcpy dev.memSpace (PB_SIZE * pbn) (dev.buffers b).bufferSpace
      (PB_SIZE * bbn) PB_SIZE with hpm1
    set buf1 : Buffer := { dev.buffers b with
      bbiDirty := fun i => if i = bbn then false else (dev.buffers b).bbiDirty i }
      with hbuf1
    set devStep : Device := { setBuffer dev b buf1 with memSpace := pm1 } with hdevStep
    have hrun : flushPass1 b (count + 1) dev pbn = flushPass1 b count devStep (pbn + 1) := by
      simp only [flushPass1]
      rw [← hbbn, if_pos hp4, if_pos hp6]
    have hinj : ∀ p, pbn < p → p < pbn + (count + 1) → dev.pbiBbn p ≠ bbn := by
      intro p hlt hub heq
      obtain ⟨_, _, _, _, hq5, _⟩ := hpre p (Finset.mem_Ico.mpr ⟨by omega, by omega⟩)
      rw [heq, hp5] at hq5
      omega
    have hstepBufB : devStep.buffers b = buf1 := by
      simp [hdevStep, setBuffer]
    have hstepBufC : ∀ c, c ≠ b → devStep.buffers c = dev.buffers c := by
      intro c hc
      simp [hdevStep, setBuffer, hc]
    have hsteppbi : devStep.pbiBbn = dev.pbiBbn := rfl
    have hstepmem : devStep.memSpace = pm1 := rfl
    have hpre2 : ∀ p ∈ Finset.Ico (pbn + 1) (pbn + 1 + count), EntryOk devStep b p (devStep.pbiBbn p) := by
      intro p hmem
      rw [Finset.mem_Ico] at hmem
      obtain ⟨hq1, hq2, _, hq4, hq5, hq6⟩ :=
        hpre p (Finset.mem_Ico.mpr ⟨by omega, by omega⟩)
      refine ⟨?_, ?_, rfl, ?_, ?_, ?_⟩
      · show p < devStep.totalPB
        exact hq1
      · show bufIdOf devStep p = b
        exact hq2
      · show devStep.pbiBbn p < (devStep.buffers b).numBlocks
        rw [hsteppbi, hstepBufB]
        exact hq4
      · show (devStep.buffers b).bbiPbn (devStep.pbiBbn p) = p
        rw [hsteppbi, hstepBufB]
        exact hq5
      · show (devStep.buffers b).bbiDirty (devStep.pbiBbn p) = true
        rw [hsteppbi, hstepBufB, hbuf1]
        show (if dev.pbiBbn p = bbn then false else (dev.buffers b).bbiDirty (dev.pbiBbn p)) = true
        rw [if_neg (hinj p (by omega) (by omega))]
        exact hq6
    obtain ⟨dev2, ihrun, ⟨iht, ihnb, ihst, ihbm, ihpte, ihpbi⟩, ihoth,
      ⟨ihN, ihbs, ihspace, ihpdirs, ihpcl, ihnd, ihbbi⟩, ihdirty, ihmem⟩ :=
      ih devStep (pbn + 1) hpre2
    refine ⟨dev2, by rw [hrun]; exact ihrun,
      ⟨by rw [iht]; rfl, by rw [ihnb]; rfl, by rw [ihst]; rfl, by rw [ihbm]; rfl,
       by rw [ihpte]; rfl, by rw [ihpbi, hsteppbi]⟩, ?_, ?_, ?_, ?_⟩
    · intro c hc
      rw [ihoth c hc, hstepBufC c hc]
    · rw [hstepBufB] at ihN ihbs ihspace ihpdirs ihpcl ihnd ihbbi
      exact ⟨ihN, ihbs, ihspace, ihpdirs, ihpcl, ihnd, ihbbi⟩
    · intro i
      rw [ihdirty i, hsteppbi, hstepBufB]
      have hbuf1dirty : ∀ j, buf1.bbiDirty j =
          if j = bbn then false else (dev.buffers b).bbiDirty j := fun j => rfl
      by_cases h1 : ∃ p ∈ Finset.Ico (pbn + 1) (pbn + 1 + count), dev.pbiBbn p = i
      · rw [if_pos h1]
        obtain ⟨p, hpmem, hpp⟩ := h1
        rw [Finset.mem_Ico] at hpmem
        have hcond : ∃ p ∈ Finset.Ico pbn (pbn + (count + 1)), dev.pbiBbn p = i :=
          ⟨p, Finset.mem_Ico.mpr ⟨by omega, by omega⟩, hpp⟩
        rw [if_pos hcond]
      · rw [if_neg h1, hbuf1dirty i]
        by_cases h2 : i = bbn
        · have hcond : ∃ p ∈ Finset.Ico pbn (pbn + (count + 1)), dev.pbiBbn p = i :=
            ⟨pbn, Finset.mem_Ico.mpr ⟨by omega, by omega⟩, by rw [h2]⟩
          rw [if_pos h2, if_pos hcond]
        · have hcond : ¬ ∃ p ∈ Finset.Ico pbn (pbn + (count + 1)), dev.pbiBbn p = i := by
            rintro ⟨p, hpmem, hpp⟩
            rw [Finset.mem_Ico] at hpmem
            by_cases h3 : p = pbn
            · exact h2 (by rw [← hpp, h3])
            · exact h1 ⟨p, Finset.mem_Ico.mpr ⟨by omega, by omega⟩, hpp⟩
          rw [if_neg h2, if_neg hcond]
    · intro a
      rw [ihmem a, hsteppbi, hstepBufB, hstepmem]
      have hspace1 : buf1.bufferSpace = (dev.buffers b).bufferSpace := rfl
      rw [hspace1]
      by_cases h1 : a / PB_SIZE ∈ Finset.Ico (pbn + 1) (pbn + 1 + count)
      · rw [if_pos h1]
        have h1m := Finset.mem_Ico.mp h1
        have hcond : a / PB_SIZE ∈ Finset.Ico pbn (pbn + (count + 1)) :=
          Finset.mem_Ico.mpr ⟨by omega, by omega⟩
        rw [if_pos hcond]
      · rw [if_neg h1, hpm1]
        have h1m : ¬ (pbn + 1 ≤ a / PB_SIZE ∧ a / PB_SIZE < pbn + 1 + count) := by
          intro hx
          exact h1 (Finset.mem_Ico.mpr hx)
        show (if PB_SIZE * pbn ≤ a ∧ a < PB_SIZE * pbn + PB_SIZE then
            (dev.buffers b).bufferSpace (PB_SIZE * bbn + (a - PB_SIZE * pbn))
          else dev.memSpace a) =
          if a / PB_SIZE ∈ Finset.Ico pbn (pbn + (count + 1)) then
            (dev.buffers b).bufferSpace (PB_SIZE * dev.pbiBbn (a / PB_SIZE) + a % PB_SIZE)
          else dev.memSpace a
        by_cases h2 : PB_SIZE * pbn ≤ a ∧ a < PB_SIZE * pbn + PB_SIZE
        · have hdiv : a / PB_SIZE = pbn := by
            simp only [PB_SIZE] at h2 ⊢
            omega
          have hcond : a / PB_SIZE ∈ Finset.Ico pbn (pbn + (count + 1)) :=
            Finset.mem_Ico.mpr ⟨by omega, by omega⟩
          rw [if_pos h2, if_pos hcond, hdiv, ← hbbn]
          congr 1
          simp only [PB_SIZE] at h2 ⊢
          omega
        · have hdiv : a / PB_SIZE ≠ pbn := by
            intro hx
            apply h2
            simp only [PB_SIZE] at hx ⊢
            omega
          rw [if_neg h2, if_neg ?_]
          intro hmem
          have hm := Finset.mem_Ico.mp hmem
          exact hdiv (by omega)

/-- _pmbd_buffer_flush_range on a run of buffered, dirty, back-linked blocks
returns the run length and realizes the flush outcome for exactly that set of
blocks. -/
theorem flush_range_spec (dev : Device) (b : Nat) (pbnS pbnE : Nat)
    (hse : pbnS ≤ pbnE)
    (hpre : ∀ p ∈ Finset.Icc pbnS pbnE, EntryOk dev b p (dev.pbiBbn p)) :
    ∃ dev2, _pmbd_buffer_flush_range dev b pbnS pbnE = some (pbnE + 1 - pbnS, dev2) ∧
      FlushedOutcome dev b (Finset.Icc pbnS pbnE) dev2 := by
  have hcnt : pbnS + (pbnE + 1 - pbnS) = pbnE + 1 := by omega
  have hIcc : Finset.Ico pbnS (pbnS + (pbnE + 1 - pbnS)) = Finset.Icc pbnS pbnE := by
    rw [hcnt, Nat.Ico_succ_right]
  obtain ⟨dev1, e1, ⟨a1t, a1nb, a1st, a1bm, a1pte, a1pbi⟩, a1oth,
    ⟨a1N, a1bs, a1space, a1pd, a1pc, a1nd, a1bbi⟩, a1dirty, a1mem⟩ :=
    flushPass1_spec b (pbnE + 1 - pbnS) dev pbnS (by rw [hIcc]; exact hpre)
  obtain ⟨c2, ⟨b2t, b2nb, b2st, b2bm, b2pte, b2mem⟩, b2oth,
    ⟨b2N, b2bs, b2space, b2pd, b2pc, b2nd, b2dirty⟩, b2pbi, b2bbi⟩ :=
    flushPass2_spec b (pbnE + 1 - pbnS) dev1 pbnS 0
  refine ⟨(flushPass2 b (pbnE + 1 - pbnS) dev1 pbnS 0).2, ?_, ?_⟩
  · show (match flushPass1 b (pbnE + 1 - pbnS) dev pbnS with
      | none => none
      | some d => some (flushPass2 b (pbnE + 1 - pbnS) d pbnS 0)) = _
    rw [e1]
    have hpair : flushPass2 b (pbnE + 1 - pbnS) dev1 pbnS 0 =
        (pbnE + 1 - pbnS, (flushPass2 b (pbnE + 1 - pbnS) dev1 pbnS 0).2) :=
      Prod.ext (by rw [c2]; omega) rfl
    show some (flushPass2 b (pbnE + 1 - pbnS) dev1 pbnS 0) = _
    conv_lhs => rw [hpair]
  · refine ⟨?_, ?_, ?_, ?_, ?_, ?_, ?_, ?_, ?_, ?_, ?_, ?_, ?_, ?_, ?_, ?_⟩
    · rw [b2t, a1t]
    · rw [b2nb, a1nb]
    · rw [b2st, a1st]
    · rw [b2bm, a1bm]
    · rw [b2pte, a1pte]
    · intro c hc
      rw [b2oth c hc, a1oth c hc]
    · rw [b2N, a1N]
    · rw [b2bs, a1bs]
    · rw [b2space, a1space]
    · rw [b2pd, a1pd]
    · rw [b2pc, a1pc]
    · rw [b2nd, a1nd]
    · intro p
      rw [b2pbi p, a1t, a1pbi, hIcc]
    · intro i
      rw [b2bbi i, a1t, a1pbi, a1bbi, hIcc]
    · intro i
      rw [b2dirty, a1dirty i, hIcc]
    · intro a
      rw [b2mem, a1mem a, hIcc]

/-- bufIdOf only depends on the stride and buffer-count geometry. -/
theorem bufIdOf_congr {dev1 dev0 : Device} (hst : dev1.bufferStride = dev0.bufferStride)
    (hnb : dev1.numBuffers = dev0.numBuffers) (p : Nat) :
    bufIdOf dev1 p = bufIdOf dev0 p := by
  unfold bufIdOf
  rw [hst, hnb]

/-- Flushing nothing is a trivial flush outcome. -/
theorem FlushedOutcome.refl (dev : Device) (b : Nat) : FlushedOutcome dev b ∅ dev := by
  refine ⟨rfl, rfl, rfl, rfl, rfl, fun c _ => rfl, rfl, rfl, rfl, rfl, rfl, rfl,
    fun p => ?_, fun i => ?_, fun i => ?_, fun a => ?_⟩ <;>
    rw [if_neg (by simp)]

/-- Two successive flush outcomes over disjoint block sets compose. -/
theorem FlushedOutcome.comp {dev0 dev1 dev2 : Device} {b : Nat} {S T : Finset Nat}
    (h01 : FlushedOutcome dev0 b S dev1) (h12 : FlushedOutcome dev1 b T dev2)
    (hTS : ∀ p ∈ T, p ∉ S) : FlushedOutcome dev0 b (S ∪ T) dev2 := by
  have hT0 : ∀ p ∈ T, dev1.pbiBbn p = dev0.pbiBbn p := by
    intro p hp
    rw [h01.hpbi p, if_neg (hTS p hp)]
  have hexT : ∀ i, (∃ p ∈ T, dev1.pbiBbn p = i) ↔ (∃ p ∈ T, dev0.pbiBbn p = i) := by
    intro i
    constructor
    · rintro ⟨p, hp, he⟩
      exact ⟨p, hp, by rw [← hT0 p hp]; exact he⟩
    · rintro ⟨p, hp, he⟩
      exact ⟨p, hp, by rw [hT0 p hp]; exact he⟩
  refine ⟨h12.htotal.trans h01.htotal, h12.hnbuf.trans h01.hnbuf,
    h12.hstride.trans h01.hstride, h12.hbufmode.trans h01.hbufmode,
    h12.hpte.trans h01.hpte,
    fun c hc => (h12.hother c hc).trans (h01.hother c hc),
    h12.hN.trans h01.hN, h12.hbatch.trans h01.hbatch, h12.hspace.trans h01.hspace,
    h12.hpd.trans h01.hpd, h12.hpcl.trans h01.hpcl, h12.hnd.trans h01.hnd,
    fun p => ?_, fun i => ?_, fun i => ?_, fun a => ?_⟩
  · rw [h12.hpbi p, h01.htotal]
    by_cases h1 : p ∈ T
    · rw [if_pos h1, if_pos (Finset.mem_union_right S h1)]
    · rw [if_neg h1, h01.hpbi p]
      by_cases h2 : p ∈ S
      · rw [if_pos h2, if_pos (Finset.mem_union_left T h2)]
      · rw [if_neg h2, if_neg (by simp [Finset.mem_union, h1, h2])]
  · rw [h12.hbbiP i, h01.htotal]
    by_cases h1 : ∃ p ∈ T, dev1.pbiBbn p = i
    · have h1u : ∃ p ∈ S ∪ T, dev0.pbiBbn p = i := by
        obtain ⟨p, hp, he⟩ := (hexT i).mp h1
        exact ⟨p, Finset.mem_union_right S hp, he⟩
      rw [if_pos h1, if_pos h1u]
    · rw [if_neg h1, h01.hbbiP i]
      by_cases h2 : ∃ p ∈ S, dev0.pbiBbn p = i
      · have h2u : ∃ p ∈ S ∪ T, dev0.pbiBbn p = i := by
          obtain ⟨p, hp, he⟩ := h2
          exact ⟨p, Finset.mem_union_left T hp, he⟩
        rw [if_pos h2, if_pos h2u]
      · rw [if_neg h2, if_neg ?_]
        rintro ⟨p, hpu, he⟩
        rcases Finset.mem_union.mp hpu with hpS | hpT
        · exact h2 ⟨p, hpS, he⟩
        · exact h1 ((hexT i).mpr ⟨p, hpT, he⟩)
  · rw [h12.hbbiD i]
    by_cases h1 : ∃ p ∈ T, dev1.pbiBbn p = i
    · have h1u : ∃ p ∈ S ∪ T, dev0.pbiBbn p = i := by
        obtain ⟨p, hp, he⟩ := (hexT i).mp h1
        exact ⟨p, Finset.mem_union_right S hp, he⟩
      rw [if_pos h1, if_pos h1u]
    · rw [if_neg h1, h01.hbbiD i]
      by_cases h2 : ∃ p ∈ S, dev0.pbiBbn p = i
      · have h2u : ∃ p ∈ S ∪ T, dev0.pbiBbn p = i := by
          obtain ⟨p, hp, he⟩ := h2
          exact ⟨p, Finset.mem_union_left T hp, he⟩
        rw [if_pos h2, if_pos h2u]
      · rw [if_neg h2, if_neg ?_]
        rintro ⟨p, hpu, he⟩
        rcases Finset.mem_union.mp hpu with hpS | hpT
        · exact h2 ⟨p, hpS, he⟩
        · exact h1 ((hexT i).mpr ⟨p, hpT, he⟩)
  · rw [h12.hmem a]
    by_cases h1 : a / PB_SIZE ∈ T
    · rw [if_pos h1, if_pos (Finset.mem_union_right S h1), h01.hspace,
        hT0 (a / PB_SIZE) h1]
    · rw [if_neg h1, h01.hmem a]
      by_cases h2 : a / PB_SIZE ∈ S
      · rw [if_pos h2, if_pos (Finset.mem_union_left T h2)]
      · rw [if_neg h2, if_neg (by simp [Finset.mem_union, h1, h2])]

/-- A block that is coherent in the pre-flush state and was not flushed stays
coherent after a flush outcome. -/
theorem EntryOk_transfer {dev0 dev : Device} {b : Nat} {S : Finset Nat}
    (hfo : FlushedOutcome dev0 b S dev)
    (hSok : ∀ q ∈ S, EntryOk dev0 b q (dev0.pbiBbn q))
    {p : Nat} (hok : EntryOk dev0 b p (dev0.pbiBbn p)) (hpS : p ∉ S) :
    EntryOk dev b p (dev.pbiBbn p) := by
  obtain ⟨h1, h2, _, h4, h5, h6⟩ := hok
  have hpbi : dev.pbiBbn p = dev0.pbiBbn p := by
    rw [hfo.hpbi p, if_neg hpS]
  have hnoslot : ¬ ∃ q ∈ S, dev0.pbiBbn q = dev0.pbiBbn p := by
    rintro ⟨q, hq, he⟩
    obtain ⟨_, _, _, _, hq5, _⟩ := hSok q hq
    rw [he, h5] at hq5
    rw [← hq5] at hq
    exact hpS hq
  refine ⟨?_, ?_, rfl, ?_, ?_, ?_⟩
  · rw [hfo.htotal]
    exact h1
  · rw [bufIdOf_congr hfo.hstride hfo.hnbuf]
    exact h2
  · rw [hpbi, hfo.hN]
    exact h4
  · rw [hpbi, hfo.hbbiP, if_neg hnoslot]
    exact h5
  · rw [hpbi, hfo.hbbiD, if_neg hnoslot]
    exact h6

/-- The run-forming loop of pmbd_buffer_flush flushes every remaining entry
exactly once: it returns the pending-run length plus the number of remaining
entries, and realizes the flush outcome for the union of the processed
sets. -/
theorem flushRuns_spec (dev0 : Device) (b : Nat) :
    ∀ (rest : List (Nat × Nat)) (dev : Device) (first last acc : Nat) (S : Finset Nat),
    FlushedOutcome dev0 b S dev →
    (∀ q ∈ S, EntryOk dev0 b q (dev0.pbiBbn q)) →
    (∀ p, first ≤ p → p ≤ last → EntryOk dev0 b p (dev0.pbiBbn p) ∧ p ∉ S) →
    (∀ f ∈ rest, EntryOk dev0 b f.1 f.2 ∧ f.1 ∉ S ∧ ¬(first ≤ f.1 ∧ f.1 ≤ last)) →
    (rest.map Prod.fst).Nodup →
    first ≤ last →
    ∃ devF, flushRuns b rest dev first last acc =
        some (acc + (last + 1 - first) + rest.length, devF) ∧
      FlushedOutcome dev0 b (S ∪ Finset.Icc first last ∪ (rest.map Prod.fst).toFinset) devF := by
  intro rest
  induction rest with
  | nil =>
    intro dev first last acc S hfo hSok hpend hrest hnodup hfl
    have hpre : ∀ p ∈ Finset.Icc first last, EntryOk dev b p (dev.pbiBbn p) := by
      intro p hp
      rw [Finset.mem_Icc] at hp
      obtain ⟨hok, hns⟩ := hpend p hp.1 hp.2
      exact EntryOk_transfer hfo hSok hok hns
    obtain ⟨dev2, heq, hout⟩ := flush_range_spec dev b first last hfl hpre
    refine ⟨dev2, ?_, ?_⟩
    · show (match _pmbd_buffer_flush_range dev b first last with
        | none => none
        | some (n, dev1) => some (acc + n, dev1)) = _
      rw [heq]
      simp only [List.length_nil, Nat.add_zero]
    · have hcomp := FlushedOutcome.comp hfo hout
        (fun p hp => (hpend p (Finset.mem_Icc.mp hp).1 (Finset.mem_Icc.mp hp).2).2)
      simpa using hcomp
  | cons e rest ih =>
    intro dev first last acc S hfo hSok hpend hrest hnodup hfl
    obtain ⟨heok, heS, heR⟩ := hrest e (List.mem_cons_self e rest)
    have he2 : dev0.pbiBbn e.1 = e.2 := heok.2.2.1
    have heok0 : EntryOk dev0 b e.1 (dev0.pbiBbn e.1) := by rw [he2]; exact heok
    have hslotok : EntryOk dev b e.1 (dev.pbiBbn e.1) :=
      EntryOk_transfer hfo hSok heok0 heS
    have hpbieq : dev.pbiBbn e.1 = e.2 := by
      rw [hfo.hpbi e.1, if_neg heS, he2]
    have hp : (dev.buffers b).bbiPbn e.2 = e.1 := by
      rw [← hpbieq]
      exact hslotok.2.2.2.2.1
    have hnodupc : e.1 ∉ rest.map Prod.fst ∧ (rest.map Prod.fst).Nodup := by
      have h := hnodup
      rw [List.map_cons, List.nodup_cons] at h
      exact h
    have hnotin : e.1 ∉ rest.map Prod.fst := hnodupc.1
    have hnodup2 : (rest.map Prod.fst).Nodup := hnodupc.2
    have hrun : flushRuns b (e :: rest) dev first last acc =
        (if e.1 = last + 1 then flushRuns b rest dev first e.1 acc
         else match _pmbd_buffer_flush_range dev b first last with
           | none => none
           | some (n, dev1) => flushRuns b rest dev1 e.1 e.1 (acc + n)) := by
      simp only [flushRuns]
      rw [hp]
    by_cases hcase : e.1 = last + 1
    · rw [hrun, if_pos hcase]
      have hpend2 : ∀ p, first ≤ p → p ≤ e.1 →
          EntryOk dev0 b p (dev0.pbiBbn p) ∧ p ∉ S := by
        intro p hp1 hp2
        by_cases hpe : p = e.1
        · subst hpe
          exact ⟨heok0, heS⟩
        · exact hpend p hp1 (by omega)
      have hrest2 : ∀ f ∈ rest, EntryOk dev0 b f.1 f.2 ∧ f.1 ∉ S ∧
          ¬(first ≤ f.1 ∧ f.1 ≤ e.1) := by
        intro f hf
        obtain ⟨h1, h2, h3⟩ := hrest f (List.mem_cons_of_mem e hf)
        refine ⟨h1, h2, ?_⟩
        rintro ⟨hh1, hh2⟩
        have hfe : f.1 = e.1 := by omega
        exact hnotin (by rw [← hfe]; exact List.mem_map_of_mem Prod.fst hf)
      obtain ⟨devF, hfeq, hfout⟩ :=
        ih dev first e.1 acc S hfo hSok hpend2 hrest2 hnodup2 (by omega)
      refine ⟨devF, ?_, ?_⟩
      · rw [hfeq]
        congr 2
        simp only [List.length_cons]
        omega
      · have hsets : S ∪ Finset.Icc first e.1 ∪ (rest.map Prod.fst).toFinset =
            S ∪ Finset.Icc first last ∪ ((e :: rest).map Prod.fst).toFinset := by
          ext x
          simp only [Finset.mem_union, Finset.mem_Icc, List.map_cons,
            List.toFinset_cons, Finset.mem_insert, List.mem_toFinset]
          constructor
          · rintro ((h | h) | h)
            · exact Or.inl (Or.inl h)
            · by_cases hx : x ≤ last
              · exact Or.inl (Or.inr ⟨h.1, hx⟩)
              · exact Or.inr (Or.inl (by omega))
            · exact Or.inr (Or.inr h)
          · rintro ((h | h) | (h | h))
            · exact Or.inl (Or.inl h)
            · exact Or.inl (Or.inr ⟨h.1, by omega⟩)
            · exact Or.inl (Or.inr (by omega))
            · exact Or.inr h
        rw [← hsets]
        exact hfout
    · rw [hrun, if_neg hcase]
      have hpre : ∀ p ∈ Finset.Icc first last, EntryOk dev b p (dev.pbiBbn p) := by
        intro p hpm
        rw [Finset.mem_Icc] at hpm
        obtain ⟨hok, hns⟩ := hpend p hpm.1 hpm.2
        exact EntryOk_transfer hfo hSok hok hns
      obtain ⟨dev2, hreq, hrout⟩ := flush_range_spec dev b first last hfl hpre
      rw [hreq]
      have hcomp : FlushedOutcome dev0 b (S ∪ Finset.Icc first last) dev2 :=
        FlushedOutcome.comp hfo hrout
          (fun p hpm => (hpend p (Finset.mem_Icc.mp hpm).1 (Finset.mem_Icc.mp hpm).2).2)
      have hSok2 : ∀ q ∈ S ∪ Finset.Icc first last, EntryOk dev0 b q (dev0.pbiBbn q) := by
        intro q hq
        rcases Finset.mem_union.mp hq with h | h
        · exact hSok q h
        · exact (hpend q (Finset.mem_Icc.mp h).1 (Finset.mem_Icc.mp h).2).1
      have hpend2 : ∀ p, e.1 ≤ p → p ≤ e.1 →
          EntryOk dev0 b p (dev0.pbiBbn p) ∧ p ∉ S ∪ Finset.Icc first last := by
        intro p hp1 hp2
        have hpe : p = e.1 := by omega
        subst hpe
        refine ⟨heok0, ?_⟩
        rw [Finset.mem_union]
        rintro (h | h)
        · exact heS h
        · rw [Finset.mem_Icc] at h
          exact heR h
      have hrest2 : ∀ f ∈ rest, EntryOk dev0 b f.1 f.2 ∧
          f.1 ∉ S ∪ Finset.Icc first last ∧ ¬(e.1 ≤ f.1 ∧ f.1 ≤ e.1) := by
        intro f hf
        obtain ⟨h1, h2, h3⟩ := hrest f (List.mem_cons_of_mem e hf)
        refine ⟨h1, ?_, ?_⟩
        · rw [Finset.mem_union]
          rintro (h | h)
          · exact h2 h
          · rw [Finset.mem_Icc] at h
            exact h3 h
        · rintro ⟨hh1, hh2⟩
          have hfe : f.1 = e.1 := by omega
          exact hnotin (by rw [← hfe]; exact List.mem_map_of_mem Prod.fst hf)
      obtain ⟨devF, hfeq, hfout⟩ := ih dev2 e.1 e.1 (acc + (last + 1 - first))
        (S ∪ Finset.Icc first last) hcomp hSok2 hpend2 hrest2 hnodup2 (le_refl e.1)
      refine ⟨devF, ?_, ?_⟩
      · show flushRuns b rest dev2 e.1 e.1 (acc + (last + 1 - first)) = _
        rw [hfeq]
        congr 2
        simp only [List.length_cons]
        omega
      · have hsets : S ∪ Finset.Icc first last ∪ Finset.Icc e.1 e.1 ∪
            (rest.map Prod.fst).toFinset =
            S ∪ Finset.Icc first last ∪ ((e :: rest).map Prod.fst).toFinset := by
          ext x
          simp only [Finset.mem_union, Finset.mem_Icc, List.map_cons,
            List.toFinset_cons, Finset.mem_insert, List.mem_toFinset]
          constructor
          · rintro (((h | h) | h) | h)
            · exact Or.inl (Or.inl h)
            · exact Or.inl (Or.inr h)
            · exact Or.inr (Or.inl (by omega))
            · exact Or.inr (Or.inr h)
          · rintro ((h | h) | (h | h))
            · exact Or.inl (Or.inl (Or.inl h))
            · exact Or.inl (Or.inl (Or.inr h))
            · exact Or.inl (Or.inr (by omega))
            · exact Or.inr h
        rw [← hsets]
        exact hfout

/-- Membership in the scanned window entries. -/
theorem windowEnts_mem (buf : Buffer) (k : Nat) (f : Nat × Nat) :
    f ∈ windowEnts buf k ↔ ∃ j < k,
      f = (buf.bbiPbn ((buf.posDirty + j) % buf.numBlocks),
           (buf.posDirty + j) % buf.numBlocks) := by
  unfold windowEnts
  simp only [List.mem_map, List.mem_range]
  constructor
  · rintro ⟨j, hj, he⟩
    exact ⟨j, hj, he.symm⟩
  · rintro ⟨j, hj, he⟩
    exact ⟨j, hj, he.symm⟩

/-- The scan produces k entries. -/
theorem windowEnts_length (buf : Buffer) (k : Nat) : (windowEnts buf k).length = k := by
  unfold windowEnts
  rw [List.length_map, List.length_range]

/-- Under the buffer invariant every scanned window entry is coherent. -/
theorem windowEnts_entryOk (dev : Device) (b : Nat) (hwf : WfBuffer dev b) (k : Nat)
    (hk : k ≤ (dev.buffers b).numDirty) :
    ∀ f ∈ windowEnts (dev.buffers b) k, EntryOk dev b f.1 f.2 := by
  intro f hf
  obtain ⟨j, hj, he⟩ := (windowEnts_mem (dev.buffers b) k f).mp hf
  subst he
  refine ⟨hwf.hwpbn j (by omega), hwf.hwbuf j (by omega), hwf.hwback j (by omega),
    Nat.mod_lt _ hwf.hN, rfl, hwf.hwdirty j (by omega)⟩

/-- Under the buffer invariant the scanned PBNs are pairwise distinct. -/
theorem windowEnts_pbn_nodup (dev : Device) (b : Nat) (hwf : WfBuffer dev b) (k : Nat)
    (hk : k ≤ (dev.buffers b).numDirty) :
    ((windowEnts (dev.buffers b) k).map Prod.fst).Nodup := by
  unfold windowEnts
  rw [List.map_map]
  refine List.Nodup.map_on ?_ (List.nodup_range k)
  intro x hx y hy he
  rw [List.mem_range] at hx hy
  simp only [Function.comp_apply] at he
  have hex : dev.pbiBbn ((dev.buffers b).bbiPbn
      (((dev.buffers b).posDirty + x) % (dev.buffers b).numBlocks)) =
      ((dev.buffers b).posDirty + x) % (dev.buffers b).numBlocks := hwf.hwback x (by omega)
  have hey : dev.pbiBbn ((dev.buffers b).bbiPbn
      (((dev.buffers b).posDirty + y) % (dev.buffers b).numBlocks)) =
      ((dev.buffers b).posDirty + y) % (dev.buffers b).numBlocks := hwf.hwback y (by omega)
  rw [he, hey] at hex
  have hxN : x < (dev.buffers b).numBlocks := by
    have := hwf.hnd
    omega
  have hyN : y < (dev.buffers b).numBlocks := by
    have := hwf.hnd
    omega
  exact (ring_inj hyN hxN hex).symm

/-- The scan loop of pmbd_buffer_flush, as called with num_to_clean = k from
the window head, collects the k window entries. -/
theorem scanDirty_windowEnts (dev : Device) (b : Nat) (hwf : WfBuffer dev b) (k : Nat)
    (hk : k ≤ (dev.buffers b).numDirty) :
    scanDirty (dev.buffers b) k (dev.buffers b).posDirty
      (nextPos (dev.buffers b) (prioPos (dev.buffers b) (dev.buffers b).posClean)) true =
    some (windowEnts (dev.buffers b) k) := by
  have h := scanDirty_eval (dev.buffers b) hwf.hN hwf.hnd hwf.hpd hwf.hpc hwf.hwdirty
    k 0 true (by omega) (by simp)
  have hstart : ((dev.buffers b).posDirty + 0) % (dev.buffers b).numBlocks =
      (dev.buffers b).posDirty := by
    rw [Nat.add_zero, Nat.mod_eq_of_lt hwf.hpd]
  rw [hstart] at h
  rw [h]
  congr 1
  unfold windowEnts
  apply List.map_congr_left
  intro t _
  rw [Nat.zero_add]

/-- pmbd_buffer_flush in the non-trivial case: it cleans exactly
k = min(budget, num_dirty) blocks — the first k entries of the dirty window —
realizing the flush outcome for their PBNs and then advancing pos_dirty by k
modulo N and decrementing num_dirty by k. -/
theorem flush_state_spec (dev : Device) (b : Nat) (budget : Nat)
    (hInv : Inv dev) (hb : b < dev.numBuffers)
    (hk1 : 0 < min budget (dev.buffers b).numDirty) :
    ∃ devF, FlushedOutcome dev b
        (((windowEnts (dev.buffers b) (min budget (dev.buffers b).numDirty)).map
          Prod.fst).toFinset) devF ∧
      pmbd_buffer_flush dev b budget =
        some (min budget (dev.buffers b).numDirty,
          setBuffer devF b { devF.buffers b with
            posDirty := nextNPos (devF.buffers b) (dev.buffers b).posDirty
              (min budget (dev.buffers b).numDirty),
            numDirty := (devF.buffers b).numDirty -
              min budget (dev.buffers b).numDirty }) := by
  have hwf := hInv.hwf b hb
  have hknd : min budget (dev.buffers b).numDirty ≤ (dev.buffers b).numDirty :=
    Nat.min_le_right _ _
  have hscan := scanDirty_windowEnts dev b hwf _ hknd
  have hEok := windowEnts_entryOk dev b hwf _ hknd
  have hnodup := windowEnts_pbn_nodup dev b hwf _ hknd
  have hlen : (windowEnts (dev.buffers b) (min budget (dev.buffers b).numDirty)).length =
      min budget (dev.buffers b).numDirty := windowEnts_length _ _
  set ents := windowEnts (dev.buffers b) (min budget (dev.buffers b).numDirty)
    with hentsdef
  have hclamp : (if (dev.buffers b).numDirty < budget then (dev.buffers b).numDirty
      else budget) = min budget (dev.buffers b).numDirty := by
    split <;> omega
  have hguard : ¬ ((dev.buffers b).numDirty = 0 ∨
      min budget (dev.buffers b).numDirty = 0) := by omega
  have hlen0 : ¬ ents.length = 0 := by omega
  have hperm : List.Perm (if dev.wpmodePte then
      List.insertionSort (fun a c : Nat × Nat => a.1 ≤ c.1) ents else ents) ents := by
    split
    · exact List.perm_insertionSort _ _
    · exact List.Perm.refl _
  rcases hsort : (if dev.wpmodePte then
      List.insertionSort (fun a c : Nat × Nat => a.1 ≤ c.1) ents else ents) with _ | ⟨e, rest⟩
  · rw [hsort] at hperm
    have := hperm.length_eq
    simp at this
    omega
  · rw [hsort] at hperm
    have hsortok : ∀ f ∈ e :: rest, EntryOk dev b f.1 f.2 := by
      intro f hf
      exact hEok f (hperm.mem_iff.mp hf)
    have hsortnodup : ((e :: rest).map Prod.fst).Nodup :=
      ((hperm.map Prod.fst).nodup_iff).mpr hnodup
    have hnodupc : e.1 ∉ rest.map Prod.fst ∧ (rest.map Prod.fst).Nodup := by
      have h := hsortnodup
      rw [List.map_cons, List.nodup_cons] at h
      exact h
    have heok := hsortok e (List.mem_cons_self e rest)
    have he2 : dev.pbiBbn e.1 = e.2 := heok.2.2.1
    have heok0 : EntryOk dev b e.1 (dev.pbiBbn e.1) := by
      rw [he2]
      exact heok
    have hp : (dev.buffers b).bbiPbn e.2 = e.1 := heok.2.2.2.2.1
    have hpend : ∀ p, e.1 ≤ p → p ≤ e.1 →
        EntryOk dev b p (dev.pbiBbn p) ∧ p ∉ (∅ : Finset Nat) := by
      intro p h1 h2
      have hpe : p = e.1 := by omega
      subst hpe
      exact ⟨heok0, Finset.not_mem_empty _⟩
    have hrest : ∀ f ∈ rest, EntryOk dev b f.1 f.2 ∧ f.1 ∉ (∅ : Finset Nat) ∧
        ¬(e.1 ≤ f.1 ∧ f.1 ≤ e.1) := by
      intro f hf
      refine ⟨hsortok f (List.mem_cons_of_mem e hf), Finset.not_mem_empty _, ?_⟩
      rintro ⟨h1, h2⟩
      have hfe : f.1 = e.1 := by omega
      exact hnodupc.1 (by rw [← hfe]; exact List.mem_map_of_mem Prod.fst hf)
    obtain ⟨devF, hfr, hfout⟩ := flushRuns_spec dev b rest dev e.1 e.1 0 ∅
      (FlushedOutcome.refl dev b) (by simp) hpend hrest hnodupc.2 (le_refl _)
    have hSeq : (∅ : Finset Nat) ∪ Finset.Icc e.1 e.1 ∪ (rest.map Prod.fst).toFinset =
        (ents.map Prod.fst).toFinset := by
      have hpf : List.Perm ((e :: rest).map Prod.fst) (ents.map Prod.fst) := hperm.map _
      rw [← List.toFinset_eq_of_perm _ _ hpf]
      ext x
      simp [Finset.Icc_self]
    have hkcount : 0 + (e.1 + 1 - e.1) + rest.length =
        min budget (dev.buffers b).numDirty := by
      have hl := hperm.length_eq
      simp only [List.length_cons] at hl
      omega
    refine ⟨devF, by rw [← hSeq]; exact hfout, ?_⟩
    simp only [pmbd_buffer_flush, hclamp]
    rw [if_neg hguard]
    simp only [hscan]
    rw [if_neg hlen0]
    simp only [hsort, hp, hfr, hkcount]

/-- Adding below the modulus after a reduced sum. -/
theorem mod_add_assoc (x y z N : Nat) : ((x + y) % N + z) % N = (x + (y + z)) % N := by
  rw [Nat.mod_add_mod, Nat.add_assoc]

/-- pmbd_buffer_flush: full accounting and state specification under the
device invariant.  The call returns exactly min(budget, num_dirty at entry),
advances pos_dirty by that count modulo N, decrements num_dirty by it, keeps
pos_clean and every other buffer untouched, preserves the invariant and the
logical byte content of the whole device, and leaves unbuffered blocks' PBI
entries and PM bytes alone. -/
theorem pmbd_buffer_flush_spec (dev : Device) (b : Nat) (budget : Nat)
    (hInv : Inv dev) (hb : b < dev.numBuffers) :
    ∃ dev1, pmbd_buffer_flush dev b budget =
        some (min budget (dev.buffers b).numDirty, dev1) ∧
      Inv dev1 ∧
      dev1.totalPB = dev.totalPB ∧
      dev1.numBuffers = dev.numBuffers ∧
      dev1.bufferStride = dev.bufferStride ∧
      dev1.bufmode = dev.bufmode ∧
      dev1.wpmodePte = dev.wpmodePte ∧
      (∀ c, c ≠ b → dev1.buffers c = dev.buffers c) ∧
      (dev1.buffers b).numBlocks = (dev.buffers b).numBlocks ∧
      (dev1.buffers b).batchSize = (dev.buffers b).batchSize ∧
      (dev1.buffers b).bufferSpace = (dev.buffers b).bufferSpace ∧
      (dev1.buffers b).posDirty = ((dev.buffers b).posDirty +
        min budget (dev.buffers b).numDirty) % (dev.buffers b).numBlocks ∧
      (dev1.buffers b).posClean = (dev.buffers b).posClean ∧
      (dev1.buffers b).numDirty = (dev.buffers b).numDirty -
        min budget (dev.buffers b).numDirty ∧
      (∀ a, logicalByte dev1 a = logicalByte dev a) ∧
      (∀ p, ¬ dev.pbiBbn p < (dev.buffers (bufIdOf dev p)).numBlocks →
        dev1.pbiBbn p = dev.pbiBbn p ∧
        ∀ j < PB_SIZE, dev1.memSpace (PB_SIZE * p + j) = dev.memSpace (PB_SIZE * p + j)) := by
  have hwf := hInv.hwf b hb
  rcases Nat.eq_zero_or_pos (min budget (dev.buffers b).numDirty) with hk0 | hk1
  · -- trivial case: empty buffer or zero budget
    have hclamp : (if (dev.buffers b).numDirty < budget then (dev.buffers b).numDirty
        else budget) = min budget (dev.buffers b).numDirty := by
      split <;> omega
    have hguard : (dev.buffers b).numDirty = 0 ∨
        min budget (dev.buffers b).numDirty = 0 := Or.inr hk0
    refine ⟨dev, ?_, hInv, rfl, rfl, rfl, rfl, rfl, fun c _ => rfl, rfl, rfl, rfl,
      ?_, rfl, ?_, fun a => rfl, fun p _ => ⟨rfl, fun j _ => rfl⟩⟩
    · simp only [pmbd_buffer_flush, hclamp]
      rw [if_pos hguard, hk0]
    · rw [hk0, Nat.add_zero, Nat.mod_eq_of_lt hwf.hpd]
    · rw [hk0, Nat.sub_zero]
  · obtain ⟨devF, hfo, heq⟩ := flush_state_spec dev b budget hInv hb hk1
    -- abbreviations for the flushed set
    have hSmem : ∀ q, q ∈ ((windowEnts (dev.buffers b)
        (min budget (dev.buffers b).numDirty)).map Prod.fst).toFinset ↔
        ∃ j < min budget (dev.buffers b).numDirty,
          q = (dev.buffers b).bbiPbn
            (((dev.buffers b).posDirty + j) % (dev.buffers b).numBlocks) := by
      intro q
      rw [List.mem_toFinset, List.mem_map]
      constructor
      · rintro ⟨f, hf, hq⟩
        obtain ⟨j, hj, he⟩ := (windowEnts_mem _ _ f).mp hf
        subst he
        exact ⟨j, hj, hq.symm⟩
      · rintro ⟨j, hj, hq⟩
        refine ⟨((dev.buffers b).bbiPbn (((dev.buffers b).posDirty + j) %
          (dev.buffers b).numBlocks), ((dev.buffers b).posDirty + j) %
          (dev.buffers b).numBlocks), ?_, hq.symm⟩
        exact (windowEnts_mem _ _ _).mpr ⟨j, hj, rfl⟩
    have hknd : min budget (dev.buffers b).numDirty ≤ (dev.buffers b).numDirty :=
      Nat.min_le_right _ _
    have hSok : ∀ q ∈ ((windowEnts (dev.buffers b)
        (min budget (dev.buffers b).numDirty)).map Prod.fst).toFinset,
        EntryOk dev b q (dev.pbiBbn q) := by
      intro q hq
      obtain ⟨j, hj, hqe⟩ := (hSmem q).mp hq
      have hE := windowEnts_entryOk dev b hwf _ hknd _
        ((windowEnts_mem _ _ _).mpr ⟨j, hj, rfl⟩)
      have hback := hwf.hwback j (by omega)
      rw [← hqe] at hE hback
      rw [hqe] at hback
      rw [hqe]
      have : dev.pbiBbn ((dev.buffers b).bbiPbn (((dev.buffers b).posDirty + j) %
          (dev.buffers b).numBlocks)) = ((dev.buffers b).posDirty + j) %
          (dev.buffers b).numBlocks := hwf.hwback j (by omega)
      rw [this]
      exact windowEnts_entryOk dev b hwf _ hknd _ ((windowEnts_mem _ _ _).mpr ⟨j, hj, rfl⟩)
    -- slots of the flushed set are exactly the window prefix slots
    have hslotS : ∀ i, (∃ q ∈ ((windowEnts (dev.buffers b)
        (min budget (dev.buffers b).numDirty)).map Prod.fst).toFinset,
        dev.pbiBbn q = i) ↔
        ∃ j < min budget (dev.buffers b).numDirty,
          i = ((dev.buffers b).posDirty + j) % (dev.buffers b).numBlocks := by
      intro i
      constructor
      · rintro ⟨q, hq, hqi⟩
        obtain ⟨j, hj, hqe⟩ := (hSmem q).mp hq
        have hback := hwf.hwback j (by omega)
        rw [← hqe] at hback
        rw [hback] at hqi
        exact ⟨j, hj, hqi.symm⟩
      · rintro ⟨j, hj, hie⟩
        refine ⟨(dev.buffers b).bbiPbn (((dev.buffers b).posDirty + j) %
          (dev.buffers b).numBlocks), (hSmem _).mpr ⟨j, hj, rfl⟩, ?_⟩
        rw [hwf.hwback j (by omega), hie]
    have hsuffix_slot : ∀ j, min budget (dev.buffers b).numDirty ≤ j →
        j < (dev.buffers b).numDirty →
        ¬ ∃ q ∈ ((windowEnts (dev.buffers b)
          (min budget (dev.buffers b).numDirty)).map Prod.fst).toFinset,
          dev.pbiBbn q = ((dev.buffers b).posDirty + j) % (dev.buffers b).numBlocks := by
      intro j hjk hjnd hex
      obtain ⟨j2, hj2, he⟩ := (hslotS _).mp hex
      have hjN : j < (dev.buffers b).numBlocks := by
        have := hwf.hnd
        omega
      have hj2N : j2 < (dev.buffers b).numBlocks := by
        have := hwf.hnd
        omega
      have := ring_inj hjN hj2N he
      omega
    have hsuffix_pbn : ∀ j, min budget (dev.buffers b).numDirty ≤ j →
        j < (dev.buffers b).numDirty →
        (dev.buffers b).bbiPbn (((dev.buffers b).posDirty + j) %
          (dev.buffers b).numBlocks) ∉ ((windowEnts (dev.buffers b)
          (min budget (dev.buffers b).numDirty)).map Prod.fst).toFinset := by
      intro j hjk hjnd hmem
      obtain ⟨j2, hj2, he⟩ := (hSmem _).mp hmem
      have hb1 := hwf.hwback j (by omega)
      have hb2 := hwf.hwback j2 (by omega)
      rw [← he] at hb2
      rw [hb2] at hb1
      have hjN : j < (dev.buffers b).numBlocks := by
        have := hwf.hnd
        omega
      have hj2N : j2 < (dev.buffers b).numBlocks := by
        have := hwf.hnd
        omega
      have := ring_inj hj2N hjN hb1
      omega
    set k := min budget (dev.buffers b).numDirty with hkdef
    set S := ((windowEnts (dev.buffers b) k).map Prod.fst).toFinset with hSdef
    set buf2 : Buffer := { devF.buffers b with
      posDirty := nextNPos (devF.buffers b) (dev.buffers b).posDirty k,
      numDirty := (devF.buffers b).numDirty - k } with hbuf2def
    set dev1 := setBuffer devF b buf2 with hdev1def
    have hknd : k ≤ (dev.buffers b).numDirty := Nat.min_le_right _ _
    have hNpos : 0 < (dev.buffers b).numBlocks := hwf.hN
    have hSb : ∀ q ∈ S, bufIdOf dev q = b := fun q hq => (hSok q hq).2.1
    have hSvalid : ∀ q ∈ S, dev.pbiBbn q < (dev.buffers b).numBlocks :=
      fun q hq => (hSok q hq).2.2.2.1
    have hbufB : dev1.buffers b = buf2 := by
      rw [hdev1def]
      simp [setBuffer]
    have hbufC : ∀ c, c ≠ b → dev1.buffers c = dev.buffers c := by
      intro c hc
      have h1 : dev1.buffers c = devF.buffers c := by
        rw [hdev1def]
        simp [setBuffer, hc]
      rw [h1]
      exact hfo.hother c hc
    have htot1 : dev1.totalPB = dev.totalPB := hfo.htotal
    have hnbuf1 : dev1.numBuffers = dev.numBuffers := hfo.hnbuf
    have hstride1 : dev1.bufferStride = dev.bufferStride := hfo.hstride
    have hbufmode1 : dev1.bufmode = dev.bufmode := hfo.hbufmode
    have hpte1 : dev1.wpmodePte = dev.wpmodePte := hfo.hpte
    have hN1 : (dev1.buffers b).numBlocks = (dev.buffers b).numBlocks := by
      rw [hbufB]; exact hfo.hN
    have hbatch1 : (dev1.buffers b).batchSize = (dev.buffers b).batchSize := by
      rw [hbufB]; exact hfo.hbatch
    have hspace1 : (dev1.buffers b).bufferSpace = (dev.buffers b).bufferSpace := by
      rw [hbufB]; exact hfo.hspace
    have hpcl1 : (dev1.buffers b).posClean = (dev.buffers b).posClean := by
      rw [hbufB]; exact hfo.hpcl
    have hnd1 : (dev1.buffers b).numDirty = (dev.buffers b).numDirty - k := by
      rw [hbufB]
      show (devF.buffers b).numDirty - k = _
      rw [hfo.hnd]
    have hpd1 : (dev1.buffers b).posDirty =
        ((dev.buffers b).posDirty + k) % (dev.buffers b).numBlocks := by
      rw [hbufB]
      show nextNPos (devF.buffers b) (dev.buffers b).posDirty k = _
      unfold nextNPos
      rw [hfo.hN]
    have hpbi1 : ∀ p, dev1.pbiBbn p =
        if p ∈ S then dev.totalPB + 3 else dev.pbiBbn p := hfo.hpbi
    have hmem1 : ∀ a, dev1.memSpace a =
        if a / PB_SIZE ∈ S then
          (dev.buffers b).bufferSpace (PB_SIZE * dev.pbiBbn (a / PB_SIZE) + a % PB_SIZE)
        else dev.memSpace a := hfo.hmem
    have hbbiP1 : ∀ i, (dev1.buffers b).bbiPbn i =
        if ∃ q ∈ S, dev.pbiBbn q = i then dev.totalPB + 2
        else (dev.buffers b).bbiPbn i := by
      intro i
      rw [hbufB]
      exact hfo.hbbiP i
    have hbbiD1 : ∀ i, (dev1.buffers b).bbiDirty i =
        if ∃ q ∈ S, dev.pbiBbn q = i then false
        else (dev.buffers b).bbiDirty i := by
      intro i
      rw [hbufB]
      exact hfo.hbbiD i
    have hbufId1 : ∀ p, bufIdOf dev1 p = bufIdOf dev p := by
      intro p
      unfold bufIdOf
      rw [hstride1, hnbuf1]
    have hidx : ∀ j, (((dev.buffers b).posDirty + k) % (dev.buffers b).numBlocks + j) %
        (dev.buffers b).numBlocks =
        ((dev.buffers b).posDirty + (k + j)) % (dev.buffers b).numBlocks :=
      fun j => mod_add_assoc _ _ _ _
    -- well-formedness of the flushed buffer
    have hwfb1 : WfBuffer dev1 b := by
      refine ⟨?_, ?_, ?_, ?_, ?_, ?_, ?_, ?_, ?_, ?_, ?_⟩
      · rw [hN1]; exact hwf.hN
      · rw [hbatch1]; exact hwf.hbatch
      · rw [hN1, htot1]; exact hwf.hsent
      · rw [hnd1, hN1]
        have := hwf.hnd
        omega
      · rw [hpd1, hN1]
        exact Nat.mod_lt _ hNpos
      · rw [hpcl1, hpd1, hnd1, hN1, hwf.hpc, mod_add_assoc]
        have hke : k + ((dev.buffers b).numDirty - k) = (dev.buffers b).numDirty := by omega
        rw [hke]
      · intro j hj
        rw [hnd1] at hj
        rw [hpd1, hN1, hidx, hbbiD1, if_neg (hsuffix_slot (k + j) (by omega) (by omega))]
        exact hwf.hwdirty (k + j) (by omega)
      · intro j hj
        rw [hnd1] at hj
        rw [htot1, hpd1, hN1, hidx, hbbiP1, if_neg (hsuffix_slot (k + j) (by omega) (by omega))]
        exact hwf.hwpbn (k + j) (by omega)
      · intro j hj
        rw [hnd1] at hj
        rw [hbufId1, hpd1, hN1, hidx, hbbiP1,
          if_neg (hsuffix_slot (k + j) (by omega) (by omega))]
        exact hwf.hwbuf (k + j) (by omega)
      · intro j hj
        rw [hnd1] at hj
        rw [hpd1, hN1, hidx, hbbiP1, if_neg (hsuffix_slot (k + j) (by omega) (by omega)),
          hpbi1, if_neg (hsuffix_pbn (k + j) (by omega) (by omega))]
        exact hwf.hwback (k + j) (by omega)
      · intro i hi
        rw [hN1] at hi
        rw [htot1, hbbiP1]
        have hiS : ¬ ∃ q ∈ S, dev.pbiBbn q = i := by
          rintro ⟨q, hq, he⟩
          have := hSvalid q hq
          omega
        rw [if_neg hiS]
        exact hwf.hout i hi
    -- well-formedness of the untouched buffers
    have hwfc1 : ∀ c, c < dev.numBuffers → c ≠ b → WfBuffer dev1 c := by
      intro c hc hcb
      have hwfc := hInv.hwf c hc
      have hbc : dev1.buffers c = dev.buffers c := hbufC c hcb
      refine ⟨?_, ?_, ?_, ?_, ?_, ?_, ?_, ?_, ?_, ?_, ?_⟩
      · rw [hbc]; exact hwfc.hN
      · rw [hbc]; exact hwfc.hbatch
      · rw [hbc, htot1]; exact hwfc.hsent
      · rw [hbc]; exact hwfc.hnd
      · rw [hbc]; exact hwfc.hpd
      · rw [hbc]; exact hwfc.hpc
      · intro j hj
        rw [hbc] at hj ⊢
        exact hwfc.hwdirty j hj
      · intro j hj
        rw [hbc] at hj
        rw [hbc, htot1]
        exact hwfc.hwpbn j hj
      · intro j hj
        rw [hbc] at hj
        rw [hbufId1, hbc]
        exact hwfc.hwbuf j hj
      · intro j hj
        rw [hbc] at hj
        rw [hbc]
        have hqS : (dev.buffers c).bbiPbn (((dev.buffers c).posDirty + j) %
            (dev.buffers c).numBlocks) ∉ S := by
          intro hq
          have h1 := hSb _ hq
          have h2 := hwfc.hwbuf j hj
          rw [h2] at h1
          exact hcb h1
        rw [hpbi1, if_neg hqS]
        exact hwfc.hwback j hj
      · intro i hi
        rw [hbc] at hi
        rw [hbc, htot1]
        exact hwfc.hout i hi
    -- the device invariant after the flush
    have hInv1 : Inv dev1 := by
      refine ⟨by rw [hnbuf1]; exact hInv.hnb, by rw [hstride1]; exact hInv.hstride,
        ?_, ?_, ?_, ?_⟩
      · intro c hc
        rw [hnbuf1] at hc
        by_cases hcb : c = b
        · subst hcb
          exact hwfb1
        · exact hwfc1 c hc hcb
      · intro p hp hvalid
        rw [htot1] at hp
        have hbid := hbufId1 p
        by_cases hpS : p ∈ S
        · exfalso
          rw [hbid, hSb p hpS, hN1, hpbi1, if_pos hpS] at hvalid
          have := hwf.hsent
          omega
        · have hpbiP : dev1.pbiBbn p = dev.pbiBbn p := by rw [hpbi1, if_neg hpS]
          by_cases hcb : bufIdOf dev p = b
          · rw [hbid, hcb, hN1, hpbiP] at hvalid
            have hvG : dev.pbiBbn p < (dev.buffers (bufIdOf dev p)).numBlocks := by
              rw [hcb]; exact hvalid
            obtain ⟨⟨kp, hkp, hke⟩, hback⟩ := hInv.hdev p hp hvG
            rw [hcb] at hkp hke hback
            have hkk : k ≤ kp := by
              by_contra hlt
              push_neg at hlt
              apply hpS
              apply (hSmem p).mpr
              refine ⟨kp, hlt, ?_⟩
              rw [hke] at hback
              exact hback.symm
            constructor
            · rw [hbid, hcb, hpbiP, hnd1, hpd1, hN1]
              refine ⟨kp - k, by omega, ?_⟩
              rw [hke, mod_add_assoc]
              have hkeq : k + (kp - k) = kp := by omega
              rw [hkeq]
            · rw [hbid, hcb, hpbiP, hke, hbbiP1, if_neg (hsuffix_slot kp hkk hkp)]
              rw [hke] at hback
              exact hback
          · rw [hbid, hbufC _ hcb, hpbiP] at hvalid
            obtain ⟨⟨kp, hkp, hke⟩, hback⟩ := hInv.hdev p hp hvalid
            constructor
            · rw [hbid, hbufC _ hcb, hpbiP]
              exact ⟨kp, hkp, hke⟩
            · rw [hbid, hbufC _ hcb, hpbiP]
              exact hback
      · intro p hp
        rw [htot1] at hp ⊢
        have hpS : p ∉ S := by
          intro hq
          have := (hSok p hq).1
          omega
        rw [hpbi1, if_neg hpS]
        exact hInv.hhi p hp
      · intro hbm0 c hc
        rw [hbufmode1] at hbm0
        rw [hnbuf1] at hc
        by_cases hcb : c = b
        · rw [hcb, hnd1, hInv.hbufoff hbm0 b hb]
          omega
        · rw [hbufC c hcb]
          exact hInv.hbufoff hbm0 c hc
    -- logical content is unchanged
    have hlog : ∀ a, logicalByte dev1 a = logicalByte dev a := by
      intro a
      simp only [logicalByte]
      rw [hbufId1]
      by_cases hpS : a / PB_SIZE ∈ S
      · rw [hSb _ hpS]
        have h2 : ¬ dev1.pbiBbn (a / PB_SIZE) < (dev1.buffers b).numBlocks := by
          rw [hpbi1, if_pos hpS, hN1]
          have := hwf.hsent
          omega
        rw [if_neg h2, if_pos (hSvalid _ hpS), hmem1 a, if_pos hpS]
      · have hpbiP : dev1.pbiBbn (a / PB_SIZE) = dev.pbiBbn (a / PB_SIZE) := by
          rw [hpbi1, if_neg hpS]
        rw [hpbiP]
        by_cases hcb : bufIdOf dev (a / PB_SIZE) = b
        · rw [hcb, hN1]
          by_cases hv : dev.pbiBbn (a / PB_SIZE) < (dev.buffers b).numBlocks
          · rw [if_pos hv, if_pos hv, hspace1]
          · rw [if_neg hv, if_neg hv, hmem1 a, if_neg hpS]
        · rw [hbufC _ hcb]
          by_cases hv : dev.pbiBbn (a / PB_SIZE) <
              (dev.buffers (bufIdOf dev (a / PB_SIZE))).numBlocks
          · rw [if_pos hv, if_pos hv]
          · rw [if_neg hv, if_neg hv, hmem1 a, if_neg hpS]
    -- unbuffered blocks keep their PBI entry and PM bytes
    have hunbuf : ∀ p, ¬ dev.pbiBbn p < (dev.buffers (bufIdOf dev p)).numBlocks →
        dev1.pbiBbn p = dev.pbiBbn p ∧
        ∀ j < PB_SIZE, dev1.memSpace (PB_SIZE * p + j) = dev.memSpace (PB_SIZE * p + j) := by
      intro p hnv
      have hpS : p ∉ S := by
        intro hq
        apply hnv
        rw [hSb _ hq]
        exact hSvalid _ hq
      refine ⟨by rw [hpbi1, if_neg hpS], ?_⟩
      intro j hj
      rw [hmem1]
      have hdiv : (PB_SIZE * p + j) / PB_SIZE = p := by
        simp only [PB_SIZE] at hj ⊢
        omega
      rw [hdiv, if_neg hpS]
    exact ⟨dev1, heq, hInv1, htot1, hnbuf1, hstride1, hbufmode1, hpte1, hbufC,
      hN1, hbatch1, hspace1, hpd1, hpcl1, hnd1, hlog, hunbuf⟩

/-- allocSlot (the buffer_lock critical section of pmbd_buffer_alloc_block):
called on an unbuffered block of a non-full buffer, it returns the slot at
pos_clean, advances pos_clean, bumps num_dirty, marks the new slot dirty and
binds both links, preserving the invariant and the logical content of every
other block. -/
theorem allocSlot_spec (dev : Device) (b pbn : Nat) (hInv : Inv dev)
    (hbm : dev.bufmode = true) (hb : b < dev.numBuffers)
    (hpbn : pbn < dev.totalPB) (hown : bufIdOf dev pbn = b)
    (hnv : ¬ dev.pbiBbn pbn < (dev.buffers b).numBlocks)
    (hroom : (dev.buffers b).numDirty < (dev.buffers b).numBlocks) :
    ∃ pos dev2, allocSlot dev b pbn = (pos, dev2) ∧ Inv dev2 ∧
      pos = (dev.buffers b).posClean ∧
      dev2.totalPB = dev.totalPB ∧ dev2.numBuffers = dev.numBuffers ∧
      dev2.bufferStride = dev.bufferStride ∧ dev2.bufmode = dev.bufmode ∧
      dev2.wpmodePte = dev.wpmodePte ∧ dev2.memSpace = dev.memSpace ∧
      (∀ c, c ≠ b → dev2.buffers c = dev.buffers c) ∧
      dev2.pbiBbn pbn = pos ∧ pos < (dev.buffers b).numBlocks ∧
      (dev2.buffers b).numBlocks = (dev.buffers b).numBlocks ∧
      (dev2.buffers b).batchSize = (dev.buffers b).batchSize ∧
      (dev2.buffers b).bufferSpace = (dev.buffers b).bufferSpace ∧
      (dev2.buffers b).numDirty = (dev.buffers b).numDirty + 1 ∧
      (∀ a, a / PB_SIZE ≠ pbn → logicalByte dev2 a = logicalByte dev a) := by
  have hwf := hInv.hwf b hb
  have hN := hwf.hN
  have hndN := hwf.hnd
  have hpc := hwf.hpc
  have hposlt : (dev.buffers b).posClean < (dev.buffers b).numBlocks := by
    rw [hpc]
    exact Nat.mod_lt _ hN
  set dev2 := (allocSlot dev b pbn).2 with hdev2
  have heq : allocSlot dev b pbn = ((dev.buffers b).posClean, dev2) := by
    rw [hdev2]
    exact Prod.ext rfl rfl
  have hpbi2 : ∀ p, dev2.pbiBbn p =
      if p = pbn then (dev.buffers b).posClean else dev.pbiBbn p := fun _ => rfl
  have hmem2 : dev2.memSpace = dev.memSpace := rfl
  have htot2 : dev2.totalPB = dev.totalPB := rfl
  have hnbuf2 : dev2.numBuffers = dev.numBuffers := rfl
  have hstride2 : dev2.bufferStride = dev.bufferStride := rfl
  have hbufmode2 : dev2.bufmode = dev.bufmode := rfl
  have hpte2 : dev2.wpmodePte = dev.wpmodePte := rfl
  have hbufc2 : ∀ c, c ≠ b → dev2.buffers c = dev.buffers c := by
    intro c hc
    simp only [hdev2, allocSlot, setBuffer]
    rw [if_neg hc]
  have hbufb2 : dev2.buffers b = { dev.buffers b with
      posClean := nextPos (dev.buffers b) (dev.buffers b).posClean,
      numDirty := (dev.buffers b).numDirty + 1,
      bbiDirty := fun i => if i = (dev.buffers b).posClean then true
        else (dev.buffers b).bbiDirty i,
      bbiPbn := fun i => if i = (dev.buffers b).posClean then pbn
        else (dev.buffers b).bbiPbn i } := by
    simp [hdev2, allocSlot, setBuffer]
  have hN2 : (dev2.buffers b).numBlocks = (dev.buffers b).numBlocks := by rw [hbufb2]
  have hbatch2 : (dev2.buffers b).batchSize = (dev.buffers b).batchSize := by rw [hbufb2]
  have hspace2 : (dev2.buffers b).bufferSpace = (dev.buffers b).bufferSpace := by rw [hbufb2]
  have hpd2 : (dev2.buffers b).posDirty = (dev.buffers b).posDirty := by rw [hbufb2]
  have hnd2 : (dev2.buffers b).numDirty = (dev.buffers b).numDirty + 1 := by rw [hbufb2]
  have hpc2 : (dev2.buffers b).posClean =
      nextPos (dev.buffers b) (dev.buffers b).posClean := by rw [hbufb2]
  have hbbiD2 : ∀ i, (dev2.buffers b).bbiDirty i =
      if i = (dev.buffers b).posClean then true else (dev.buffers b).bbiDirty i := by
    intro i
    rw [hbufb2]
  have hbbiP2 : ∀ i, (dev2.buffers b).bbiPbn i =
      if i = (dev.buffers b).posClean then pbn else (dev.buffers b).bbiPbn i := by
    intro i
    rw [hbufb2]
  have hbufId2 : ∀ p, bufIdOf dev2 p = bufIdOf dev p := by
    intro p
    unfold bufIdOf
    rw [hstride2, hnbuf2]
  have hslotne : ∀ kk, kk < (dev.buffers b).numDirty →
      ((dev.buffers b).posDirty + kk) % (dev.buffers b).numBlocks ≠
        (dev.buffers b).posClean := by
    intro kk hkk hcon
    rw [hpc] at hcon
    have := ring_inj (by omega) (by omega) hcon
    omega
  have hwfb2 : WfBuffer dev2 b := by
    refine ⟨?_, ?_, ?_, ?_, ?_, ?_, ?_, ?_, ?_, ?_, ?_⟩
    · rw [hN2]; exact hN
    · rw [hbatch2]; exact hwf.hbatch
    · rw [hN2, htot2]; exact hwf.hsent
    · rw [hnd2, hN2]; omega
    · rw [hpd2, hN2]; exact hwf.hpd
    · rw [hpc2, nextPos_eq _ hposlt, hpd2, hnd2, hN2, hpc, succ_mod_mod, Nat.add_assoc]
    · intro kk hkk
      rw [hnd2] at hkk
      rw [hpd2, hN2, hbbiD2]
      by_cases hke : kk = (dev.buffers b).numDirty
      · subst hke
        rw [if_pos hpc.symm]
      · rw [if_neg (hslotne kk (by omega))]
        exact hwf.hwdirty kk (by omega)
    · intro kk hkk
      rw [hnd2] at hkk
      rw [htot2, hpd2, hN2, hbbiP2]
      by_cases hke : kk = (dev.buffers b).numDirty
      · subst hke
        rw [if_pos hpc.symm]
        exact hpbn
      · rw [if_neg (hslotne kk (by omega))]
        exact hwf.hwpbn kk (by omega)
    · intro kk hkk
      rw [hnd2] at hkk
      rw [hbufId2, hpd2, hN2, hbbiP2]
      by_cases hke : kk = (dev.buffers b).numDirty
      · subst hke
        rw [if_pos hpc.symm]
        exact hown
      · rw [if_neg (hslotne kk (by omega))]
        exact hwf.hwbuf kk (by omega)
    · intro kk hkk
      rw [hnd2] at hkk
      rw [hpd2, hN2, hbbiP2]
      by_cases hke : kk = (dev.buffers b).numDirty
      · subst hke
        rw [if_pos hpc.symm, hpbi2, if_pos rfl]
        exact hpc
      · rw [if_neg (hslotne kk (by omega))]
        have hqne : (dev.buffers b).bbiPbn (((dev.buffers b).posDirty + kk) %
            (dev.buffers b).numBlocks) ≠ pbn := by
          intro he
          apply hnv
          have hbk := hwf.hwback kk (by omega)
          rw [he] at hbk
          rw [hbk]
          exact Nat.mod_lt _ hN
        rw [hpbi2, if_neg hqne]
        exact hwf.hwback kk (by omega)
    · intro i hi
      rw [hN2] at hi
      rw [htot2, hbbiP2, if_neg (by omega : i ≠ (dev.buffers b).posClean)]
      exact hwf.hout i hi
  have hwfc2 : ∀ c, c < dev.numBuffers → c ≠ b → WfBuffer dev2 c := by
    intro c hc hcb
    have hwfc := hInv.hwf c hc
    have hbc : dev2.buffers c = dev.buffers c := hbufc2 c hcb
    refine ⟨?_, ?_, ?_, ?_, ?_, ?_, ?_, ?_, ?_, ?_, ?_⟩
    · rw [hbc]; exact hwfc.hN
    · rw [hbc]; exact hwfc.hbatch
    · rw [hbc, htot2]; exact hwfc.hsent
    · rw [hbc]; exact hwfc.hnd
    · rw [hbc]; exact hwfc.hpd
    · rw [hbc]; exact hwfc.hpc
    · intro j hj
      rw [hbc] at hj ⊢
      exact hwfc.hwdirty j hj
    · intro j hj
      rw [hbc] at hj
      rw [hbc, htot2]
      exact hwfc.hwpbn j hj
    · intro j hj
      rw [hbc] at hj
      rw [hbufId2, hbc]
      exact hwfc.hwbuf j hj
    · intro j hj
      rw [hbc] at hj
      rw [hbc]
      have hqne : (dev.buffers c).bbiPbn (((dev.buffers c).posDirty + j) %
          (dev.buffers c).numBlocks) ≠ pbn := by
        intro he
        have h1 := hwfc.hwbuf j hj
        rw [he, hown] at h1
        exact hcb h1.symm
      rw [hpbi2, if_neg hqne]
      exact hwfc.hwback j hj
    · intro i hi
      rw [hbc] at hi
      rw [hbc, htot2]
      exact hwfc.hout i hi
  have hInv2 : Inv dev2 := by
    refine ⟨by rw [hnbuf2]; exact hInv.hnb, by rw [hstride2]; exact hInv.hstride,
      ?_, ?_, ?_, ?_⟩
    · intro c hc
      rw [hnbuf2] at hc
      by_cases hcb : c = b
      · subst hcb
        exact hwfb2
      · exact hwfc2 c hc hcb
    · intro p hp hvalid
      rw [htot2] at hp
      have hbid := hbufId2 p
      by_cases hppbn : p = pbn
      · subst hppbn
        rw [hbid, hown] at hvalid ⊢
        constructor
        · rw [hnd2, hpd2, hN2]
          refine ⟨(dev.buffers b).numDirty, by omega, ?_⟩
          rw [hpbi2, if_pos rfl]
          exact hpc
        · rw [hpbi2, if_pos rfl, hbbiP2, if_pos rfl]
      · have hpbiP : dev2.pbiBbn p = dev.pbiBbn p := by rw [hpbi2, if_neg hppbn]
        rw [hbid] at hvalid ⊢
        by_cases hcb : bufIdOf dev p = b
        · rw [hcb, hN2, hpbiP] at hvalid
          have hvG : dev.pbiBbn p < (dev.buffers (bufIdOf dev p)).numBlocks := by
            rw [hcb]; exact hvalid
          obtain ⟨⟨kk, hkk, hke⟩, hback⟩ := hInv.hdev p hp hvG
          rw [hcb] at hkk hke hback
          rw [hcb]
          constructor
          · rw [hpbiP, hnd2, hpd2, hN2]
            exact ⟨kk, by omega, hke⟩
          · rw [hpbiP, hke, hbbiP2, if_neg (hslotne kk hkk)]
            rw [hke] at hback
            exact hback
        · rw [hbufc2 _ hcb, hpbiP] at hvalid
          obtain ⟨⟨kk, hkk, hke⟩, hback⟩ := hInv.hdev p hp hvalid
          rw [hbufc2 _ hcb, hpbiP]
          exact ⟨⟨kk, hkk, hke⟩, hback⟩
    · intro p hp
      rw [htot2] at hp ⊢
      rw [hpbi2, if_neg (by omega : p ≠ pbn)]
      exact hInv.hhi p hp
    · intro hbm0
      rw [hbufmode2, hbm] at hbm0
      exact absurd hbm0 (by decide)
  have hlogoff : ∀ a, a / PB_SIZE ≠ pbn → logicalByte dev2 a = logicalByte dev a := by
    intro a hne
    simp only [logicalByte]
    rw [hbufId2, hpbi2, if_neg hne]
    by_cases hcb : bufIdOf dev (a / PB_SIZE) = b
    · rw [hcb, hN2]
      by_cases hv : dev.pbiBbn (a / PB_SIZE) < (dev.buffers b).numBlocks
      · rw [if_pos hv, if_pos hv, hspace2]
      · rw [if_neg hv, if_neg hv, hmem2]
    · rw [hbufc2 _ hcb]
      by_cases hv : dev.pbiBbn (a / PB_SIZE) <
          (dev.buffers (bufIdOf dev (a / PB_SIZE))).numBlocks
      · rw [if_pos hv, if_pos hv]
      · rw [if_neg hv, if_neg hv, hmem2]
  exact ⟨(dev.buffers b).posClean, dev2, heq, hInv2, rfl, htot2, hnbuf2, hstride2,
    hbufmode2, hpte2, hmem2, hbufc2, by rw [hpbi2, if_pos rfl], hposlt, hN2, hbatch2,
    hspace2, hnd2, hlogoff⟩

/-- pmbd_buffer_alloc_block: on an unbuffered block it always succeeds — when
the buffer is full the one allocator-flush of a positive batch frees slots, so
the re-check passes — and returns a valid slot bound to pbn, touching neither
the PM bytes of block pbn nor the logical content of any other block. -/
theorem pmbd_buffer_alloc_block_spec (dev : Device) (b pbn : Nat) (hInv : Inv dev)
    (hbm : dev.bufmode = true)
    (hb : b < dev.numBuffers) (hpbn : pbn < dev.totalPB) (hown : bufIdOf dev pbn = b)
    (hnv : ¬ dev.pbiBbn pbn < (dev.buffers b).numBlocks) :
    ∃ bbn dev2, pmbd_buffer_alloc_block dev b pbn = some (bbn, dev2) ∧ Inv dev2 ∧
      dev2.totalPB = dev.totalPB ∧ dev2.numBuffers = dev.numBuffers ∧
      dev2.bufferStride = dev.bufferStride ∧ dev2.bufmode = dev.bufmode ∧
      dev2.wpmodePte = dev.wpmodePte ∧
      dev2.pbiBbn pbn = bbn ∧ bbn < (dev2.buffers b).numBlocks ∧
      (dev2.buffers b).numBlocks = (dev.buffers b).numBlocks ∧
      (∀ j < PB_SIZE, dev2.memSpace (PB_SIZE * pbn + j) = dev.memSpace (PB_SIZE * pbn + j)) ∧
      (∀ a, a / PB_SIZE ≠ pbn → logicalByte dev2 a = logicalByte dev a) := by
  have hwf := hInv.hwf b hb
  by_cases hf : (dev.buffers b).numBlocks ≤ (dev.buffers b).numDirty
  · -- full buffer: allocator flush, then the slot reservation
    obtain ⟨dev', hflusheq, hInv', htot', hnbuf', hstride', hbufmode', hpte', hbufC',
      hN', hbatch', hspace', hpd', hpcl', hnd', hlog', hunbuf'⟩ :=
      pmbd_buffer_flush_spec dev b (dev.buffers b).batchSize hInv hb
    have hk1 : 1 ≤ min (dev.buffers b).batchSize (dev.buffers b).numDirty := by
      have h1 := hwf.hbatch
      have h2 := hwf.hN
      omega
    have hub := hunbuf' pbn (by rw [hown]; exact hnv)
    have hown' : bufIdOf dev' pbn = b := by
      unfold bufIdOf
      rw [hstride', hnbuf']
      exact hown
    have hroom' : (dev'.buffers b).numDirty < (dev'.buffers b).numBlocks := by
      rw [hnd', hN']
      have := hwf.hnd
      omega
    obtain ⟨pos, dev2, hallocEq, hInv2, hpos, htot2, hnbuf2, hstride2, hbufmode2, hpte2,
      hmem2, hbufc2, hpbi2pbn, hposlt, hN2, hbatch2, hspace2, hnd2, hlogoff2⟩ :=
      allocSlot_spec dev' b pbn hInv' (by rw [hbufmode']; exact hbm)
        (by rw [hnbuf']; exact hb)
        (by rw [htot']; exact hpbn) hown'
        (by rw [hub.1, hN']; exact hnv) hroom'
    refine ⟨pos, dev2, ?_, hInv2, by rw [htot2, htot'], by rw [hnbuf2, hnbuf'],
      by rw [hstride2, hstride'], by rw [hbufmode2, hbufmode'], by rw [hpte2, hpte'],
      hpbi2pbn, by rw [hN2]; exact hposlt, by rw [hN2, hN'], ?_, ?_⟩
    · simp only [pmbd_buffer_alloc_block, pmbd_buffer_check_and_flush, if_pos hf,
        if_neg (not_not_intro hf), hflusheq]
      rw [if_neg (by omega : ¬ (dev'.buffers b).numBlocks ≤ (dev'.buffers b).numDirty),
        hallocEq]
    · intro j hj
      rw [hmem2]
      exact hub.2 j hj
    · intro a ha
      rw [hlogoff2 a ha]
      exact hlog' a
  · -- room available: reserve directly
    obtain ⟨pos, dev2, hallocEq, hInv2, hpos, htot2, hnbuf2, hstride2, hbufmode2, hpte2,
      hmem2, hbufc2, hpbi2pbn, hposlt, hN2, hbatch2, hspace2, hnd2, hlogoff2⟩ :=
      allocSlot_spec dev b pbn hInv hbm hb hpbn hown hnv (by omega)
    refine ⟨pos, dev2, ?_, hInv2, htot2, hnbuf2, hstride2, hbufmode2, hpte2,
      hpbi2pbn, by rw [hN2]; exact hposlt, hN2, fun j _ => by rw [hmem2], hlogoff2⟩
    simp only [pmbd_buffer_alloc_block, if_neg hf, hallocEq]

/-- The slot-write step of copy_to_pmbd_buffered: replacing the staging bytes
of buffer b and marking one more slot dirty preserves the device invariant —
no invariant field constrains the slot bytes, and the dirty marks only ever
grow. -/
theorem Inv_update_space_dirty (dev : Device) (b : Nat) (space2 : Nat → Byte) (bbn : Nat)
    (hInv : Inv dev) (hb : b < dev.numBuffers) :
    Inv (setBuffer dev b { dev.buffers b with
      bufferSpace := space2,
      bbiDirty := fun i => if i = bbn then true else (dev.buffers b).bbiDirty i }) := by
  have hwf := hInv.hwf b hb
  set dev1 := setBuffer dev b { dev.buffers b with
      bufferSpace := space2,
      bbiDirty := fun i => if i = bbn then true else (dev.buffers b).bbiDirty i } with hdev1
  have htot1 : dev1.totalPB = dev.totalPB := rfl
  have hnbuf1 : dev1.numBuffers = dev.numBuffers := rfl
  have hstride1 : dev1.bufferStride = dev.bufferStride := rfl
  have hpbi1 : dev1.pbiBbn = dev.pbiBbn := rfl
  have hbufc1 : ∀ c, c ≠ b → dev1.buffers c = dev.buffers c := by
    intro c hc
    simp only [hdev1, setBuffer]
    rw [if_neg hc]
  have hbufb1 : dev1.buffers b = { dev.buffers b with
      bufferSpace := space2,
      bbiDirty := fun i => if i = bbn then true else (dev.buffers b).bbiDirty i } := by
    simp [hdev1, setBuffer]
  have hN1 : (dev1.buffers b).numBlocks = (dev.buffers b).numBlocks := by rw [hbufb1]
  have hbatch1 : (dev1.buffers b).batchSize = (dev.buffers b).batchSize := by rw [hbufb1]
  have hpd1 : (dev1.buffers b).posDirty = (dev.buffers b).posDirty := by rw [hbufb1]
  have hpc1 : (dev1.buffers b).posClean = (dev.buffers b).posClean := by rw [hbufb1]
  have hnd1 : (dev1.buffers b).numDirty = (dev.buffers b).numDirty := by rw [hbufb1]
  have hbbiP1 : (dev1.buffers b).bbiPbn = (dev.buffers b).bbiPbn := by rw [hbufb1]
  have hbbiD1 : ∀ i, (dev1.buffers b).bbiDirty i =
      if i = bbn then true else (dev.buffers b).bbiDirty i := by
    intro i
    rw [hbufb1]
  have hbid1 : ∀ q, bufIdOf dev1 q = bufIdOf dev q := fun _ => rfl
  have hwfb1 : WfBuffer dev1 b := by
    refine ⟨?_, ?_, ?_, ?_, ?_, ?_, ?_, ?_, ?_, ?_, ?_⟩
    · rw [hN1]; exact hwf.hN
    · rw [hbatch1]; exact hwf.hbatch
    · rw [hN1, htot1]; exact hwf.hsent
    · rw [hnd1, hN1]; exact hwf.hnd
    · rw [hpd1, hN1]; exact hwf.hpd
    · rw [hpc1, hpd1, hnd1, hN1]; exact hwf.hpc
    · intro j hj
      rw [hnd1] at hj
      rw [hpd1, hN1, hbbiD1]
      by_cases hib : ((dev.buffers b).posDirty + j) % (dev.buffers b).numBlocks = bbn
      · rw [if_pos hib]
      · rw [if_neg hib]
        exact hwf.hwdirty j hj
    · intro j hj
      rw [hnd1] at hj
      rw [htot1, hpd1, hN1, hbbiP1]
      exact hwf.hwpbn j hj
    · intro j hj
      rw [hnd1] at hj
      rw [hbid1, hpd1, hN1, hbbiP1]
      exact hwf.hwbuf j hj
    · intro j hj
      rw [hnd1] at hj
      rw [hpd1, hN1, hbbiP1, hpbi1]
      exact hwf.hwback j hj
    · intro i hi
      rw [hN1] at hi
      rw [htot1, hbbiP1]
      exact hwf.hout i hi
  have hwfc1 : ∀ c, c < dev.numBuffers → c ≠ b → WfBuffer dev1 c := by
    intro c hc hcb
    have hwfc := hInv.hwf c hc
    have hbc : dev1.buffers c = dev.buffers c := hbufc1 c hcb
    refine ⟨?_, ?_, ?_, ?_, ?_, ?_, ?_, ?_, ?_, ?_, ?_⟩
    · rw [hbc]; exact hwfc.hN
    · rw [hbc]; exact hwfc.hbatch
    · rw [hbc, htot1]; exact hwfc.hsent
    · rw [hbc]; exact hwfc.hnd
    · rw [hbc]; exact hwfc.hpd
    · rw [hbc]; exact hwfc.hpc
    · intro j hj
      rw [hbc] at hj ⊢
      exact hwfc.hwdirty j hj
    · intro j hj
      rw [hbc] at hj
      rw [hbc, htot1]
      exact hwfc.hwpbn j hj
    · intro j hj
      rw [hbc] at hj
      rw [hbid1, hbc]
      exact hwfc.hwbuf j hj
    · intro j hj
      rw [hbc] at hj
      rw [hbc, hpbi1]
      exact hwfc.hwback j hj
    · intro i hi
      rw [hbc] at hi
      rw [hbc, htot1]
      exact hwfc.hout i hi
  refine ⟨by rw [hnbuf1]; exact hInv.hnb, by rw [hstride1]; exact hInv.hstride,
    ?_, ?_, ?_, ?_⟩
  · intro c hc
    rw [hnbuf1] at hc
    by_cases hcb : c = b
    · subst hcb
      exact hwfb1
    · exact hwfc1 c hc hcb
  · intro p hp hvalid
    rw [htot1] at hp
    rw [hbid1, hpbi1] at hvalid ⊢
    by_cases hcb : bufIdOf dev p = b
    · rw [hcb, hN1] at hvalid
      have hvG : dev.pbiBbn p < (dev.buffers (bufIdOf dev p)).numBlocks := by
        rw [hcb]; exact hvalid
      obtain ⟨⟨kk, hkk, hke⟩, hback⟩ := hInv.hdev p hp hvG
      rw [hcb] at hkk hke hback
      rw [hcb]
      constructor
      · rw [hnd1, hpd1, hN1]
        exact ⟨kk, hkk, hke⟩
      · rw [hbbiP1]
        exact hback
    · rw [hbufc1 _ hcb] at hvalid
      obtain ⟨⟨kk, hkk, hke⟩, hback⟩ := hInv.hdev p hp hvalid
      rw [hbufc1 _ hcb]
      exact ⟨⟨kk, hkk, hke⟩, hback⟩
  · intro p hp
    rw [htot1] at hp ⊢
    rw [hpbi1]
    exact hInv.hhi p hp
  · intro hbm0 c hc
    rw [hnbuf1] at hc
    by_cases hcb : c = b
    · rw [hcb, hnd1]
      exact hInv.hbufoff hbm0 b hb
    · rw [hbufc1 c hcb]
      exact hInv.hbufoff hbm0 c hc

/-- One block iteration of copy_to_pmbd_buffered: the write always succeeds,
preserves the invariant and the device geometry, and afterwards the logical
content of the covered in-block sector range [sectS, sectE] is the source
bytes while everything else is untouched — on the allocation path because the
freshly reserved slot is hydrated from PM before the partial range lands. -/
theorem writeBlock_spec (dev : Device) (src : Nat → Byte) (srcOff pbn sectS sectE : Nat)
    (hInv : Inv dev) (hbm : dev.bufmode = true)
    (hpbn : pbn < dev.totalPB) (hS : sectS ≤ sectE) (hE : sectE ≤ 7) :
    ∃ dev1, writeBlock dev src srcOff pbn sectS sectE = some dev1 ∧ Inv dev1 ∧
      dev1.totalPB = dev.totalPB ∧ dev1.numBuffers = dev.numBuffers ∧
      dev1.bufferStride = dev.bufferStride ∧ dev1.bufmode = dev.bufmode ∧
      dev1.wpmodePte = dev.wpmodePte ∧
      ∀ a, logicalByte dev1 a =
        if PB_SIZE * pbn + sectorToByte sectS ≤ a ∧
            a < PB_SIZE * pbn + sectorToByte (sectE + 1) then
          src (srcOff + (a - (PB_SIZE * pbn + sectorToByte sectS)))
        else logicalByte dev a := by
  have hblt : bufIdOf dev pbn < dev.numBuffers := by
    unfold bufIdOf
    exact Nat.mod_lt _ hInv.hnb
  by_cases hv : dev.pbiBbn pbn < (dev.buffers (bufIdOf dev pbn)).numBlocks
  · -- the block already holds a slot: write in place
    have hback : (dev.buffers (bufIdOf dev pbn)).bbiPbn (dev.pbiBbn pbn) = pbn :=
      (hInv.hdev pbn hpbn hv).2
    set dev1 := setBuffer dev (bufIdOf dev pbn) { dev.buffers (bufIdOf dev pbn) with
        bufferSpace := memcpy (dev.buffers (bufIdOf dev pbn)).bufferSpace
          (PB_SIZE * dev.pbiBbn pbn + sectorToByte sectS) src srcOff
          (sectorToByte (sectE - sectS + 1)),
        bbiDirty := fun i => if i = dev.pbiBbn pbn then true
          else (dev.buffers (bufIdOf dev pbn)).bbiDirty i } with hdev1
    have heq : writeBlock dev src srcOff pbn sectS sectE = some dev1 := by
      rw [hdev1]
      simp only [writeBlock, _pmbd_buffer_lookup, if_pos hv]
    have hInv1 : Inv dev1 := by
      rw [hdev1]
      exact Inv_update_space_dirty dev _ _ _ hInv hblt
    have hpbi1 : dev1.pbiBbn = dev.pbiBbn := rfl
    have hmem1 : dev1.memSpace = dev.memSpace := rfl
    have hbid1 : ∀ q, bufIdOf dev1 q = bufIdOf dev q := fun _ => rfl
    have hbufc1 : ∀ c, c ≠ bufIdOf dev pbn → dev1.buffers c = dev.buffers c := by
      intro c hc
      simp only [hdev1, setBuffer]
      rw [if_neg hc]
    have hbufb1 : dev1.buffers (bufIdOf dev pbn) = { dev.buffers (bufIdOf dev pbn) with
        bufferSpace := memcpy (dev.buffers (bufIdOf dev pbn)).bufferSpace
          (PB_SIZE * dev.pbiBbn pbn + sectorToByte sectS) src srcOff
          (sectorToByte (sectE - sectS + 1)),
        bbiDirty := fun i => if i = dev.pbiBbn pbn then true
          else (dev.buffers (bufIdOf dev pbn)).bbiDirty i } := by
      simp [hdev1, setBuffer]
    have hN1A : (dev1.buffers (bufIdOf dev pbn)).numBlocks =
        (dev.buffers (bufIdOf dev pbn)).numBlocks := by rw [hbufb1]
    have hspace1A : (dev1.buffers (bufIdOf dev pbn)).bufferSpace =
        memcpy (dev.buffers (bufIdOf dev pbn)).bufferSpace
          (PB_SIZE * dev.pbiBbn pbn + sectorToByte sectS) src srcOff
          (sectorToByte (sectE - sectS + 1)) := by rw [hbufb1]
    refine ⟨dev1, heq, hInv1, rfl, rfl, rfl, rfl, rfl, ?_⟩
    intro a
    by_cases hap : a / PB_SIZE = pbn
    · have hlda : logicalByte dev a = (dev.buffers (bufIdOf dev pbn)).bufferSpace
          (PB_SIZE * dev.pbiBbn pbn + a % PB_SIZE) := by
        simp only [logicalByte]
        rw [hap, if_pos hv]
      have hld1 : logicalByte dev1 a = memcpy (dev.buffers (bufIdOf dev pbn)).bufferSpace
          (PB_SIZE * dev.pbiBbn pbn + sectorToByte sectS) src srcOff
          (sectorToByte (sectE - sectS + 1)) (PB_SIZE * dev.pbiBbn pbn + a % PB_SIZE) := by
        simp only [logicalByte]
        rw [hap, hbid1, hpbi1, hN1A, if_pos hv, hspace1A]
      rw [hld1, hlda]
      simp only [memcpy]
      split_ifs with h1 h2 <;>
        first
        | rfl
        | (congr 1
           simp only [PB_SIZE, sectorToByte, SECTOR_SIZE] at *
           omega)
        | (exfalso
           simp only [PB_SIZE, sectorToByte, SECTOR_SIZE] at *
           omega)
    · have hcond : ¬ (PB_SIZE * pbn + sectorToByte sectS ≤ a ∧
          a < PB_SIZE * pbn + sectorToByte (sectE + 1)) := by
        intro hc
        apply hap
        simp only [PB_SIZE, sectorToByte, SECTOR_SIZE] at hc ⊢
        omega
      rw [if_neg hcond]
      simp only [logicalByte]
      rw [hbid1, hpbi1, hmem1]
      by_cases hcb : bufIdOf dev (a / PB_SIZE) = bufIdOf dev pbn
      · rw [hcb, hN1A, hspace1A]
        by_cases hvp : dev.pbiBbn (a / PB_SIZE) < (dev.buffers (bufIdOf dev pbn)).numBlocks
        · rw [if_pos hvp, if_pos hvp]
          have hplt : a / PB_SIZE < dev.totalPB := by
            by_contra hge
            push_neg at hge
            rw [hInv.hhi _ hge] at hvp
            have := (hInv.hwf (bufIdOf dev pbn) hblt).hsent
            omega
          have hbkp := (hInv.hdev (a / PB_SIZE) hplt (by rw [hcb]; exact hvp)).2
          rw [hcb] at hbkp
          have hne : dev.pbiBbn (a / PB_SIZE) ≠ dev.pbiBbn pbn := by
            intro he
            apply hap
            rw [he, hback] at hbkp
            exact hbkp.symm
          simp only [memcpy]
          have hdis : ¬ (PB_SIZE * dev.pbiBbn pbn + sectorToByte sectS ≤
              PB_SIZE * dev.pbiBbn (a / PB_SIZE) + a % PB_SIZE ∧
              PB_SIZE * dev.pbiBbn (a / PB_SIZE) + a % PB_SIZE <
              PB_SIZE * dev.pbiBbn pbn + sectorToByte sectS +
                sectorToByte (sectE - sectS + 1)) := by
            simp only [PB_SIZE, sectorToByte, SECTOR_SIZE] at hne ⊢
            omega
          rw [if_neg hdis]
        · rw [if_neg hvp, if_neg hvp]
      · rw [hbufc1 _ hcb]
  · -- unbuffered block: allocate, hydrate when partial, then write
    obtain ⟨bbn, dev2, hallocEq, hInv2, htot2, hnbuf2, hstride2, hbufmode2, hpte2,
      hpbi2pbn, hbbnlt, hN2, hpm2, hlogoff2⟩ :=
      pmbd_buffer_alloc_block_spec dev (bufIdOf dev pbn) pbn hInv hbm hblt hpbn rfl hv
    have hblt2 : bufIdOf dev pbn < dev2.numBuffers := by
      rw [hnbuf2]
      exact hblt
    set hydrated := if sectorToByte (sectE - sectS + 1) < PB_SIZE then
        memcpy (dev2.buffers (bufIdOf dev pbn)).bufferSpace (PB_SIZE * bbn)
          dev2.memSpace (PB_SIZE * pbn) PB_SIZE
      else (dev2.buffers (bufIdOf dev pbn)).bufferSpace with hhyd
    set data1 := memcpy hydrated (PB_SIZE * bbn + sectorToByte sectS) src srcOff
        (sectorToByte (sectE - sectS + 1)) with hdata1
    set dev3 := setBuffer dev2 (bufIdOf dev pbn) { dev2.buffers (bufIdOf dev pbn) with
        bufferSpace := data1,
        bbiDirty := fun i => if i = bbn then true
          else (dev2.buffers (bufIdOf dev pbn)).bbiDirty i } with hdev3
    have heq : writeBlock dev src srcOff pbn sectS sectE = some dev3 := by
      rw [hdev3, hdata1, hhyd]
      simp only [writeBlock, _pmbd_buffer_lookup, if_neg hv, hallocEq]
    have hInv3 : Inv dev3 := by
      rw [hdev3]
      exact Inv_update_space_dirty dev2 _ _ _ hInv2 hblt2
    have hpbi3 : dev3.pbiBbn = dev2.pbiBbn := rfl
    have hmem3 : dev3.memSpace = dev2.memSpace := rfl
    have hbid3 : ∀ q, bufIdOf dev3 q = bufIdOf dev2 q := fun _ => rfl
    have hbid2 : ∀ q, bufIdOf dev2 q = bufIdOf dev q := by
      intro q
      unfold bufIdOf
      rw [hstride2, hnbuf2]
    have hbufc3 : ∀ c, c ≠ bufIdOf dev pbn → dev3.buffers c = dev2.buffers c := by
      intro c hc
      simp only [hdev3, setBuffer]
      rw [if_neg hc]
    have hbufb3 : dev3.buffers (bufIdOf dev pbn) = { dev2.buffers (bufIdOf dev pbn) with
        bufferSpace := data1,
        bbiDirty := fun i => if i = bbn then true
          else (dev2.buffers (bufIdOf dev pbn)).bbiDirty i } := by
      simp [hdev3, setBuffer]
    have hN3 : (dev3.buffers (bufIdOf dev pbn)).numBlocks =
        (dev2.buffers (bufIdOf dev pbn)).numBlocks := by rw [hbufb3]
    have hspace3 : (dev3.buffers (bufIdOf dev pbn)).bufferSpace = data1 := by rw [hbufb3]
    have hv2 : dev2.pbiBbn pbn < (dev2.buffers (bufIdOf dev2 pbn)).numBlocks := by
      rw [hbid2, hpbi2pbn]
      exact hbbnlt
    have hback2 : (dev2.buffers (bufIdOf dev pbn)).bbiPbn bbn = pbn := by
      have h := (hInv2.hdev pbn (by rw [htot2]; exact hpbn) hv2).2
      rw [hbid2, hpbi2pbn] at h
      exact h
    have hslot : ∀ t, t < PB_SIZE → data1 (PB_SIZE * bbn + t) =
        if sectorToByte sectS ≤ t ∧ t < sectorToByte (sectE + 1) then
          src (srcOff + (t - sectorToByte sectS))
        else logicalByte dev (PB_SIZE * pbn + t) := by
      intro t ht
      have hldt : logicalByte dev (PB_SIZE * pbn + t) =
          dev.memSpace (PB_SIZE * pbn + t) := by
        simp only [logicalByte]
        have hq : (PB_SIZE * pbn + t) / PB_SIZE = pbn := by
          simp only [PB_SIZE] at ht ⊢
          omega
        rw [hq, if_neg hv]
      rw [hldt, hdata1]
      simp only [memcpy]
      by_cases hsz : sectorToByte (sectE - sectS + 1) < PB_SIZE
      · rw [hhyd, if_pos hsz]
        simp only [memcpy]
        have hin : PB_SIZE * bbn ≤ PB_SIZE * bbn + t ∧
            PB_SIZE * bbn + t < PB_SIZE * bbn + PB_SIZE := by
          simp only [PB_SIZE] at ht ⊢
          omega
        rw [if_pos hin]
        have harg : PB_SIZE * pbn + (PB_SIZE * bbn + t - PB_SIZE * bbn) =
            PB_SIZE * pbn + t := by
          simp only [PB_SIZE]
          omega
        rw [harg, hpm2 t ht]
        split_ifs with h1 h2 <;>
          first
          | rfl
          | (congr 1
             simp only [PB_SIZE, sectorToByte, SECTOR_SIZE] at *
             omega)
          | (exfalso
             simp only [PB_SIZE, sectorToByte, SECTOR_SIZE] at *
             omega)
      · rw [hhyd, if_neg hsz]
        split_ifs with h1 h2 <;>
          first
          | rfl
          | (congr 1
             simp only [PB_SIZE, sectorToByte, SECTOR_SIZE] at *
             omega)
          | (exfalso
             simp only [PB_SIZE, sectorToByte, SECTOR_SIZE] at *
             omega)
    refine ⟨dev3, heq, hInv3, htot2, hnbuf2, hstride2, hbufmode2, hpte2, ?_⟩
    intro a
    by_cases hap : a / PB_SIZE = pbn
    · have hld3 : logicalByte dev3 a = data1 (PB_SIZE * bbn + a % PB_SIZE) := by
        simp only [logicalByte]
        rw [hap, hbid3, hbid2, hpbi3, hpbi2pbn, hN3, if_pos hbbnlt, hspace3]
      rw [hld3, hslot (a % PB_SIZE) (by simp only [PB_SIZE]; omega)]
      have haeq : PB_SIZE * pbn + a % PB_SIZE = a := by
        simp only [PB_SIZE] at hap ⊢
        omega
      rw [haeq]
      split_ifs with h1 h2 <;>
        first
        | rfl
        | (congr 1
           simp only [PB_SIZE, sectorToByte, SECTOR_SIZE] at *
           omega)
        | (exfalso
           simp only [PB_SIZE, sectorToByte, SECTOR_SIZE] at *
           omega)
    · have hcond : ¬ (PB_SIZE * pbn + sectorToByte sectS ≤ a ∧
          a < PB_SIZE * pbn + sectorToByte (sectE + 1)) := by
        intro hc
        apply hap
        simp only [PB_SIZE, sectorToByte, SECTOR_SIZE] at hc ⊢
        omega
      rw [if_neg hcond]
      have hlog32 : logicalByte dev3 a = logicalByte dev2 a := by
        simp only [logicalByte]
        rw [hbid3, hpbi3, hmem3]
        by_cases hcb : bufIdOf dev2 (a / PB_SIZE) = bufIdOf dev pbn
        · rw [hcb, hN3, hspace3]
          by_cases hvp : dev2.pbiBbn (a / PB_SIZE) <
              (dev2.buffers (bufIdOf dev pbn)).numBlocks
          · rw [if_pos hvp, if_pos hvp]
            have hplt : a / PB_SIZE < dev2.totalPB := by
              by_contra hge
              push_neg at hge
              rw [hInv2.hhi _ hge] at hvp
              have := (hInv2.hwf (bufIdOf dev pbn) hblt2).hsent
              omega
            have hbkp := (hInv2.hdev (a / PB_SIZE) hplt (by rw [hcb]; exact hvp)).2
            rw [hcb] at hbkp
            have hne : dev2.pbiBbn (a / PB_SIZE) ≠ bbn := by
              intro he
              apply hap
              rw [he, hback2] at hbkp
              exact hbkp.symm
            rw [hdata1]
            simp only [memcpy]
            have hd1 : ¬ (PB_SIZE * bbn + sectorToByte sectS ≤
                PB_SIZE * dev2.pbiBbn (a / PB_SIZE) + a % PB_SIZE ∧
                PB_SIZE * dev2.pbiBbn (a / PB_SIZE) + a % PB_SIZE <
                PB_SIZE * bbn + sectorToByte sectS +
                  sectorToByte (sectE - sectS + 1)) := by
              simp only [PB_SIZE, sectorToByte, SECTOR_SIZE] at hne ⊢
              omega
            rw [if_neg hd1, hhyd]
            by_cases hsz : sectorToByte (sectE - sectS + 1) < PB_SIZE
            · rw [if_pos hsz]
              simp only [memcpy]
              have hd2 : ¬ (PB_SIZE * bbn ≤
                  PB_SIZE * dev2.pbiBbn (a / PB_SIZE) + a % PB_SIZE ∧
                  PB_SIZE * dev2.pbiBbn (a / PB_SIZE) + a % PB_SIZE <
                  PB_SIZE * bbn + PB_SIZE) := by
                simp only [PB_SIZE, sectorToByte, SECTOR_SIZE] at hne ⊢
                omega
              rw [if_neg hd2]
            · rw [if_neg hsz]
          · rw [if_neg hvp, if_neg hvp]
        · rw [hbufc3 _ hcb]
      rw [hlog32]
      exact hlogoff2 a hap

set_option maxRecDepth 2000 in
/-- The per-block loop of copy_to_pmbd_buffered: writing count = pbnE+1-pbn
blocks succeeds, preserves the invariant and geometry, and replaces the
logical bytes of the contiguous covered range with the source while leaving
every other address untouched. -/
theorem writeLoop_spec (src : Nat → Byte) (pbnS pbnE offS offE : Nat) (hoE : offE ≤ 7) :
    ∀ count dev pbn srcOff s, Inv dev → dev.bufmode = true →
      s = (if pbn = pbnS then offS else 0) → s ≤ 7 →
      (pbn = pbnE → s ≤ offE) → pbnS ≤ pbn → pbn + count = pbnE + 1 →
      pbnE < dev.totalPB →
      ∃ dev1, writeLoop src pbnS pbnE offS offE count dev pbn srcOff = some dev1 ∧
        Inv dev1 ∧ dev1.totalPB = dev.totalPB ∧ dev1.numBuffers = dev.numBuffers ∧
        dev1.bufferStride = dev.bufferStride ∧ dev1.bufmode = dev.bufmode ∧
        dev1.wpmodePte = dev.wpmodePte ∧
        ∀ a, logicalByte dev1 a =
          if PB_SIZE * pbn + sectorToByte s ≤ a ∧
              a < PB_SIZE * pbnE + sectorToByte (offE + 1) then
            src (srcOff + (a - (PB_SIZE * pbn + sectorToByte s)))
          else logicalByte dev a := by
  intro count
  induction count with
  | zero =>
    intro dev pbn srcOff s hInv hbm hs hs7 hsle hps hcount hcap
    refine ⟨dev, rfl, hInv, rfl, rfl, rfl, rfl, rfl, ?_⟩
    intro a
    have hempty : ¬ (PB_SIZE * pbn + sectorToByte s ≤ a ∧
        a < PB_SIZE * pbnE + sectorToByte (offE + 1)) := by
      intro hc
      simp only [PB_SIZE, sectorToByte, SECTOR_SIZE] at hc
      omega
    rw [if_neg hempty]
  | succ n ih =>
    intro dev pbn srcOff s hInv hbm hs hs7 hsle hps hcount hcap
    set sectE := if pbn = pbnE then offE else pbnToSector 1 - 1 with hsE
    have hsE7 : sectE ≤ 7 := by
      rw [hsE]
      split
      · exact hoE
      · exact Nat.le_refl 7
    have hSle : s ≤ sectE := by
      rw [hsE]
      split
      · rename_i hpe
        exact hsle hpe
      · exact hs7
    obtain ⟨dev', hwbEq, hInv', htot', hnbuf', hstride', hbufmode', hpte', hwbLog⟩ :=
      writeBlock_spec dev src srcOff pbn s sectE hInv hbm (by omega) hSle hsE7
    obtain ⟨dev1, hloopEq, hInv1, htot1, hnbuf1, hstride1, hbufmode1, hpte1, hloopLog⟩ :=
      ih dev' (pbn + 1) (srcOff + sectorToByte (sectE - s + 1)) 0 hInv'
        (by rw [hbufmode']; exact hbm)
        (by rw [if_neg (by omega : ¬ pbn + 1 = pbnS)]) (by omega)
        (fun _ => Nat.zero_le _) (by omega) (by omega) (by rw [htot']; exact hcap)
    have heq : writeLoop src pbnS pbnE offS offE (n + 1) dev pbn srcOff = some dev1 := by
      simp only [writeLoop]
      rw [← hs, ← hsE, hwbEq]
      exact hloopEq
    refine ⟨dev1, heq, hInv1, by rw [htot1, htot'], by rw [hnbuf1, hnbuf'],
      by rw [hstride1, hstride'], by rw [hbufmode1, hbufmode'], by rw [hpte1, hpte'], ?_⟩
    intro a
    rw [hloopLog a, hwbLog a]
    clear ih hloopLog hwbLog heq hloopEq hwbEq hInv hInv' hInv1
    by_cases hpe : pbn = pbnE
    · have hsoe : s ≤ offE := hsle hpe
      have hsEv : sectE = offE := by rw [hsE, if_pos hpe]
      rw [hsEv]
      simp only [PB_SIZE, sectorToByte, SECTOR_SIZE]
      split_ifs with h1 h2 h3 <;>
        first
        | (apply congrArg
           omega)
        | (exfalso
           omega)
    · have hsEv : sectE = 7 := by
        rw [hsE, if_neg hpe]
        decide
      rw [hsEv]
      simp only [PB_SIZE, sectorToByte, SECTOR_SIZE]
      split_ifs with h1 h2 h3 <;>
        first
        | (apply congrArg
           omega)
        | (exfalso
           omega)

/-- copy_to_pmbd_buffered on a sector-aligned request of len sectors within
capacity: succeeds, preserves the invariant and geometry, and the logical
bytes of [512·sector, 512·(sector+len)) become the source bytes while all
other addresses are untouched. -/
theorem copy_to_pmbd_buffered_spec (dev : Device) (src : Nat → Byte) (sector len : Nat)
    (hInv : Inv dev) (hbm : dev.bufmode = true) (hlen : 0 < len)
    (hcap : sector + len ≤ pbnToSector dev.totalPB) :
    ∃ dev1, copy_to_pmbd_buffered dev src sector (sectorToByte len) = some dev1 ∧
      Inv dev1 ∧ dev1.totalPB = dev.totalPB ∧ dev1.numBuffers = dev.numBuffers ∧
      dev1.bufferStride = dev.bufferStride ∧ dev1.bufmode = dev.bufmode ∧
      dev1.wpmodePte = dev.wpmodePte ∧
      ∀ a, logicalByte dev1 a =
        if sectorToByte sector ≤ a ∧ a < sectorToByte (sector + len) then
          src (a - sectorToByte sector)
        else logicalByte dev a := by
  have hpbnS : sectorToPbn sector = sector / 8 := by
    simp only [sectorToPbn, sectorToByte, byteToPbn, SECTOR_SIZE, PB_SIZE]
    omega
  have hpbnE : byteToPbn (sectorToByte sector + sectorToByte len - 1) =
      (sector + len - 1) / 8 := by
    simp only [sectorToByte, byteToPbn, SECTOR_SIZE, PB_SIZE]
    omega
  have hoffS : pmbd_buffer_aligned_request_start sector (sectorToByte len) = sector % 8 := by
    simp only [pmbd_buffer_aligned_request_start, sectorToPbn, sectorToByte, byteToPbn,
      pbnToSector, pbnToByte, byteToSector, SECTOR_SIZE, PB_SIZE, ge_iff_le]
    split <;> omega
  have hoffE : pmbd_buffer_aligned_request_end sector (sectorToByte len) =
      (sector + len - 1) % 8 := by
    simp only [pmbd_buffer_aligned_request_end, sectorToPbn, sectorToByte, byteToPbn,
      pbnToSector, pbnToByte, byteToSector, SECTOR_SIZE, PB_SIZE, ge_iff_le]
    split <;> omega
  have hcap8 : sector + len ≤ 8 * dev.totalPB := by
    simp only [pbnToSector, pbnToByte, byteToSector, SECTOR_SIZE, PB_SIZE] at hcap
    omega
  obtain ⟨dev1, hLoopEq, hInv1, htot1, hnbuf1, hstride1, hbufmode1, hpte1, hLoopLog⟩ :=
    writeLoop_spec src (sector / 8) ((sector + len - 1) / 8) (sector % 8)
      ((sector + len - 1) % 8) (by omega)
      ((sector + len - 1) / 8 + 1 - sector / 8) dev (sector / 8) 0 (sector % 8) hInv hbm
      (by rw [if_pos rfl]) (by omega) (fun _ => by omega) (Nat.le_refl _) (by omega)
      (by omega)
  refine ⟨dev1, ?_, hInv1, htot1, hnbuf1, hstride1, hbufmode1, hpte1, ?_⟩
  · simp only [copy_to_pmbd_buffered]
    rw [hpbnS, hpbnE, hoffS, hoffE]
    exact hLoopEq
  · intro a
    rw [hLoopLog a]
    simp only [PB_SIZE, sectorToByte, SECTOR_SIZE] at hcap8 ⊢
    split_ifs with h1 h2 <;>
      first
      | (apply congrArg
         omega)
      | (exfalso
         omega)

/-- copy_to_pmbd_unbuffered only touches the PM window, so every field of the
device invariant carries over unchanged. -/
theorem copy_to_pmbd_unbuffered_Inv (dev : Device) (src : Nat → Byte) (sector bytes : Nat)
    (hInv : Inv dev) : Inv (copy_to_pmbd_unbuffered dev src sector bytes) := by
  refine ⟨hInv.hnb, hInv.hstride, fun c hc => ?_, fun p hp hv => hInv.hdev p hp hv,
    fun p hp => hInv.hhi p hp, fun h b hb => hInv.hbufoff h b hb⟩
  have hwf := hInv.hwf c hc
  exact ⟨hwf.hN, hwf.hbatch, hwf.hsent, hwf.hnd, hwf.hpd, hwf.hpc, hwf.hwdirty,
    hwf.hwpbn, hwf.hwbuf, hwf.hwback, hwf.hout⟩

/-- copy_to_pmbd on a buffered device: the write (FUA or not) succeeds, keeps
the invariant and geometry, and installs the source bytes as the logical
content of the covered byte range, leaving everything else untouched. -/
theorem copy_to_pmbd_spec (dev : Device) (src : Nat → Byte) (sector len : Nat) (doFua : Bool)
    (hInv : Inv dev) (hbm : dev.bufmode = true) (hlen : 0 < len)
    (hcap : sector + len ≤ pbnToSector dev.totalPB) :
    ∃ dev1, copy_to_pmbd dev src sector (sectorToByte len) doFua = some dev1 ∧
      Inv dev1 ∧ dev1.totalPB = dev.totalPB ∧ dev1.numBuffers = dev.numBuffers ∧
      dev1.bufferStride = dev.bufferStride ∧ dev1.bufmode = dev.bufmode ∧
      dev1.wpmodePte = dev.wpmodePte ∧
      ∀ a, logicalByte dev1 a =
        if sectorToByte sector ≤ a ∧ a < sectorToByte (sector + len) then
          src (a - sectorToByte sector)
        else logicalByte dev a := by
  obtain ⟨devB, hBEq, hInvB, htotB, hnbufB, hstrideB, hbufmodeB, hpteB, hLogB⟩ :=
    copy_to_pmbd_buffered_spec dev src sector len hInv hbm hlen hcap
  cases doFua with
  | false =>
    refine ⟨devB, ?_, hInvB, htotB, hnbufB, hstrideB, hbufmodeB, hpteB, hLogB⟩
    simp only [copy_to_pmbd]
    rw [hbm, if_pos rfl, hBEq]
    simp
  | true =>
    set dev2 := copy_to_pmbd_unbuffered devB src sector (sectorToByte len) with hdev2
    have hInv2 : Inv dev2 := by
      rw [hdev2]
      exact copy_to_pmbd_unbuffered_Inv devB src sector (sectorToByte len) hInvB
    have htot2 : dev2.totalPB = devB.totalPB := rfl
    have hnbuf2 : dev2.numBuffers = devB.numBuffers := rfl
    have hstride2 : dev2.bufferStride = devB.bufferStride := rfl
    have hbufmode2 : dev2.bufmode = devB.bufmode := rfl
    have hpte2 : dev2.wpmodePte = devB.wpmodePte := rfl
    have hpbi2 : dev2.pbiBbn = devB.pbiBbn := rfl
    have hbuf2 : dev2.buffers = devB.buffers := rfl
    have hbid2 : ∀ q, bufIdOf dev2 q = bufIdOf devB q := fun _ => rfl
    have hmem2 : dev2.memSpace =
        memcpy devB.memSpace (sector * SECTOR_SIZE) src 0 (sectorToByte len) := rfl
    have hLog2 : ∀ a, logicalByte dev2 a =
        if sectorToByte sector ≤ a ∧ a < sectorToByte (sector + len) then
          src (a - sectorToByte sector)
        else logicalByte devB a := by
      intro a
      simp only [logicalByte]
      rw [hbid2, hpbi2, hbuf2, hmem2]
      by_cases hval : devB.pbiBbn (a / PB_SIZE) <
          (devB.buffers (bufIdOf devB (a / PB_SIZE))).numBlocks
      · rw [if_pos hval]
        by_cases hcov : sectorToByte sector ≤ a ∧ a < sectorToByte (sector + len)
        · rw [if_pos hcov]
          have h1 := hLogB a
          rw [if_pos hcov] at h1
          have hslot : logicalByte devB a =
              (devB.buffers (bufIdOf devB (a / PB_SIZE))).bufferSpace
                (PB_SIZE * devB.pbiBbn (a / PB_SIZE) + a % PB_SIZE) := by
            simp only [logicalByte]
            rw [if_pos hval]
          rw [← hslot]
          exact h1
        · rw [if_neg hcov, if_pos hval]
      · rw [if_neg hval]
        simp only [memcpy, PB_SIZE, sectorToByte, SECTOR_SIZE] at hval ⊢
        rw [if_neg hval]
        split_ifs with h1 h2 <;>
          first
          | (apply congrArg
             omega)
          | (exfalso
             omega)
    refine ⟨dev2, ?_, hInv2, by rw [htot2, htotB], by rw [hnbuf2, hnbufB],
      by rw [hstride2, hstrideB], by rw [hbufmode2, hbufmodeB], by rw [hpte2, hpteB], ?_⟩
    · simp only [copy_to_pmbd]
      rw [hbm, if_pos rfl, hBEq, hdev2]
      simp
    · intro a
      rw [hLog2 a]
      by_cases hcov : sectorToByte sector ≤ a ∧ a < sectorToByte (sector + len)
      · rw [if_pos hcov, if_pos hcov]
      · rw [if_neg hcov, if_neg hcov, hLogB a, if_neg hcov]

/-- One block iteration of copy_from_pmbd_buffered reads exactly the logical
bytes of the covered in-block range into the destination window and leaves the
rest of the destination untouched. -/
theorem readBlock_spec (dev : Device) (out : Nat → Byte) (dstOff pbn sectS sectE : Nat)
    (hS : sectS ≤ sectE) (hE : sectE ≤ 7) :
    ∀ j, readBlock dev out dstOff pbn sectS sectE j =
      if dstOff ≤ j ∧ j < dstOff + sectorToByte (sectE - sectS + 1) then
        logicalByte dev (PB_SIZE * pbn + sectorToByte sectS + (j - dstOff))
      else out j := by
  intro j
  simp only [readBlock, _pmbd_buffer_lookup]
  by_cases hv : dev.pbiBbn pbn < (dev.buffers (bufIdOf dev pbn)).numBlocks
  · rw [if_pos hv]
    simp only [memcpy]
    by_cases hj : dstOff ≤ j ∧ j < dstOff + sectorToByte (sectE - sectS + 1)
    · rw [if_pos hj, if_pos hj]
      have haddr : (PB_SIZE * pbn + sectorToByte sectS + (j - dstOff)) / PB_SIZE = pbn := by
        simp only [PB_SIZE, sectorToByte, SECTOR_SIZE] at hj ⊢
        omega
      simp only [logicalByte]
      rw [haddr, if_pos hv]
      apply congrArg
      simp only [PB_SIZE, sectorToByte, SECTOR_SIZE] at hj ⊢
      omega
    · rw [if_neg hj, if_neg hj]
  · rw [if_neg hv]
    simp only [memcpy]
    by_cases hj : dstOff ≤ j ∧ j < dstOff + sectorToByte (sectE - sectS + 1)
    · rw [if_pos hj, if_pos hj]
      have haddr : (PB_SIZE * pbn + sectorToByte sectS + (j - dstOff)) / PB_SIZE = pbn := by
        simp only [PB_SIZE, sectorToByte, SECTOR_SIZE] at hj ⊢
        omega
      simp only [logicalByte]
      rw [haddr, if_neg hv]
    · rw [if_neg hj, if_neg hj]

set_option maxRecDepth 2000 in
/-- The per-block loop of copy_from_pmbd_buffered fills the destination window
with the logical bytes of the covered contiguous range. -/
theorem readLoop_spec (dev : Device) (pbnS pbnE offS offE : Nat) (hoE : offE ≤ 7) :
    ∀ count out pbn dstOff s, s = (if pbn = pbnS then offS else 0) → s ≤ 7 →
      (pbn = pbnE → s ≤ offE) → pbnS ≤ pbn → pbn + count = pbnE + 1 →
      ∀ j, readLoop dev pbnS pbnE offS offE count out pbn dstOff j =
        if dstOff ≤ j ∧
            PB_SIZE * pbn + sectorToByte s + (j - dstOff) <
              PB_SIZE * pbnE + sectorToByte (offE + 1) then
          logicalByte dev (PB_SIZE * pbn + sectorToByte s + (j - dstOff))
        else out j := by
  intro count
  induction count with
  | zero =>
    intro out pbn dstOff s hs hs7 hsle hps hcount j
    have hempty : ¬ (dstOff ≤ j ∧
        PB_SIZE * pbn + sectorToByte s + (j - dstOff) <
          PB_SIZE * pbnE + sectorToByte (offE + 1)) := by
      intro hc
      simp only [PB_SIZE, sectorToByte, SECTOR_SIZE] at hc
      omega
    rw [if_neg hempty]
    simp only [readLoop]
  | succ n ih =>
    intro out pbn dstOff s hs hs7 hsle hps hcount j
    set sectE := if pbn = pbnE then offE else pbnToSector 1 - 1 with hsE
    have hsE7 : sectE ≤ 7 := by
      rw [hsE]
      split
      · exact hoE
      · exact Nat.le_refl 7
    have hSle : s ≤ sectE := by
      rw [hsE]
      split
      · rename_i hpe
        exact hsle hpe
      · exact hs7
    have hIH := ih (readBlock dev out dstOff pbn s sectE) (pbn + 1)
      (dstOff + sectorToByte (sectE - s + 1)) 0
      (by rw [if_neg (by omega : ¬ pbn + 1 = pbnS)]) (by omega)
      (fun _ => Nat.zero_le _) (by omega) (by omega) j
    have hRB := readBlock_spec dev out dstOff pbn s sectE hSle hsE7 j
    have hstep : readLoop dev pbnS pbnE offS offE (n + 1) out pbn dstOff j =
        readLoop dev pbnS pbnE offS offE n (readBlock dev out dstOff pbn s sectE)
          (pbn + 1) (dstOff + sectorToByte (sectE - s + 1)) j := by
      simp only [readLoop]
      rw [← hs, ← hsE]
    rw [hstep, hIH, hRB]
    clear ih hIH hRB hstep
    by_cases hpe : pbn = pbnE
    · have hsoe : s ≤ offE := hsle hpe
      have hsEv : sectE = offE := by rw [hsE, if_pos hpe]
      rw [hsEv]
      simp only [PB_SIZE, sectorToByte, SECTOR_SIZE]
      split_ifs with h1 h2 h3 <;>
        first
        | (apply congrArg
           omega)
        | (exfalso
           omega)
    · have hsEv : sectE = 7 := by
        rw [hsE, if_neg hpe]
        decide
      rw [hsEv]
      simp only [PB_SIZE, sectorToByte, SECTOR_SIZE]
      split_ifs with h1 h2 h3 <;>
        first
        | (apply congrArg
           omega)
        | (exfalso
           omega)

/-- copy_from_pmbd_buffered on a sector-aligned in-capacity request returns
the logical bytes of the range and leaves the rest of the destination
untouched. -/
theorem copy_from_pmbd_buffered_spec (dev : Device) (dst : Nat → Byte) (sector len : Nat)
    (hlen : 0 < len) :
    ∀ j, copy_from_pmbd_buffered dev dst sector (sectorToByte len) j =
      if j < sectorToByte len then logicalByte dev (sectorToByte sector + j) else dst j := by
  have hpbnS : sectorToPbn sector = sector / 8 := by
    simp only [sectorToPbn, sectorToByte, byteToPbn, SECTOR_SIZE, PB_SIZE]
    omega
  have hpbnE : byteToPbn (sectorToByte sector + sectorToByte len - 1) =
      (sector + len - 1) / 8 := by
    simp only [sectorToByte, byteToPbn, SECTOR_SIZE, PB_SIZE]
    omega
  have hoffS : pmbd_buffer_aligned_request_start sector (sectorToByte len) = sector % 8 := by
    simp only [pmbd_buffer_aligned_request_start, sectorToPbn, sectorToByte, byteToPbn,
      pbnToSector, pbnToByte, byteToSector, SECTOR_SIZE, PB_SIZE, ge_iff_le]
    split <;> omega
  have hoffE : pmbd_buffer_aligned_request_end sector (sectorToByte len) =
      (sector + len - 1) % 8 := by
    simp only [pmbd_buffer_aligned_request_end, sectorToPbn, sectorToByte, byteToPbn,
      pbnToSector, pbnToByte, byteToSector, SECTOR_SIZE, PB_SIZE, ge_iff_le]
    split <;> omega
  intro j
  have hRL := readLoop_spec dev (sector / 8) ((sector + len - 1) / 8) (sector % 8)
    ((sector + len - 1) % 8) (by omega)
    ((sector + len - 1) / 8 + 1 - sector / 8) dst (sector / 8) 0 (sector % 8)
    (by rw [if_pos rfl]) (by omega) (fun _ => by omega) (Nat.le_refl _) (by omega) j
  have hstep : copy_from_pmbd_buffered dev dst sector (sectorToByte len) j =
      readLoop dev (sector / 8) ((sector + len - 1) / 8) (sector % 8)
        ((sector + len - 1) % 8) ((sector + len - 1) / 8 + 1 - sector / 8) dst
        (sector / 8) 0 j := by
    simp only [copy_from_pmbd_buffered]
    rw [hpbnS, hpbnE, hoffS, hoffE]
  rw [hstep, hRL]
  simp only [PB_SIZE, sectorToByte, SECTOR_SIZE]
  split_ifs with h1 h2 <;>
    first
    | (apply congrArg
       omega)
    | (exfalso
       omega)

/-- copy_from_pmbd on a buffered device is the buffered read. -/
theorem copy_from_pmbd_spec (dev : Device) (dst : Nat → Byte) (sector len : Nat)
    (hbm : dev.bufmode = true) (hlen : 0 < len) :
    ∀ j, copy_from_pmbd dev dst sector (sectorToByte len) j =
      if j < sectorToByte len then logicalByte dev (sectorToByte sector + j) else dst j := by
  intro j
  have hstep : copy_from_pmbd dev dst sector (sectorToByte len) =
      copy_from_pmbd_buffered dev dst sector (sectorToByte len) := by
    simp only [copy_from_pmbd]
    rw [hbm, if_pos rfl]
  rw [hstep]
  exact copy_from_pmbd_buffered_spec dev dst sector len hlen j

/-- The destroyer drain at the heart of pmbd_write_barrier: flushing each
buffer of the list with budget num_blocks empties it, preserves the invariant
and the logical content, and leaves buffers outside the list untouched. -/
theorem barrier_fold_spec : ∀ (l : List Nat) (dev : Device), Inv dev →
    (∀ b ∈ l, b < dev.numBuffers) →
    ∃ dev2, (l.foldlM (fun d b =>
        match pmbd_buffer_check_and_flush d b ((d.buffers b).numBlocks) .destroyer with
        | none => none
        | some (_, d1) => some d1) dev) = some dev2 ∧
      Inv dev2 ∧ dev2.totalPB = dev.totalPB ∧ dev2.numBuffers = dev.numBuffers ∧
      dev2.bufferStride = dev.bufferStride ∧ dev2.bufmode = dev.bufmode ∧
      dev2.wpmodePte = dev.wpmodePte ∧
      (∀ a, logicalByte dev2 a = logicalByte dev a) ∧
      (∀ b, b ∈ l → (dev2.buffers b).numDirty = 0) ∧
      (∀ b, b ∉ l → dev2.buffers b = dev.buffers b) := by
  intro l
  induction l with
  | nil =>
    intro dev hInv hmem
    exact ⟨dev, rfl, hInv, rfl, rfl, rfl, rfl, rfl, fun _ => rfl,
      fun b hb => absurd hb (List.not_mem_nil b), fun _ _ => rfl⟩
  | cons b l ih =>
    intro dev hInv hmem
    have hb : b < dev.numBuffers := hmem b (List.mem_cons_self b l)
    have hwf := hInv.hwf b hb
    obtain ⟨dev', hflusheq, hInv', htot', hnbuf', hstride', hbufmode', hpte', hbufC',
      hN', hbatch', hspace', hpd', hpcl', hnd', hlog', hunbuf'⟩ :=
      pmbd_buffer_flush_spec dev b ((dev.buffers b).numBlocks) hInv hb
    have hchk : pmbd_buffer_check_and_flush dev b ((dev.buffers b).numBlocks) .destroyer =
        some (min ((dev.buffers b).numBlocks) (dev.buffers b).numDirty, dev') := hflusheq
    have hzero' : (dev'.buffers b).numDirty = 0 := by
      rw [hnd']
      have := hwf.hnd
      omega
    obtain ⟨dev2, hfold2, hInv2, htot2, hnbuf2, hstride2, hbufmode2, hpte2, hlog2,
      hzero2, hunch2⟩ :=
      ih dev' hInv' (fun c hc => by rw [hnbuf']; exact hmem c (List.mem_cons_of_mem b hc))
    refine ⟨dev2, ?_, hInv2, by rw [htot2, htot'], by rw [hnbuf2, hnbuf'],
      by rw [hstride2, hstride'], by rw [hbufmode2, hbufmode'], by rw [hpte2, hpte'],
      fun a => by rw [hlog2 a, hlog' a], ?_, ?_⟩
    · simp only [List.foldlM_cons]
      rw [hchk]
      exact hfold2
    · intro c hc
      by_cases hcl : c ∈ l
      · exact hzero2 c hcl
      · have hcb : c = b := by
          rcases List.mem_cons.mp hc with h | h
          · exact h
          · exact absurd h hcl
        subst hcb
        rw [hunch2 c hcl]
        exact hzero'
    · intro c hc
      have hcb : c ≠ b := fun he => hc (he ▸ List.mem_cons_self b l)
      have hcl : c ∉ l := fun he => hc (List.mem_cons_of_mem b he)
      rw [hunch2 c hcl]
      exact hbufC' c hcb

/-- pmbd_write_barrier: the destroyer drain of every buffer succeeds, empties
all the buffers, and preserves the invariant, the geometry and the logical
content of the device. -/
theorem pmbd_write_barrier_spec (dev : Device) (hInv : Inv dev) :
    ∃ dev2, pmbd_write_barrier dev = some dev2 ∧ Inv dev2 ∧
      dev2.totalPB = dev.totalPB ∧ dev2.numBuffers = dev.numBuffers ∧
      dev2.bufferStride = dev.bufferStride ∧ dev2.bufmode = dev.bufmode ∧
      dev2.wpmodePte = dev.wpmodePte ∧
      (∀ a, logicalByte dev2 a = logicalByte dev a) ∧
      (∀ b, b < dev2.numBuffers → (dev2.buffers b).numDirty = 0) := by
  obtain ⟨dev2, heq, hInv2, htot2, hnbuf2, hstride2, hbufmode2, hpte2, hlog2, hzero2,
    hunch2⟩ :=
    barrier_fold_spec (List.range dev.numBuffers) dev hInv
      (fun c hc => List.mem_range.mp hc)
  refine ⟨dev2, ?_, hInv2, htot2, hnbuf2, hstride2, hbufmode2, hpte2, hlog2, ?_⟩
  · simp only [pmbd_write_barrier]
    exact heq
  · intro c hc
    rw [hnbuf2] at hc
    exact hzero2 c (List.mem_range.mpr hc)

/-- With every buffer empty, a logical read is a PM read: the invariant rules
out any valid PBI link. -/
theorem logical_eq_mem_of_empty (dev : Device) (hInv : Inv dev)
    (hzero : ∀ b, b < dev.numBuffers → (dev.buffers b).numDirty = 0) :
    ∀ a, logicalByte dev a = dev.memSpace a := by
  intro a
  simp only [logicalByte]
  have hblt : bufIdOf dev (a / PB_SIZE) < dev.numBuffers := by
    unfold bufIdOf
    exact Nat.mod_lt _ hInv.hnb
  have hnv : ¬ dev.pbiBbn (a / PB_SIZE) <
      (dev.buffers (bufIdOf dev (a / PB_SIZE))).numBlocks := by
    intro hv
    by_cases hp : a / PB_SIZE < dev.totalPB
    · obtain ⟨⟨kk, hkk, _⟩, _⟩ := hInv.hdev _ hp hv
      rw [hzero _ hblt] at hkk
      omega
    · push_neg at hp
      rw [hInv.hhi _ hp] at hv
      have := (hInv.hwf _ hblt).hsent
      omega
  rw [if_neg hnv]

/-- A freshly created device satisfies the invariant. -/
theorem InitDevice_Inv (dev : Device) (h : InitDevice dev) : Inv dev := by
  refine ⟨h.hnb, h.hstride, ?_, ?_, ?_, ?_⟩
  · intro b hb
    refine ⟨h.hbufN b hb, h.hbufBatch b hb, h.hbufSent b hb, ?_, ?_, ?_, ?_, ?_, ?_, ?_, ?_⟩
    · rw [h.hbufNd b hb]
      exact Nat.zero_le _
    · rw [h.hbufPd b hb]
      exact h.hbufN b hb
    · rw [h.hbufPc b hb, h.hbufPd b hb, h.hbufNd b hb]
      simp
    · intro k hk
      rw [h.hbufNd b hb] at hk
      exact absurd hk (by omega)
    · intro k hk
      rw [h.hbufNd b hb] at hk
      exact absurd hk (by omega)
    · intro k hk
      rw [h.hbufNd b hb] at hk
      exact absurd hk (by omega)
    · intro k hk
      rw [h.hbufNd b hb] at hk
      exact absurd hk (by omega)
    · intro i _
      exact h.hbufPbn b hb i
  · intro p hp hv
    rw [h.hpbi p] at hv
    have hblt : bufIdOf dev p < dev.numBuffers := by
      unfold bufIdOf
      exact Nat.mod_lt _ h.hnb
    exact absurd hv (by have := h.hbufSent _ hblt; omega)
  · intro p _
    exact h.hpbi p
  · intro _ b hb
    exact h.hbufNd b hb

/-- Every reachable device state satisfies the invariant. -/
theorem reachable_Inv : ∀ {dev : Device}, Reachable dev → Inv dev := by
  intro dev h
  induction h with
  | init h0 => exact InitDevice_Inv _ h0
  | write src s len fua hR hlen hcap heq ih =>
    rename_i dev0 dev1
    by_cases hbm : dev0.bufmode = true
    · obtain ⟨dev1', heq', hInv', _⟩ := copy_to_pmbd_spec dev0 src s len fua ih hbm hlen hcap
      rw [heq'] at heq
      have h2 := Option.some.inj heq
      rw [← h2]
      exact hInv'
    · have hbf : dev0.bufmode = false := by
        cases hbv : dev0.bufmode
        · rfl
        · exact absurd hbv hbm
      simp only [copy_to_pmbd] at heq
      rw [hbf, if_neg (by decide : ¬ false = true)] at heq
      have h2 := Option.some.inj heq
      rw [← h2]
      exact copy_to_pmbd_unbuffered_Inv _ _ _ _ ih
  | flush b budget n hR hb heqf ih =>
    rename_i dev0 dev1
    obtain ⟨dev1', heq', hInv', _⟩ := pmbd_buffer_flush_spec dev0 b budget ih hb
    rw [heq'] at heqf
    have h2 : dev1' = dev1 := congrArg Prod.snd (Option.some.inj heqf)
    rw [← h2]
    exact hInv'
  | barrier hR heqb ih =>
    rename_i dev0 dev1
    obtain ⟨dev2, heq', hInv', _⟩ := pmbd_write_barrier_spec dev0 ih
    rw [heq'] at heqb
    have h2 := Option.some.inj heqb
    rw [← h2]
    exact hInv'

/-- The concrete device is a freshly created device. -/
theorem witInit : InitDevice witDevice :=
  ⟨by decide, by decide, fun _ => rfl,
   fun _ _ => by show (0 : Nat) < 2; decide,
   fun _ _ => by show (0 : Nat) < 1; decide,
   fun _ _ => by show (2 : Nat) ≤ 4 + 3; decide,
   fun _ _ => rfl, fun _ _ => rfl, fun _ _ => rfl,
   fun _ _ _ => rfl, fun _ _ _ => rfl⟩

/-- C6: pmbd_buffer_flush(dev, b, budget) returns exactly
min(budget, num_dirty at entry) — in particular 0 when the buffer is empty or
the budget is 0 — and on return has advanced pos_dirty by that count modulo N,
decreased num_dirty by the same count, kept N, and left the control fields
consistent (pos_clean = (pos_dirty + num_dirty) % N). -/
theorem flush_accounting (dev : Device) (b budget : Nat) (hInv : Inv dev)
    (hb : b < dev.numBuffers) :
    ∃ dev1, pmbd_buffer_flush dev b budget =
        some (min budget (dev.buffers b).numDirty, dev1) ∧
      ((dev.buffers b).numDirty = 0 ∨ budget = 0 →
        min budget (dev.buffers b).numDirty = 0) ∧
      (dev1.buffers b).posDirty = ((dev.buffers b).posDirty +
        min budget (dev.buffers b).numDirty) % (dev.buffers b).numBlocks ∧
      (dev1.buffers b).numDirty = (dev.buffers b).numDirty -
        min budget (dev.buffers b).numDirty ∧
      (dev1.buffers b).numBlocks = (dev.buffers b).numBlocks ∧
      (dev1.buffers b).posClean =
        ((dev1.buffers b).posDirty + (dev1.buffers b).numDirty) %
          (dev1.buffers b).numBlocks := by
  obtain ⟨dev1, heq, hInv1, htot1, hnbuf1, hstride1, hbufmode1, hpte1, hbufC, hN1,
    hbatch1, hspace1, hpd1, hpcl1, hnd1, hlog, hunbuf⟩ :=
    pmbd_buffer_flush_spec dev b budget hInv hb
  refine ⟨dev1, heq, fun h => by omega, hpd1, hnd1, hN1, ?_⟩
  exact (hInv1.hwf b (by rw [hnbuf1]; exact hb)).hpc

/-- C6 witness at the concrete device. -/
theorem flush_accounting_witness :
    Inv witDevice ∧ 0 < witDevice.numBuffers ∧
    (∃ dev1, pmbd_buffer_flush witDevice 0 5 =
        some (min 5 (witDevice.buffers 0).numDirty, dev1) ∧
      ((witDevice.buffers 0).numDirty = 0 ∨ 5 = 0 →
        min 5 (witDevice.buffers 0).numDirty = 0) ∧
      (dev1.buffers 0).posDirty = ((witDevice.buffers 0).posDirty +
        min 5 (witDevice.buffers 0).numDirty) % (witDevice.buffers 0).numBlocks ∧
      (dev1.buffers 0).numDirty = (witDevice.buffers 0).numDirty -
        min 5 (witDevice.buffers 0).numDirty ∧
      (dev1.buffers 0).numBlocks = (witDevice.buffers 0).numBlocks ∧
      (dev1.buffers 0).posClean =
        ((dev1.buffers 0).posDirty + (dev1.buffers 0).numDirty) %
          (dev1.buffers 0).numBlocks) :=
  ⟨InitDevice_Inv _ witInit, by decide,
   flush_accounting witDevice 0 5 (InitDevice_Inv _ witInit) (by decide)⟩

/-- C7: in every reachable state, every slot of the dirty window
[pos_dirty, pos_clean) is marked dirty (the allocator sets the mark in the
same buffer_lock critical section that reserves the slot), and consequently
the flush engine's scan never meets a clean slot: pmbd_buffer_flush never
takes its panic branch, returning some result for every budget. -/
theorem dirty_window_all_dirty (dev : Device) (hR : Reachable dev) (b : Nat)
    (hb : b < dev.numBuffers) :
    (∀ i, window (dev.buffers b) i → (dev.buffers b).bbiDirty i = true) ∧
    (∀ budget, pmbd_buffer_flush dev b budget ≠ none) := by
  have hInv := reachable_Inv hR
  constructor
  · intro i hi
    obtain ⟨k, hk, he⟩ := hi
    rw [he]
    exact (hInv.hwf b hb).hwdirty k hk
  · intro budget hnone
    obtain ⟨dev1, heq, _⟩ := pmbd_buffer_flush_spec dev b budget hInv hb
    rw [heq] at hnone
    cases hnone

/-- C7 witness at the concrete device. -/
theorem dirty_window_all_dirty_witness :
    Reachable witDevice ∧ 0 < witDevice.numBuffers ∧
    ((∀ i, window (witDevice.buffers 0) i → (witDevice.buffers 0).bbiDirty i = true) ∧
     (∀ budget, pmbd_buffer_flush witDevice 0 budget ≠ none)) :=
  ⟨Reachable.init witInit, by decide,
   dirty_window_all_dirty witDevice (Reachable.init witInit) 0 (by decide)⟩

/-- C8: in every reachable state, for every physical block p of the device,
pbi(p).bbn is a valid slot index of p's owning buffer if and only if the slot
metadata links back (bbi(pbi(p).bbn).pbn = p); and _pmbd_buffer_lookup returns
a BBI only when this link holds. -/
theorem pbi_bbi_binding (dev : Device) (hR : Reachable dev) (p : Nat)
    (hp : p < dev.totalPB) :
    (dev.pbiBbn p < (dev.buffers (bufIdOf dev p)).numBlocks ↔
      (dev.buffers (bufIdOf dev p)).bbiPbn (dev.pbiBbn p) = p) ∧
    (∀ bbn, _pmbd_buffer_lookup dev (bufIdOf dev p) p = some bbn →
      (dev.buffers (bufIdOf dev p)).bbiPbn bbn = p) := by
  have hInv := reachable_Inv hR
  have hblt : bufIdOf dev p < dev.numBuffers := by
    unfold bufIdOf
    exact Nat.mod_lt _ hInv.hnb
  constructor
  · constructor
    · intro hv
      exact (hInv.hdev p hp hv).2
    · intro hlink
      by_contra hnv
      push_neg at hnv
      rw [(hInv.hwf _ hblt).hout _ hnv] at hlink
      omega
  · intro bbn hlk
    simp only [_pmbd_buffer_lookup] at hlk
    by_cases hv : dev.pbiBbn p < (dev.buffers (bufIdOf dev p)).numBlocks
    · rw [if_pos hv] at hlk
      rw [← Option.some.inj hlk]
      exact (hInv.hdev p hp hv).2
    · rw [if_neg hv] at hlk
      exact Option.noConfusion hlk

/-- C8 witness at the concrete device. -/
theorem pbi_bbi_binding_witness :
    Reachable witDevice ∧ 2 < witDevice.totalPB ∧
    ((witDevice.pbiBbn 2 < (witDevice.buffers (bufIdOf witDevice 2)).numBlocks ↔
      (witDevice.buffers (bufIdOf witDevice 2)).bbiPbn (witDevice.pbiBbn 2) = 2) ∧
     (∀ bbn, _pmbd_buffer_lookup witDevice (bufIdOf witDevice 2) 2 = some bbn →
      (witDevice.buffers (bufIdOf witDevice 2)).bbiPbn bbn = 2)) :=
  ⟨Reachable.init witInit, by decide,
   pbi_bbi_binding witDevice (Reachable.init witInit) 2 (by decide)⟩

/-- C1: write-then-read round-trip. On every reachable device, for every
in-capacity sector range, copy_to_pmbd (FUA or not) followed by
copy_from_pmbd of the same range returns exactly the written bytes — in
buffered mode as well as in unbuffered mode, and still after the staged
blocks have been flushed to PM by a write barrier in between. -/
theorem write_read_roundtrip (dev : Device) (src dst : Nat → Byte) (s len : Nat)
    (fua : Bool) (hR : Reachable dev) (hlen : 0 < len)
    (hcap : s + len ≤ pbnToSector dev.totalPB) :
    ∃ dev1, copy_to_pmbd dev src s (sectorToByte len) fua = some dev1 ∧
      (∀ j, j < sectorToByte len →
        copy_from_pmbd dev1 dst s (sectorToByte len) j = src j) ∧
      (∀ dev2, pmbd_write_barrier dev1 = some dev2 →
        ∀ j, j < sectorToByte len →
          copy_from_pmbd dev2 dst s (sectorToByte len) j = src j) := by
  have hInv := reachable_Inv hR
  by_cases hbm : dev.bufmode = true
  · -- buffered device: read through the logical content
    obtain ⟨dev1, heq, hInv1, htot1, hnbuf1, hstride1, hbufmode1, hpte1, hLog1⟩ :=
      copy_to_pmbd_spec dev src s len fua hInv hbm hlen hcap
    have hbm1 : dev1.bufmode = true := by
      rw [hbufmode1]
      exact hbm
    have hread1 : ∀ j, j < sectorToByte len →
        logicalByte dev1 (sectorToByte s + j) = src j := by
      intro j hj
      have h1 := hLog1 (sectorToByte s + j)
      have hcov : sectorToByte s ≤ sectorToByte s + j ∧
          sectorToByte s + j < sectorToByte (s + len) := by
        simp only [sectorToByte, SECTOR_SIZE] at hj ⊢
        omega
      rw [if_pos hcov] at h1
      rw [h1]
      apply congrArg
      simp only [sectorToByte, SECTOR_SIZE]
      omega
    refine ⟨dev1, heq, ?_, ?_⟩
    · intro j hj
      rw [copy_from_pmbd_spec dev1 dst s len hbm1 hlen j, if_pos hj]
      exact hread1 j hj
    · intro dev2 hbar j hj
      obtain ⟨dev2', hbar', hInv2, htot2, hnbuf2, hstride2, hbufmode2, hpte2, hlog2,
        hzero2⟩ := pmbd_write_barrier_spec dev1 hInv1
      rw [hbar'] at hbar
      rw [← Option.some.inj hbar]
      have hbm2 : dev2'.bufmode = true := by
        rw [hbufmode2]
        exact hbm1
      rw [copy_from_pmbd_spec dev2' dst s len hbm2 hlen j, if_pos hj,
        hlog2 (sectorToByte s + j)]
      exact hread1 j hj
  · -- unbuffered device: the PM window is read and written directly
    have hbf : dev.bufmode = false := by
      cases hbv : dev.bufmode
      · rfl
      · exact absurd hbv hbm
    set dev1 := copy_to_pmbd_unbuffered dev src s (sectorToByte len) with hdev1
    have heq : copy_to_pmbd dev src s (sectorToByte len) fua = some dev1 := by
      simp only [copy_to_pmbd]
      rw [hbf, if_neg (by decide : ¬ false = true), hdev1]
    have hInv1 : Inv dev1 := by
      rw [hdev1]
      exact copy_to_pmbd_unbuffered_Inv _ _ _ _ hInv
    have hbm1 : dev1.bufmode = false := hbf
    have hmem1 : dev1.memSpace =
        memcpy dev.memSpace (s * SECTOR_SIZE) src 0 (sectorToByte len) := rfl
    have hread : ∀ (d : Device), d.bufmode = false →
        (∀ a, d.memSpace a = dev1.memSpace a) →
        ∀ j, j < sectorToByte len →
          copy_from_pmbd d dst s (sectorToByte len) j = src j := by
      intro d hdbm hdm j hj
      have hstep : copy_from_pmbd d dst s (sectorToByte len) =
          copy_from_pmbd_unbuffered d dst s (sectorToByte len) := by
        simp only [copy_from_pmbd]
        rw [hdbm, if_neg (by decide : ¬ false = true)]
      rw [hstep]
      simp only [copy_from_pmbd_unbuffered, memcpy]
      rw [hdm, hmem1]
      simp only [memcpy, PB_SIZE, sectorToByte, SECTOR_SIZE] at hj ⊢
      split_ifs with h1 h2 <;>
        first
        | (apply congrArg
           omega)
        | (exfalso
           omega)
    refine ⟨dev1, heq, hread dev1 hbm1 (fun _ => rfl), ?_⟩
    intro dev2 hbar j hj
    obtain ⟨dev2', hbar', hInv2, htot2, hnbuf2, hstride2, hbufmode2, hpte2, hlog2,
      hzero2⟩ := pmbd_write_barrier_spec dev1 hInv1
    rw [hbar'] at hbar
    rw [← Option.some.inj hbar]
    have hbm2 : dev2'.bufmode = false := by
      rw [hbufmode2]
      exact hbm1
    have hmem21 : ∀ a, dev2'.memSpace a = dev1.memSpace a := by
      intro a
      rw [← logical_eq_mem_of_empty dev2' hInv2 hzero2 a, hlog2 a,
        logical_eq_mem_of_empty dev1 hInv1 (hInv1.hbufoff hbm1) a]
    exact hread dev2' hbm2 hmem21 j hj

/-- C1 witness at the concrete device: a one-sector write at sector 1. -/
theorem write_read_roundtrip_witness :
    Reachable witDevice ∧ 0 < 1 ∧ 1 + 1 ≤ pbnToSector witDevice.totalPB ∧
    (∃ dev1, copy_to_pmbd witDevice witSrc 1 (sectorToByte 1) false = some dev1 ∧
      (∀ j, j < sectorToByte 1 →
        copy_from_pmbd dev1 (fun _ => 0) 1 (sectorToByte 1) j = witSrc j) ∧
      (∀ dev2, pmbd_write_barrier dev1 = some dev2 →
        ∀ j, j < sectorToByte 1 →
          copy_from_pmbd dev2 (fun _ => 0) 1 (sectorToByte 1) j = witSrc j)) :=
  ⟨Reachable.init witInit, by decide, by decide,
   write_read_roundtrip witDevice witSrc (fun _ => 0) 1 1 false (Reachable.init witInit)
     (by decide) (by decide)⟩

/-- C2: barrier durability. On a reachable buffered device, after a write of
len sectors at sector s followed by pmbd_write_barrier, every buffer of the
device has num_dirty = 0 and the PM window itself — not just the DRAM staging
buffer — holds the written bytes at the covered range. -/
theorem barrier_durability (dev : Device) (src : Nat → Byte) (s len : Nat)
    (hR : Reachable dev) (hbm : dev.bufmode = true) (hlen : 0 < len)
    (hcap : s + len ≤ pbnToSector dev.totalPB) :
    ∃ dev1 dev2, copy_to_pmbd dev src s (sectorToByte len) false = some dev1 ∧
      pmbd_write_barrier dev1 = some dev2 ∧
      (∀ b, b < dev2.numBuffers → (dev2.buffers b).numDirty = 0) ∧
      (∀ j, j < sectorToByte len → dev2.memSpace (sectorToByte s + j) = src j) := by
  have hInv := reachable_Inv hR
  obtain ⟨dev1, heq, hInv1, htot1, hnbuf1, hstride1, hbufmode1, hpte1, hLog1⟩ :=
    copy_to_pmbd_spec dev src s len false hInv hbm hlen hcap
  obtain ⟨dev2, hbar, hInv2, htot2, hnbuf2, hstride2, hbufmode2, hpte2, hlog2, hzero2⟩ :=
    pmbd_write_barrier_spec dev1 hInv1
  refine ⟨dev1, dev2, heq, hbar, hzero2, ?_⟩
  intro j hj
  rw [← logical_eq_mem_of_empty dev2 hInv2 hzero2 (sectorToByte s + j),
    hlog2 (sectorToByte s + j)]
  have h1 := hLog1 (sectorToByte s + j)
  have hcov : sectorToByte s ≤ sectorToByte s + j ∧
      sectorToByte s + j < sectorToByte (s + len) := by
    simp only [sectorToByte, SECTOR_SIZE] at hj ⊢
    omega
  rw [if_pos hcov] at h1
  rw [h1]
  apply congrArg
  simp only [sectorToByte, SECTOR_SIZE]
  omega

/-- C2 witness: write one full block (8 sectors of the pattern) at sector 8
(physical block 1), barrier, and the PM window holds the pattern. -/
theorem barrier_durability_witness :
    Reachable witDevice ∧ witDevice.bufmode = true ∧ 0 < 8 ∧
    8 + 8 ≤ pbnToSector witDevice.totalPB ∧
    (∃ dev1 dev2, copy_to_pmbd witDevice witSrc 8 (sectorToByte 8) false = some dev1 ∧
      pmbd_write_barrier dev1 = some dev2 ∧
      (∀ b, b < dev2.numBuffers → (dev2.buffers b).numDirty = 0) ∧
      (∀ j, j < sectorToByte 8 → dev2.memSpace (sectorToByte 8 + j) = witSrc j)) :=
  ⟨Reachable.init witInit, by decide, by decide, by decide,
   barrier_durability witDevice witSrc 8 8 (Reachable.init witInit) (by decide)
     (by decide) (by decide)⟩

/-- C3: sub-block write frame effect. On a reachable buffered device, when the
written sector range does not consist of whole physical blocks (the offset or
the length is not a multiple of 8 sectors), reading back any sector outside
the written range — in particular the untouched sectors of the partially
covered physical blocks — returns the same bytes after the write as before:
on the allocation path the slot is hydrated with the whole 4096-byte block
from PM before the partial range is written into it. -/
theorem subblock_write_frame (dev : Device) (src dst : Nat → Byte) (s len : Nat)
    (hR : Reachable dev) (hbm : dev.bufmode = true) (hlen : 0 < len)
    (hcap : s + len ≤ pbnToSector dev.totalPB)
    (hsub : ¬ (s % 8 = 0 ∧ len % 8 = 0)) :
    ∃ dev1, copy_to_pmbd dev src s (sectorToByte len) false = some dev1 ∧
      ∀ t, t + 1 ≤ pbnToSector dev.totalPB → (t < s ∨ s + len ≤ t) →
        ∀ j, j < SECTOR_SIZE →
          copy_from_pmbd dev1 dst t (sectorToByte 1) j =
          copy_from_pmbd dev dst t (sectorToByte 1) j := by
  have hInv := reachable_Inv hR
  obtain ⟨dev1, heq, hInv1, htot1, hnbuf1, hstride1, hbufmode1, hpte1, hLog1⟩ :=
    copy_to_pmbd_spec dev src s len false hInv hbm hlen hcap
  have hbm1 : dev1.bufmode = true := by
    rw [hbufmode1]
    exact hbm
  refine ⟨dev1, heq, ?_⟩
  intro t hcapt ht j hj
  rw [copy_from_pmbd_spec dev1 dst t 1 hbm1 (by omega) j,
    copy_from_pmbd_spec dev dst t 1 hbm (by omega) j]
  have hjb : j < sectorToByte 1 := by
    simp only [sectorToByte, SECTOR_SIZE] at hj ⊢
    omega
  have hnc : ¬ (sectorToByte s ≤ sectorToByte t + j ∧
      sectorToByte t + j < sectorToByte (s + len)) := by
    simp only [sectorToByte, SECTOR_SIZE] at hj ⊢
    omega
  rw [if_pos hjb, hLog1 (sectorToByte t + j), if_neg hnc, if_pos hjb]

/-- C3 witness: a one-sector write at sector 1 (inside physical block 0);
reading back sector 0 and sector 2 is unchanged. -/
theorem subblock_write_frame_witness :
    Reachable witDevice ∧ witDevice.bufmode = true ∧ 0 < 1 ∧
    1 + 1 ≤ pbnToSector witDevice.totalPB ∧ ¬ ((1 : Nat) % 8 = 0 ∧ (1 : Nat) % 8 = 0) ∧
    (∃ dev1, copy_to_pmbd witDevice witSrc 1 (sectorToByte 1) false = some dev1 ∧
      ∀ t, t + 1 ≤ pbnToSector witDevice.totalPB → (t < 1 ∨ 1 + 1 ≤ t) →
        ∀ j, j < SECTOR_SIZE →
          copy_from_pmbd dev1 (fun _ => 0) t (sectorToByte 1) j =
          copy_from_pmbd witDevice (fun _ => 0) t (sectorToByte 1) j) :=
  ⟨Reachable.init witInit, by decide, by decide, by decide, by decide,
   subblock_write_frame witDevice witSrc (fun _ => 0) 1 1 (Reachable.init witInit)
     (by decide) (by decide) (by decide) (by decide)⟩

end Pmbd
